import Mathlib

/-!
Shallow embedding of the rLox tree-walking interpreter (scanner excluded):
the token/AST data model, the recursive-descent parser (`src/parser.rs`),
the environment chain (`src/environment.rs`), the value domain
(`src/value.rs`) and the evaluator (`src/interpreter.rs`,
`src/loxfunction.rs`), together with theorems checking the specification's
claims about them.

Modelling conventions:
* Rust `f64` is modelled by `RLox.F64`, a tagged union of exact finite
  values (as rationals), the two infinities and NaN; IEEE-754 equality,
  ordering and the zero-divisor cases of division are modelled exactly,
  while rounding of finite arithmetic is not (no claim depends on it).
* Rust panics (`panic!`, `unreachable!`, out-of-bounds indexing, integer
  underflow, `Option::unwrap` on `None`) are modelled by an explicit
  `crash` outcome.
* Possible non-termination (loops, recursive calls) is modelled with a
  fuel parameter; running out of fuel is the explicit outcome `diverge`.
* Process side effects (stdout printing, stderr error reporting, the
  global `had_error` / `had_runtime_error` flags of `main.rs`) are
  modelled as explicit fields threaded through the state.
-/

namespace RLox

/-- Token type tags. The file `src/token_type.rs` is not part of the
source snapshot; the constructor set is reconstructed from its uses in
`src/scanner.rs`, `src/parser.rs` and `src/interpreter.rs`. -/
inductive TokenType where
  | LEFT_PAREN | RIGHT_PAREN | LEFT_BRACE | RIGHT_BRACE
  | COMMA | DOT | MINUS | PLUS | SEMICOLON | SLASH | STAR
  | BANG | BANG_EQUAL | EQUAL | EQUAL_EQUAL
  | GREATER | GREATER_EQUAL | LESS | LESS_EQUAL
  | IDENTIFIER | STRING | NUMBER
  | AND | CLASS | ELSE | FALSE | FUN | FOR | IF | NIL | OR
  | PRINT | RETURN | SUPER | THIS | TRUE | VAR | WHILE
  | EOF
deriving DecidableEq, Repr

/-- Model of Rust `f64` (`src/value.rs` stores `Value::Number(f64)`):
finite values are carried exactly as rationals; the IEEE-754 special
values are explicit constructors. -/
inductive F64 where
  | finite (q : ℚ)
  | inf
  | neginf
  | nan
deriving DecidableEq, Repr

/-- IEEE-754 `==` on doubles, as used by Rust's derived `PartialEq` for
`Value::Number`: NaN compares unequal to everything, including itself. -/
def F64.beq : F64 → F64 → Bool
  | .finite a, .finite b => a == b
  | .inf, .inf => true
  | .neginf, .neginf => true
  | _, _ => false

/-- IEEE-754 negation (exact, no rounding involved). -/
def F64.neg : F64 → F64
  | .finite q => .finite (-q)
  | .inf => .neginf
  | .neginf => .inf
  | .nan => .nan

/-- IEEE-754 addition; rounding of finite results is not modelled. -/
def F64.add : F64 → F64 → F64
  | .finite a, .finite b => .finite (a + b)
  | .nan, _ => .nan
  | _, .nan => .nan
  | .inf, .neginf => .nan
  | .neginf, .inf => .nan
  | .inf, _ => .inf
  | _, .inf => .inf
  | .neginf, _ => .neginf
  | _, .neginf => .neginf

/-- IEEE-754 subtraction; rounding of finite results is not modelled. -/
def F64.sub : F64 → F64 → F64
  | .finite a, .finite b => .finite (a - b)
  | a, b => F64.add a (F64.neg b)

/-- IEEE-754 multiplication; rounding of finite results is not modelled. -/
def F64.mul : F64 → F64 → F64
  | .finite a, .finite b => .finite (a * b)
  | .nan, _ => .nan
  | _, .nan => .nan
  | .inf, .finite b => if b = 0 then .nan else if 0 < b then .inf else .neginf
  | .neginf, .finite b => if b = 0 then .nan else if 0 < b then .neginf else .inf
  | .finite a, .inf => if a = 0 then .nan else if 0 < a then .inf else .neginf
  | .finite a, .neginf => if a = 0 then .nan else if 0 < a then .neginf else .inf
  | .inf, .inf => .inf
  | .inf, .neginf => .neginf
  | .neginf, .inf => .neginf
  | .neginf, .neginf => .inf

/-- IEEE-754 division. The zero-divisor cases are exact IEEE semantics
(`0/0` is NaN, `x/0` is a signed infinity); rounding of finite quotients
is not modelled. The sign of zero is not modelled (a zero divisor is
treated as `+0`). -/
def F64.div : F64 → F64 → F64
  | .finite a, .finite b =>
      if b = 0 then (if a = 0 then .nan else if 0 < a then .inf else .neginf)
      else .finite (a / b)
  | .nan, _ => .nan
  | _, .nan => .nan
  | .inf, .inf => .nan
  | .inf, .neginf => .nan
  | .neginf, .inf => .nan
  | .neginf, .neginf => .nan
  | .inf, .finite b => if 0 ≤ b then .inf else .neginf
  | .neginf, .finite b => if 0 ≤ b then .neginf else .inf
  | .finite a, .inf => F64.finite 0 |>.mul (.finite a) |> fun _ => .finite 0
  | .finite a, .neginf => F64.finite 0 |>.mul (.finite a) |> fun _ => .finite 0

/-- IEEE-754 partial comparison, as produced by Rust's
`f64::partial_cmp`: `none` exactly when an operand is NaN. -/
def F64.cmp : F64 → F64 → Option Ordering
  | .nan, _ => none
  | _, .nan => none
  | .finite a, .finite b => some (compare a b)
  | .neginf, .neginf => some .eq
  | .inf, .inf => some .eq
  | .neginf, _ => some .lt
  | _, .neginf => some .gt
  | .inf, _ => some .gt
  | _, .inf => some .lt

/-- Literal payload of a token (`src/token.rs`, enum `Literal`). -/
inductive Literal where
  | String (s : String)
  | Number (n : F64)
  | Bool (b : Bool)
  | Nil
deriving DecidableEq, Repr

/-- Token record (`src/token.rs`, struct `Token`). -/
structure Token where
  token_type : TokenType
  lexeme : String
  literal : Option Literal
  line : Int
deriving DecidableEq, Repr

/-- Expression AST (`src/expr.rs`, enum `Expr`). -/
inductive Expr where
  | Binary (left : Expr) (operator : Token) (right : Expr)
  | Grouping (expression : Expr)
  | Literal (value : Literal)
  | Unary (operator : Token) (right : Expr)
  | Variable (name : Token)
  | Assign (name : Token) (value : Expr)
  | Logical (left : Expr) (operator : Token) (right : Expr)
  | Call (callee : Expr) (paren : Token) (arguments : List Expr)
deriving Repr

/-- Statement AST. The snapshot's `src/stmt.rs` declares `Expression`,
`Print`, `Var`, `Block` and `If`; the `While`, `Function` and `Return`
variants it lacks are reconstructed exactly from their construction
sites in `src/parser.rs` and their match arms in `src/interpreter.rs`
(the snapshot's `stmt.rs` is stale with respect to those files). -/
inductive Stmt where
  | Expression (expression : Expr)
  | Print (expression : Expr)
  | Var (name : Token) (init : Option Expr)
  | Block (statements : List Stmt)
  | If (condition : Expr) (then_branch : Stmt) (else_branch : Option Stmt)
  | While (condition : Expr) (body : Stmt)
  | Function (name : Token) (params : List Token) (body : List Stmt)
  | Return (keyword : Token) (value : Option Expr)
deriving Repr

end RLox

namespace RLox

/-- Function record (`src/loxfunction.rs`, struct `Declaration`). -/
structure Declaration where
  name : Token
  params : List Token
  body : List Stmt
deriving Repr

/-- A declared function value (`src/loxfunction.rs`, struct
`LoxFunction`): it stores only its declaration (no captured closure
environment). -/
structure LoxFunction where
  declaration : Declaration
deriving Repr

/-- Constructor `LoxFunction::new`. -/
def LoxFunction.new (name : Token) (params : List Token) (body : List Stmt) :
    LoxFunction :=
  { declaration := { name := name, params := params, body := body } }

/-- Declared parameter count (`LoxFunction::arity`). -/
def LoxFunction.arity (f : LoxFunction) : Nat :=
  f.declaration.params.length

/-- Runtime value domain (`src/value.rs`, enum `Value`). -/
inductive Value where
  | Number (n : F64)
  | Boolean (b : Bool)
  | String (s : String)
  | Nil
  | LoxFunction (f : RLox.LoxFunction)
deriving Repr

/-- Equality test on tokens, mirroring the derived `PartialEq` for
`Token` (with IEEE equality on number literals). -/
def Token.beq (a b : Token) : Bool :=
  a.token_type == b.token_type && a.lexeme == b.lexeme &&
    (match a.literal, b.literal with
      | none, none => true
      | some (.Number x), some (.Number y) => F64.beq x y
      | some la, some lb => la == lb
      | _, _ => false) &&
    a.line == b.line

mutual

/-- Equality test mirroring the derived `PartialEq` for `Expr`. -/
def Expr.beq : Expr → Expr → Bool
  | .Binary l1 o1 r1, .Binary l2 o2 r2 =>
      Expr.beq l1 l2 && Token.beq o1 o2 && Expr.beq r1 r2
  | .Grouping e1, .Grouping e2 => Expr.beq e1 e2
  | .Literal (.Number x), .Literal (.Number y) => F64.beq x y
  | .Literal v1, .Literal v2 => v1 == v2
  | .Unary o1 r1, .Unary o2 r2 => Token.beq o1 o2 && Expr.beq r1 r2
  | .Variable n1, .Variable n2 => Token.beq n1 n2
  | .Assign n1 v1, .Assign n2 v2 => Token.beq n1 n2 && Expr.beq v1 v2
  | .Logical l1 o1 r1, .Logical l2 o2 r2 =>
      Expr.beq l1 l2 && Token.beq o1 o2 && Expr.beq r1 r2
  | .Call c1 p1 a1, .Call c2 p2 a2 =>
      Expr.beq c1 c2 && Token.beq p1 p2 && Expr.beqList a1 a2
  | _, _ => false

/-- Elementwise equality of expression lists (derived `PartialEq` for
`Vec<Expr>`). -/
def Expr.beqList : List Expr → List Expr → Bool
  | [], [] => true
  | x :: xs, y :: ys => Expr.beq x y && Expr.beqList xs ys
  | _, _ => false

end

mutual

/-- Equality test mirroring the derived `PartialEq` for `Stmt`. -/
def Stmt.beq : Stmt → Stmt → Bool
  | .Expression e1, .Expression e2 => Expr.beq e1 e2
  | .Print e1, .Print e2 => Expr.beq e1 e2
  | .Var n1 i1, .Var n2 i2 =>
      Token.beq n1 n2 &&
        (match i1, i2 with
          | none, none => true
          | some e1, some e2 => Expr.beq e1 e2
          | _, _ => false)
  | .Block s1, .Block s2 => Stmt.beqList s1 s2
  | .If c1 t1 e1, .If c2 t2 e2 =>
      Expr.beq c1 c2 && Stmt.beq t1 t2 &&
        (match e1, e2 with
          | none, none => true
          | some a, some b => Stmt.beq a b
          | _, _ => false)
  | .While c1 b1, .While c2 b2 => Expr.beq c1 c2 && Stmt.beq b1 b2
  | .Function n1 p1 b1, .Function n2 p2 b2 =>
      Token.beq n1 n2 && (p1.length == p2.length &&
        (List.zip p1 p2).all fun pr => Token.beq pr.1 pr.2) &&
        Stmt.beqList b1 b2
  | .Return k1 v1, .Return k2 v2 =>
      Token.beq k1 k2 &&
        (match v1, v2 with
          | none, none => true
          | some a, some b => Expr.beq a b
          | _, _ => false)
  | _, _ => false

/-- Elementwise equality of statement lists. -/
def Stmt.beqList : List Stmt → List Stmt → Bool
  | [], [] => true
  | x :: xs, y :: ys => Stmt.beq x y && Stmt.beqList xs ys
  | _, _ => false

end

/-- Equality test mirroring the derived `PartialEq` for `LoxFunction`
(field-wise on the declaration). -/
def LoxFunction.beq (f g : LoxFunction) : Bool :=
  Token.beq f.declaration.name g.declaration.name &&
    (f.declaration.params.length == g.declaration.params.length &&
      (List.zip f.declaration.params g.declaration.params).all
        fun pr => Token.beq pr.1 pr.2) &&
    Stmt.beqList f.declaration.body g.declaration.body

/-- Value equality, mirroring the derived `PartialEq` for `Value`:
same-tag values compare componentwise (IEEE equality for numbers),
different tags compare unequal. -/
def Value.beq : Value → Value → Bool
  | .Number a, .Number b => F64.beq a b
  | .Boolean a, .Boolean b => a == b
  | .String a, .String b => a == b
  | .Nil, .Nil => true
  | .LoxFunction f, .LoxFunction g => LoxFunction.beq f g
  | _, _ => false

/-- Truthiness used by `Logical` and `While` (`Value::is_true` in
`src/value.rs`): a boolean yields its own value, every non-boolean
value is falsy. -/
def Value.is_true : Value → Bool
  | .Boolean b => b
  | _ => false

/-- Logical negation (`impl std::ops::Not for Value`): `false` and
`nil` are falsy, every other value is truthy, and the result is the
negated boolean. -/
def Value.notValue : Value → Value
  | .Boolean b => .Boolean (!b)
  | .Nil => .Boolean (!false)
  | _ => .Boolean (!true)

/-- Partial comparison mirroring `impl PartialOrd for Value`:
same-tag values compare componentwise, different tags are incomparable
(`None`). -/
def Value.cmp : Value → Value → Option Ordering
  | .Number a, .Number b => F64.cmp a b
  | .Boolean a, .Boolean b => some (compare a b)
  | .String a, .String b => some (compare a b)
  | .Nil, .Nil => some .eq
  | _, _ => none

end RLox

namespace RLox

/-- Result of a value-level operator that can panic (the `panic!` arms
of the `std::ops` impls in `src/value.rs`). -/
inductive VRes where
  | ok (v : Value)
  | crash (msg : String)
deriving Repr

/-- Unary negation (`impl std::ops::Neg for Value`): defined for
numbers only, panics otherwise. -/
def Value.negValue : Value → VRes
  | .Number n => .ok (.Number (F64.neg n))
  | _ => .crash "Unary negation is only defined for numbers"

/-- Addition (`impl std::ops::Add for Value`): number+number or
string+string (concatenation), panics otherwise. -/
def Value.addValue : Value → Value → VRes
  | .Number l, .Number r => .ok (.Number (F64.add l r))
  | .String l, .String r => .ok (.String (l ++ r))
  | _, _ => .crash "Addition is only defined for two numbers or two strings"

/-- Subtraction (`impl std::ops::Sub for Value`). -/
def Value.subValue : Value → Value → VRes
  | .Number l, .Number r => .ok (.Number (F64.sub l r))
  | _, _ => .crash "Subtraction is only defined for two numbers"

/-- Multiplication (`impl std::ops::Mul for Value`). -/
def Value.mulValue : Value → Value → VRes
  | .Number l, .Number r => .ok (.Number (F64.mul l r))
  | _, _ => .crash "Multiplication is only defined for two numbers"

/-- Division (`impl std::ops::Div for Value`). -/
def Value.divValue : Value → Value → VRes
  | .Number l, .Number r => .ok (.Number (F64.div l r))
  | _, _ => .crash "Division is only defined for two numbers"

/-- Rust `a > b` for a `PartialOrd` type: true exactly when
`partial_cmp` returns `Greater`. -/
def Value.gtValue (a b : Value) : Bool :=
  Value.cmp a b == some .gt

/-- Rust `a >= b`: `partial_cmp` returns `Greater` or `Equal`. -/
def Value.geValue (a b : Value) : Bool :=
  Value.cmp a b == some .gt || Value.cmp a b == some .eq

/-- Rust `a < b`: `partial_cmp` returns `Less`. -/
def Value.ltValue (a b : Value) : Bool :=
  Value.cmp a b == some .lt

/-- Rust `a <= b`: `partial_cmp` returns `Less` or `Equal`. -/
def Value.leValue (a b : Value) : Bool :=
  Value.cmp a b == some .lt || Value.cmp a b == some .eq

/-- Error/result channel of the interpreter and parser
(`src/loxresult.rs`, enum `LoxResult`). -/
inductive LoxResult where
  | RuntimeError (token : Token) (message : String)
  | ParseError (token : Token) (message : String)
  | ReturnValue (value : Value)
  | Break
deriving Repr

/-- A lexical scope (`src/environment.rs`, struct `Environment`): a
map from names to values (the `HashMap` is modelled as an association
list with insert-overwrites-existing semantics) plus an optional owned
enclosing scope. -/
inductive Environment where
  | frame (values : List (String × Value)) (enclosing : Option Environment)

/-- Local bindings of the innermost frame. -/
def Environment.values : Environment → List (String × Value)
  | .frame vs _ => vs

/-- Enclosing scope link of the innermost frame. -/
def Environment.enclosing : Environment → Option Environment
  | .frame _ enc => enc

/-- HashMap lookup on the binding list. -/
def lookupVal : List (String × Value) → String → Option Value
  | [], _ => none
  | (k, v) :: rest, name => if k = name then some v else lookupVal rest name

/-- HashMap insert on the binding list: overwrites an existing binding
for the key, otherwise adds one. -/
def insertVal : List (String × Value) → String → Value → List (String × Value)
  | [], name, v => [(name, v)]
  | (k, w) :: rest, name, v =>
      if k = name then (k, v) :: rest else (k, w) :: insertVal rest name v

/-- HashMap `contains_key` on the binding list. -/
def containsVal : List (String × Value) → String → Bool
  | [], _ => false
  | (k, _) :: rest, name => k = name || containsVal rest name

/-- Fresh empty global scope (`Environment::new` /
`Environment::default`). -/
def Environment.new : Environment := .frame [] none

/-- Define a variable in the local frame only (`Environment::define`);
always succeeds, overwriting any local binding of the same name. -/
def Environment.define : Environment → String → Value → Environment
  | .frame vs enc, name, v => .frame (insertVal vs name v) enc

/-- Create a child scope whose enclosing scope is the given one
(`Environment::new_enclosing`). -/
def Environment.new_enclosing (enc : Environment) : Environment :=
  .frame [] (some enc)

/-- Clone of the enclosing scope (`Environment::get_enclosing_env`). -/
def Environment.get_enclosing_env : Environment → Option Environment
  | .frame _ enc => enc

/-- Variable lookup through the scope chain (`Environment::get`):
local frame first, then the enclosing chain; an exhausted chain is the
"Undefined variable" runtime error naming the token. -/
def Environment.get : Environment → Token → Except LoxResult Value
  | .frame vs enc, name =>
      match lookupVal vs name.lexeme with
      | some v => .ok v
      | none =>
          match enc with
          | some e => Environment.get e name
          | none =>
              .error (.RuntimeError name
                ("Undefined variable '" ++ name.lexeme ++ "'."))

/-- Assignment through the scope chain (`Environment::assign`):
overwrite in the local frame if the name is bound there, else delegate
to the enclosing scope; an exhausted chain is the "Undefined variable"
runtime error and no binding is created. -/
def Environment.assign : Environment → Token → Value → Except LoxResult Environment
  | .frame vs enc, name, v =>
      if containsVal vs name.lexeme then
        .ok (.frame (insertVal vs name.lexeme v) enc)
      else
        match enc with
        | some e =>
            match Environment.assign e name v with
            | .ok e' => .ok (.frame vs (some e'))
            | .error err => .error err
        | none =>
            .error (.RuntimeError name
              ("Undefined variable '" ++ name.lexeme ++ "'."))

end RLox

namespace RLox

/-- Interpreter state (`src/interpreter.rs`, struct `Interpreter`).
The Rust struct has the two `Environment` fields; `output` models the
stdout lines written by `println!` in the `Print` arm (as the printed
values), and `reported` / `hadRuntimeError` model the stderr reporting
and the global `had_runtime_error` flag of `Lox::runtime_error` in
`src/main.rs`. -/
structure Interpreter where
  globals : Environment
  environment : Environment
  output : List Value
  reported : List LoxResult
  hadRuntimeError : Bool

/-- Fresh interpreter (`Interpreter::new`). -/
def Interpreter.new : Interpreter :=
  { globals := Environment.new
    environment := Environment.new
    output := []
    reported := []
    hadRuntimeError := false }

/-- Outcome of running interpreter code: a normal result, an error on
the `LoxResult` channel, a Rust panic, or fuel exhaustion (the
modelling device for possible non-termination). -/
inductive Outcome (α : Type) where
  | ok (a : α)
  | err (e : LoxResult)
  | crash (msg : String)
  | diverge
deriving Repr

/-- Lift a value-operator result into an evaluation outcome. -/
def VRes.toOutcome : VRes → Outcome Value
  | .ok v => .ok v
  | .crash m => .crash m

/-- Sequencing mirroring Rust's `?` operator on evaluation results. -/
def thenV (r : Outcome Value × Interpreter)
    (f : Value → Interpreter → Outcome Value × Interpreter) :
    Outcome Value × Interpreter :=
  match r with
  | (.ok v, s) => f v s
  | (.err e, s) => (.err e, s)
  | (.crash m, s) => (.crash m, s)
  | (.diverge, s) => (.diverge, s)

/-- Operand type check for numeric operators
(`Interpreter::check_number_operands`). -/
def check_number_operands (operator : Token) (left right : Value) :
    Except LoxResult Unit :=
  match left, right with
  | .Number _, .Number _ => .ok ()
  | _, _ => .error (.RuntimeError operator "Operand must be a number")

/-- Parameter binding loop of `LoxFunction::call`: defines each
parameter name to `arguments[index]` in the given scope; `none` models
the index-out-of-bounds panic when the argument list is shorter than
the parameter list. -/
def bindParams : Environment → List Token → List Value → Nat → Option Environment
  | env, [], _, _ => some env
  | env, t :: ts, args, i =>
      match args.get? i with
      | some a => bindParams (env.define t.lexeme a) ts args (i + 1)
      | none => none

mutual

/-- Expression evaluation (`Interpreter::evaluate`), with fuel. -/
def eval : Nat → Expr → Interpreter → Outcome Value × Interpreter
  | 0, _, s => (.diverge, s)
  | n + 1, e, s =>
      match e with
      | .Binary left operator right =>
          thenV (eval n left s) fun l s1 =>
          thenV (eval n right s1) fun r s2 =>
          match operator.token_type with
          | .PLUS =>
              match l, r with
              | .Number _, .Number _ | .String _, .String _ =>
                  ((Value.addValue l r).toOutcome, s2)
              | _, _ =>
                  (.err (.RuntimeError operator
                    "Operands must be two numbers or two strings."), s2)
          | .MINUS =>
              match check_number_operands operator l r with
              | .ok _ => ((Value.subValue l r).toOutcome, s2)
              | .error err => (.err err, s2)
          | .STAR =>
              match check_number_operands operator l r with
              | .ok _ => ((Value.mulValue l r).toOutcome, s2)
              | .error err => (.err err, s2)
          | .SLASH =>
              match check_number_operands operator l r with
              | .ok _ => ((Value.divValue l r).toOutcome, s2)
              | .error err => (.err err, s2)
          | .EQUAL_EQUAL => (.ok (.Boolean (Value.beq l r)), s2)
          | .BANG_EQUAL => (.ok (.Boolean (!Value.beq l r)), s2)
          | .GREATER =>
              match check_number_operands operator l r with
              | .ok _ => (.ok (.Boolean (Value.gtValue l r)), s2)
              | .error err => (.err err, s2)
          | .GREATER_EQUAL =>
              match check_number_operands operator l r with
              | .ok _ => (.ok (.Boolean (Value.geValue l r)), s2)
              | .error err => (.err err, s2)
          | .LESS =>
              match check_number_operands operator l r with
              | .ok _ => (.ok (.Boolean (Value.ltValue l r)), s2)
              | .error err => (.err err, s2)
          | .LESS_EQUAL =>
              match check_number_operands operator l r with
              | .ok _ => (.ok (.Boolean (Value.leValue l r)), s2)
              | .error err => (.err err, s2)
          | _ => (.crash "unreachable", s2)
      | .Grouping expression => eval n expression s
      | .Literal value =>
          match value with
          | .String str => (.ok (.String str), s)
          | .Number num => (.ok (.Number num), s)
          | .Bool b => (.ok (.Boolean b), s)
          | .Nil => (.ok .Nil, s)
      | .Unary operator right =>
          thenV (eval n right s) fun rv s1 =>
          match operator.token_type with
          | .MINUS => (rv.negValue.toOutcome, s1)
          | .BANG => (.ok rv.notValue, s1)
          | _ => (.crash "unreachable", s1)
      | .Variable name =>
          match s.globals.get name with
          | .ok v => (.ok v, s)
          | .error err => (.err err, s)
      | .Assign name value =>
          thenV (eval n value s) fun v s1 =>
          match s1.globals.assign name v with
          | .ok env1 => (.ok v, { s1 with globals := env1 })
          | .error err => (.err err, s1)
      | .Logical left operator right =>
          thenV (eval n left s) fun l s1 =>
          if operator.token_type = .OR then
            if l.is_true then (.ok l, s1)
            else if !l.is_true then (.ok l, s1)
            else eval n right s1
          else eval n right s1
      | .Call callee paren arguments =>
          thenV (eval n callee s) fun cal s1 =>
          match evalArgs n arguments s1 with
          | (.ok args, s2) =>
              match cal with
              | .LoxFunction func =>
                  if args.length ≠ func.arity then
                    (.err (.RuntimeError paren
                      ("Expect " ++ toString func.arity ++
                        " arguments but got " ++ toString args.length ++ ".")),
                      s2)
                  else
                    callFunction n func args s2
              | _ => (.crash "unreachable", s2)
          | (.err err, s2) => (.err err, s2)
          | (.crash m, s2) => (.crash m, s2)
          | (.diverge, s2) => (.diverge, s2)

/-- Left-to-right evaluation of a call's argument list (the `for
argument in arguments` loop of the `Expr::Call` arm). -/
def evalArgs : Nat → List Expr → Interpreter → Outcome (List Value) × Interpreter
  | 0, _, s => (.diverge, s)
  | _ + 1, [], s => (.ok [], s)
  | n + 1, a :: rest, s =>
      match eval n a s with
      | (.ok v, s1) =>
          match evalArgs n rest s1 with
          | (.ok vs, s2) => (.ok (v :: vs), s2)
          | (.err err, s2) => (.err err, s2)
          | (.crash m, s2) => (.crash m, s2)
          | (.diverge, s2) => (.diverge, s2)
      | (.err err, s1) => (.err err, s1)
      | (.crash m, s1) => (.crash m, s1)
      | (.diverge, s1) => (.diverge, s1)

/-- Statement execution (`Interpreter::execute`), with fuel. -/
def exec : Nat → Stmt → Interpreter → Outcome Value × Interpreter
  | 0, _, s => (.diverge, s)
  | n + 1, st, s =>
      match st with
      | .Print expression =>
          thenV (eval n expression s) fun v s1 =>
          (.ok .Nil, { s1 with output := s1.output ++ [v] })
      | .Expression expression => eval n expression s
      | .Var name init =>
          let r :=
            match init with
            | some e => eval n e s
            | none => (.ok .Nil, s)
          thenV r fun v s1 =>
          (.ok .Nil, { s1 with globals := s1.globals.define name.lexeme v })
      | .Block statements =>
          execute_block n statements (Environment.new_enclosing s.globals) s
      | .If condition then_branch else_branch =>
          thenV (eval n condition s) fun v s1 =>
          match v with
          | .Boolean b =>
              if b then
                thenV (exec n then_branch s1) fun _ s2 => (.ok .Nil, s2)
              else
                match else_branch with
                | some else_stmt =>
                    thenV (exec n else_stmt s1) fun _ s2 => (.ok .Nil, s2)
                | none => (.ok .Nil, s1)
          | _ => (.crash "unreachable", s1)
      | .While condition body =>
          thenV (eval n condition s) fun v s1 =>
          if v.is_true then
            thenV (exec n body s1) fun _ s2 =>
            exec n (.While condition body) s2
          else (.ok .Nil, s1)
      | .Function name params body =>
          (.ok .Nil,
            { s with globals :=
                (s.globals.define name.lexeme
                  (.LoxFunction (LoxFunction.new name params body))) })
      | .Return _ value =>
          let r :=
            match value with
            | some e => eval n e s
            | none => (.ok .Nil, s)
          thenV r fun v s1 =>
          (.err (.ReturnValue v), s1)

/-- Block execution (`Interpreter::execute_block`): swap the active
scope for the given one, run the statements, restore the saved scope on
error, and on normal completion replace the active scope by its
enclosing scope (when it has one). -/
def execute_block : Nat → List Stmt → Environment → Interpreter →
    Outcome Value × Interpreter
  | 0, _, _, s => (.diverge, s)
  | n + 1, statements, environment, s =>
      blockGo n statements s.globals { s with globals := environment }

/-- Statement loop of `execute_block`; `previous` is the scope saved by
the `std::mem::replace` at entry. -/
def blockGo : Nat → List Stmt → Environment → Interpreter →
    Outcome Value × Interpreter
  | 0, _, _, s => (.diverge, s)
  | _ + 1, [], _, s =>
      match s.globals.get_enclosing_env with
      | some prev => (.ok .Nil, { s with globals := prev })
      | none => (.ok .Nil, s)
  | n + 1, st :: rest, previous, s =>
      match exec n st s with
      | (.ok _, s1) => blockGo n rest previous s1
      | (.err e, s1) => (.err e, { s1 with globals := previous })
      | (.crash m, s1) => (.crash m, s1)
      | (.diverge, s1) => (.diverge, s1)

/-- Function invocation (`LoxFunction::call`): clone the interpreter's
current scope, bind each parameter to `arguments[index]` in it, run the
body through `execute_block`, and translate an escaping `ReturnValue`
into a normal result. -/
def callFunction : Nat → LoxFunction → List Value → Interpreter →
    Outcome Value × Interpreter
  | 0, _, _, s => (.diverge, s)
  | n + 1, func, arguments, s =>
      match bindParams s.globals func.declaration.params arguments 0 with
      | none => (.crash "index out of bounds", s)
      | some env =>
          match execute_block n func.declaration.body env s with
          | (.err (.ReturnValue value), s1) => (.ok value, s1)
          | (.err e, s1) => (.err e, s1)
          | (.ok value, s1) => (.ok value, s1)
          | (.crash m, s1) => (.crash m, s1)
          | (.diverge, s1) => (.diverge, s1)

end

/-- Error reporting of `Lox::runtime_error` in `src/main.rs`: a
`RuntimeError` or `ParseError` is printed to stderr and sets the global
`had_runtime_error` flag; any other variant hits `unreachable!()`
(modelled as `none`). -/
def Lox.runtime_error (e : LoxResult) (s : Interpreter) : Option Interpreter :=
  match e with
  | .RuntimeError _ _ | .ParseError _ _ =>
      some { s with reported := s.reported ++ [e], hadRuntimeError := true }
  | _ => none

/-- Top-level driver (`Interpreter::interpret`): runs each statement;
a statement that errors is reported via `Lox::runtime_error` and the
`for_each` loop then proceeds with the next statement (the `return` in
the closure only ends the current iteration). -/
def interpret (n : Nat) : List Stmt → Interpreter → Outcome Unit × Interpreter
  | [], s => (.ok (), s)
  | st :: rest, s =>
      match exec n st s with
      | (.ok _, s1) => interpret n rest s1
      | (.err e, s1) =>
          match Lox.runtime_error e s1 with
          | some s2 => interpret n rest s2
          | none => (.crash "unreachable", s1)
      | (.crash m, s1) => (.crash m, s1)
      | (.diverge, s1) => (.diverge, s1)

end RLox

namespace RLox

/-- Mutable parser cursor (`src/parser.rs`, struct `Parser`): the token
list itself is immutable and is passed separately as `toks`; `reported`
and `hadError` model the stderr reporting and global `had_error` flag
reached through `LoxResult::error` / `Lox::error_with_token`. -/
structure PState where
  current : Nat
  reported : List LoxResult
  hadError : Bool
deriving Repr

/-- Initial parser state (`Parser::new`). -/
def PState.new : PState := { current := 0, reported := [], hadError := false }

/-- Result of a parsing step: success, a `LoxResult` parse error, a
Rust panic (out-of-bounds token access, `usize` underflow in
`previous`, failing literal `unwrap`), or fuel exhaustion. -/
inductive PRes (α : Type) where
  | ok (a : α) (s : PState)
  | perr (e : LoxResult) (s : PState)
  | crash
  | diverge
deriving Repr

/-- Sequencing mirroring Rust's `?` on parser results. -/
def PRes.then (r : PRes α) (f : α → PState → PRes β) : PRes β :=
  match r with
  | .ok a s => f a s
  | .perr e s => .perr e s
  | .crash => .crash
  | .diverge => .diverge

/-- Record an error report (`LoxResult::error` calling
`Lox::error_with_token`, which prints and sets the `had_error` flag). -/
def reportErr (e : LoxResult) (s : PState) : PState :=
  { s with reported := s.reported ++ [e], hadError := true }

/-- Token under the cursor (`Parser::peek`); `none` models the
out-of-bounds indexing panic of `self.tokens[self.current]`. -/
def peek (toks : List Token) (s : PState) : Option Token :=
  toks.get? s.current

/-- Token before the cursor (`Parser::previous`); `none` models the
`usize` underflow / out-of-bounds panic of
`self.tokens[self.current - 1]` when `current` is `0`. -/
def previous (toks : List Token) (s : PState) : Option Token :=
  if s.current = 0 then none else toks.get? (s.current - 1)

/-- End-of-stream test (`Parser::is_at_end`). -/
def isAtEnd (toks : List Token) (s : PState) : Option Bool :=
  (peek toks s).map fun t => t.token_type == .EOF

/-- Cursor advance (`Parser::advance`): move unless at end, then read
`previous`. -/
def advance (toks : List Token) (s : PState) : Option (Token × PState) :=
  match isAtEnd toks s with
  | none => none
  | some b =>
      let s1 := if b then s else { s with current := s.current + 1 }
      match previous toks s1 with
      | none => none
      | some t => some (t, s1)

/-- Lookahead type test (`Parser::check`): `false` at end of stream. -/
def check (toks : List Token) (tt : TokenType) (s : PState) : Option Bool :=
  match isAtEnd toks s with
  | none => none
  | some true => some false
  | some false =>
      match peek toks s with
      | none => none
      | some t => some (t.token_type == tt)

/-- Conditional advance over a set of token types
(`Parser::match_token`). -/
def matchToken (toks : List Token) (tts : List TokenType) (s : PState) :
    Option (Bool × PState) :=
  match tts with
  | [] => some (false, s)
  | tt :: rest =>
      match check toks tt s with
      | none => none
      | some true =>
          match advance toks s with
          | none => none
          | some (_, s1) => some (true, s1)
      | some false => matchToken toks rest s

/-- Expect-and-advance (`Parser::consume`): on mismatch, builds a
`ParseError` at the current token and reports it via
`LoxResult::error`. -/
def consume (toks : List Token) (tt : TokenType) (msg : String) (s : PState) :
    PRes Token :=
  match check toks tt s with
  | none => .crash
  | some true =>
      match advance toks s with
      | none => .crash
      | some (t, s1) => .ok t s1
  | some false =>
      match peek toks s with
      | none => .crash
      | some tok =>
          let e := LoxResult.ParseError tok msg
          .perr e (reportErr e s)

end RLox

namespace RLox

mutual

/-- Entry point (`Parser::parse`): collect the `Some` results of
`declaration` until end of stream. -/
def parse (toks : List Token) : Nat → PState → PRes (List Stmt)
  | 0, _ => .diverge
  | n + 1, s => parseLoop toks n [] s

/-- The `while !self.is_at_end()` loop of `Parser::parse`. -/
def parseLoop (toks : List Token) : Nat → List Stmt → PState → PRes (List Stmt)
  | 0, _, _ => .diverge
  | n + 1, acc, s =>
      match isAtEnd toks s with
      | none => .crash
      | some true => .ok acc s
      | some false =>
          match declaration toks n s with
          | .ok (some st) s1 => parseLoop toks n (acc ++ [st]) s1
          | .ok none s1 => parseLoop toks n acc s1
          | .perr e s1 => .perr e s1
          | .crash => .crash
          | .diverge => .diverge

/-- Statement dispatch with panic-mode recovery
(`Parser::declaration`): a failed parse attempt synchronizes and
contributes `None`. -/
def declaration (toks : List Token) : Nat → PState → PRes (Option Stmt)
  | 0, _ => .diverge
  | n + 1, s =>
      match matchToken toks [.FUN] s with
      | none => .crash
      | some (true, s1) => withRecovery toks n (function toks n "function" s1)
      | some (false, s1) =>
          match matchToken toks [.VAR] s1 with
          | none => .crash
          | some (true, s2) => withRecovery toks n (var_declaration toks n s2)
          | some (false, s2) => withRecovery toks n (statement toks n s2)

/-- The local `parse_with_recovery` helper of `Parser::declaration`. -/
def withRecovery (toks : List Token) : Nat → PRes Stmt → PRes (Option Stmt)
  | 0, _ => .diverge
  | n + 1, r =>
      match r with
      | .ok st s1 => .ok (some st) s1
      | .perr _ s1 =>
          match synchronize toks n s1 with
          | .ok _ s2 => .ok none s2
          | .perr e s2 => .perr e s2
          | .crash => .crash
          | .diverge => .diverge
      | .crash => .crash
      | .diverge => .diverge

/-- Function declaration rule (`Parser::function`). -/
def function (toks : List Token) : Nat → String → PState → PRes Stmt
  | 0, _, _ => .diverge
  | n + 1, kind, s =>
      (consume toks .IDENTIFIER ("Expect '(' after " ++ kind ++ " name.") s).then
        fun name s1 =>
      (consume toks .LEFT_PAREN ("Expect '(' after " ++ kind ++ " name.") s1).then
        fun _ s2 =>
      (match check toks .RIGHT_PAREN s2 with
        | none => PRes.crash
        | some true => PRes.ok [] s2
        | some false => paramLoop toks n [] s2).then fun params s3 =>
      (consume toks .RIGHT_PAREN "Expect ')' after parameters." s3).then
        fun _ s4 =>
      (consume toks .LEFT_BRACE ("Expect '\x7b' before " ++ kind ++ " body") s4).then
        fun _ s5 =>
      (block toks n s5).then fun body s6 =>
      .ok (.Function name params body) s6

/-- Parameter list loop of `Parser::function`. -/
def paramLoop (toks : List Token) : Nat → List Token → PState → PRes (List Token)
  | 0, _, _ => .diverge
  | n + 1, params, s =>
      if params.length ≥ 255 then
        match peek toks s with
        | none => .crash
        | some t =>
            let e := LoxResult.ParseError t "Can't have more than 255 parameters."
            .perr e (reportErr e s)
      else
        (consume toks .IDENTIFIER "Expect parameter name." s).then fun t s1 =>
        match matchToken toks [.COMMA] s1 with
        | none => .crash
        | some (true, s2) => paramLoop toks n (params ++ [t]) s2
        | some (false, s2) => .ok (params ++ [t]) s2

/-- Variable declaration rule (`Parser::var_declaration`). -/
def var_declaration (toks : List Token) : Nat → PState → PRes Stmt
  | 0, _ => .diverge
  | n + 1, s =>
      (consume toks .IDENTIFIER "Expect variable name." s).then fun name s1 =>
      (match matchToken toks [.EQUAL] s1 with
        | none => PRes.crash
        | some (true, s2) =>
            (expression toks n s2).then fun e s3 => PRes.ok (some e) s3
        | some (false, s2) => PRes.ok none s2).then fun init s4 =>
      (consume toks .SEMICOLON "Expect ';' after variable declaration." s4).then
        fun _ s5 =>
      .ok (.Var name init) s5

/-- Statement rule (`Parser::statement`). -/
def statement (toks : List Token) : Nat → PState → PRes Stmt
  | 0, _ => .diverge
  | n + 1, s =>
      match matchToken toks [.FOR] s with
      | none => .crash
      | some (true, s1) => for_statement toks n s1
      | some (false, s1) =>
      match matchToken toks [.IF] s1 with
      | none => .crash
      | some (true, s2) => if_statement toks n s2
      | some (false, s2) =>
      match matchToken toks [.PRINT] s2 with
      | none => .crash
      | some (true, s3) => print_statement toks n s3
      | some (false, s3) =>
      match matchToken toks [.RETURN] s3 with
      | none => .crash
      | some (true, s4) => return_statement toks n s4
      | some (false, s4) =>
      match matchToken toks [.WHILE] s4 with
      | none => .crash
      | some (true, s5) => while_statement toks n s5
      | some (false, s5) =>
      match matchToken toks [.LEFT_BRACE] s5 with
      | none => .crash
      | some (true, s6) =>
          (block toks n s6).then fun stmts s7 => .ok (.Block stmts) s7
      | some (false, s6) => expression_statement toks n s6

/-- Return statement rule (`Parser::return_statement`). -/
def return_statement (toks : List Token) : Nat → PState → PRes Stmt
  | 0, _ => .diverge
  | n + 1, s =>
      match previous toks s with
      | none => .crash
      | some keyword =>
      (match check toks .SEMICOLON s with
        | none => PRes.crash
        | some false =>
            (expression toks n s).then fun e s1 => PRes.ok (some e) s1
        | some true => PRes.ok none s).then fun value s2 =>
      (consume toks .SEMICOLON "Expect ';' after return value" s2).then
        fun _ s3 =>
      .ok (.Return keyword value) s3

/-- For statement rule with desugaring to `While`
(`Parser::for_statement`). -/
def for_statement (toks : List Token) : Nat → PState → PRes Stmt
  | 0, _ => .diverge
  | n + 1, s =>
      (consume toks .LEFT_PAREN "Expect '(' after 'for'." s).then fun _ s1 =>
      (match matchToken toks [.SEMICOLON] s1 with
        | none => PRes.crash
        | some (true, s2) => PRes.ok none s2
        | some (false, s2) =>
            match matchToken toks [.VAR] s2 with
            | none => PRes.crash
            | some (true, s3) =>
                (var_declaration toks n s3).then fun st s4 => PRes.ok (some st) s4
            | some (false, s3) =>
                (expression_statement toks n s3).then fun st s4 =>
                PRes.ok (some st) s4).then fun init s5 =>
      (match check toks .SEMICOLON s5 with
        | none => PRes.crash
        | some false =>
            (expression toks n s5).then fun e s6 => PRes.ok (some e) s6
        | some true => PRes.ok none s5).then fun condition s7 =>
      (consume toks .SEMICOLON "Expect ';' after loop condition." s7).then
        fun _ s8 =>
      (match check toks .RIGHT_PAREN s8 with
        | none => PRes.crash
        | some false =>
            (expression toks n s8).then fun e s9 => PRes.ok (some e) s9
        | some true => PRes.ok none s8).then fun increment s10 =>
      (consume toks .RIGHT_PAREN "Expect ')' after for clause." s10).then
        fun _ s11 =>
      (statement toks n s11).then fun body0 s12 =>
      let body1 :=
        match increment with
        | some inc => Stmt.Block [body0, .Expression inc]
        | none => body0
      let cond :=
        match condition with
        | some c => c
        | none => Expr.Literal (.Bool true)
      let body2 := Stmt.While cond body1
      let body3 :=
        match init with
        | some st => Stmt.Block [st, body2]
        | none => body2
      .ok body3 s12

/-- While statement rule (`Parser::while_statement`). -/
def while_statement (toks : List Token) : Nat → PState → PRes Stmt
  | 0, _ => .diverge
  | n + 1, s =>
      (consume toks .LEFT_PAREN "Expect '(' after 'while'." s).then fun _ s1 =>
      (expression toks n s1).then fun condition s2 =>
      (consume toks .RIGHT_PAREN "Expect ')' after condition." s2).then
        fun _ s3 =>
      (statement toks n s3).then fun body s4 =>
      .ok (.While condition body) s4

/-- If statement rule (`Parser::if_statement`). -/
def if_statement (toks : List Token) : Nat → PState → PRes Stmt
  | 0, _ => .diverge
  | n + 1, s =>
      (consume toks .LEFT_PAREN "Expect '(' after 'if'." s).then fun _ s1 =>
      (expression toks n s1).then fun condition s2 =>
      (consume toks .RIGHT_PAREN "Expect ')' after if condition." s2).then
        fun _ s3 =>
      (statement toks n s3).then fun then_branch s4 =>
      (match matchToken toks [.ELSE] s4 with
        | none => PRes.crash
        | some (true, s5) =>
            (statement toks n s5).then fun st s6 => PRes.ok (some st) s6
        | some (false, s5) => PRes.ok none s5).then fun else_branch s7 =>
      .ok (.If condition then_branch else_branch) s7

/-- Block rule (`Parser::block`). -/
def block (toks : List Token) : Nat → PState → PRes (List Stmt)
  | 0, _ => .diverge
  | n + 1, s => blockLoop toks n [] s

/-- Declaration loop of `Parser::block`. -/
def blockLoop (toks : List Token) : Nat → List Stmt → PState → PRes (List Stmt)
  | 0, _, _ => .diverge
  | n + 1, acc, s =>
      match check toks .RIGHT_BRACE s with
      | none => .crash
      | some true =>
          (consume toks .RIGHT_BRACE "Expect '\x7d' after a block" s).then
            fun _ s1 => .ok acc s1
      | some false =>
          match isAtEnd toks s with
          | none => .crash
          | some true =>
              (consume toks .RIGHT_BRACE "Expect '\x7d' after a block" s).then
                fun _ s1 => .ok acc s1
          | some false =>
              match declaration toks n s with
              | .ok (some st) s1 => blockLoop toks n (acc ++ [st]) s1
              | .ok none s1 => blockLoop toks n acc s1
              | .perr e s1 => .perr e s1
              | .crash => .crash
              | .diverge => .diverge

/-- Print statement rule (`Parser::print_statement`). -/
def print_statement (toks : List Token) : Nat → PState → PRes Stmt
  | 0, _ => .diverge
  | n + 1, s =>
      (expression toks n s).then fun e s1 =>
      (consume toks .SEMICOLON "Expect ';' after value" s1).then fun _ s2 =>
      .ok (.Print e) s2

/-- Expression statement rule (`Parser::expression_statement`). -/
def expression_statement (toks : List Token) : Nat → PState → PRes Stmt
  | 0, _ => .diverge
  | n + 1, s =>
      (expression toks n s).then fun e s1 =>
      (consume toks .SEMICOLON "Expect ';' after value" s1).then fun _ s2 =>
      .ok (.Expression e) s2

/-- Expression rule (`Parser::expression`). -/
def expression (toks : List Token) : Nat → PState → PRes Expr
  | 0, _ => .diverge
  | n + 1, s => assignment toks n s

/-- Assignment rule (`Parser::assignment`). The invalid-target
`ParseError` is returned without a `LoxResult::error` call, so it is
never reported. -/
def assignment (toks : List Token) : Nat → PState → PRes Expr
  | 0, _ => .diverge
  | n + 1, s =>
      (or toks n s).then fun expr s1 =>
      match matchToken toks [.EQUAL] s1 with
      | none => .crash
      | some (true, s2) =>
          match previous toks s2 with
          | none => .crash
          | some equals =>
              (assignment toks n s2).then fun value s3 =>
              match expr with
              | .Variable name => .ok (.Assign name value) s3
              | _ => .perr (.ParseError equals "Invaild assignment target.") s3
      | some (false, s2) => .ok expr s2

/-- Logical-or rule (`Parser::or`). -/
def or (toks : List Token) : Nat → PState → PRes Expr
  | 0, _ => .diverge
  | n + 1, s => (and toks n s).then fun expr s1 => orLoop toks n expr s1

/-- Operator loop of `Parser::or`. -/
def orLoop (toks : List Token) : Nat → Expr → PState → PRes Expr
  | 0, _, _ => .diverge
  | n + 1, expr, s =>
      match matchToken toks [.OR] s with
      | none => .crash
      | some (true, s1) =>
          match previous toks s1 with
          | none => .crash
          | some operator =>
              (and toks n s1).then fun right s2 =>
              orLoop toks n (.Logical expr operator right) s2
      | some (false, s1) => .ok expr s1

/-- Logical-and rule (`Parser::and`). -/
def and (toks : List Token) : Nat → PState → PRes Expr
  | 0, _ => .diverge
  | n + 1, s => (equality toks n s).then fun expr s1 => andLoop toks n expr s1

/-- Operator loop of `Parser::and`. -/
def andLoop (toks : List Token) : Nat → Expr → PState → PRes Expr
  | 0, _, _ => .diverge
  | n + 1, expr, s =>
      match matchToken toks [.AND] s with
      | none => .crash
      | some (true, s1) =>
          match previous toks s1 with
          | none => .crash
          | some operator =>
              (equality toks n s1).then fun right s2 =>
              andLoop toks n (.Logical expr operator right) s2
      | some (false, s1) => .ok expr s1

/-- Equality rule (`Parser::equality`). -/
def equality (toks : List Token) : Nat → PState → PRes Expr
  | 0, _ => .diverge
  | n + 1, s =>
      (comparison toks n s).then fun expr s1 => equalityLoop toks n expr s1

/-- Operator loop of `Parser::equality`. -/
def equalityLoop (toks : List Token) : Nat → Expr → PState → PRes Expr
  | 0, _, _ => .diverge
  | n + 1, expr, s =>
      match matchToken toks [.BANG_EQUAL, .EQUAL_EQUAL] s with
      | none => .crash
      | some (true, s1) =>
          match previous toks s1 with
          | none => .crash
          | some operator =>
              (comparison toks n s1).then fun right s2 =>
              equalityLoop toks n (.Binary expr operator right) s2
      | some (false, s1) => .ok expr s1

/-- Comparison rule (`Parser::comparison`). -/
def comparison (toks : List Token) : Nat → PState → PRes Expr
  | 0, _ => .diverge
  | n + 1, s =>
      (term toks n s).then fun expr s1 => comparisonLoop toks n expr s1

/-- Operator loop of `Parser::comparison`. -/
def comparisonLoop (toks : List Token) : Nat → Expr → PState → PRes Expr
  | 0, _, _ => .diverge
  | n + 1, expr, s =>
      match matchToken toks [.GREATER, .GREATER_EQUAL, .LESS, .LESS_EQUAL] s with
      | none => .crash
      | some (true, s1) =>
          match previous toks s1 with
          | none => .crash
          | some operator =>
              (term toks n s1).then fun right s2 =>
              comparisonLoop toks n (.Binary expr operator right) s2
      | some (false, s1) => .ok expr s1

/-- Term rule (`Parser::term`). -/
def term (toks : List Token) : Nat → PState → PRes Expr
  | 0, _ => .diverge
  | n + 1, s =>
      (factor toks n s).then fun expr s1 => termLoop toks n expr s1

/-- Operator loop of `Parser::term`. -/
def termLoop (toks : List Token) : Nat → Expr → PState → PRes Expr
  | 0, _, _ => .diverge
  | n + 1, expr, s =>
      match matchToken toks [.MINUS, .PLUS] s with
      | none => .crash
      | some (true, s1) =>
          match previous toks s1 with
          | none => .crash
          | some operator =>
              (factor toks n s1).then fun right s2 =>
              termLoop toks n (.Binary expr operator right) s2
      | some (false, s1) => .ok expr s1

/-- Factor rule (`Parser::factor`). -/
def factor (toks : List Token) : Nat → PState → PRes Expr
  | 0, _ => .diverge
  | n + 1, s =>
      (unary toks n s).then fun expr s1 => factorLoop toks n expr s1

/-- Operator loop of `Parser::factor`. -/
def factorLoop (toks : List Token) : Nat → Expr → PState → PRes Expr
  | 0, _, _ => .diverge
  | n + 1, expr, s =>
      match matchToken toks [.SLASH, .STAR] s with
      | none => .crash
      | some (true, s1) =>
          match previous toks s1 with
          | none => .crash
          | some operator =>
              (unary toks n s1).then fun right s2 =>
              factorLoop toks n (.Binary expr operator right) s2
      | some (false, s1) => .ok expr s1

/-- Unary rule (`Parser::unary`). -/
def unary (toks : List Token) : Nat → PState → PRes Expr
  | 0, _ => .diverge
  | n + 1, s =>
      match matchToken toks [.BANG, .MINUS] s with
      | none => .crash
      | some (true, s1) =>
          match previous toks s1 with
          | none => .crash
          | some operator =>
              (unary toks n s1).then fun right s2 =>
              .ok (.Unary operator right) s2
      | some (false, s1) => call toks n s1

/-- Call rule (`Parser::call`). -/
def call (toks : List Token) : Nat → PState → PRes Expr
  | 0, _ => .diverge
  | n + 1, s =>
      (primary toks n s).then fun expr s1 => callLoop toks n expr s1

/-- Postfix loop of `Parser::call`. -/
def callLoop (toks : List Token) : Nat → Expr → PState → PRes Expr
  | 0, _, _ => .diverge
  | n + 1, expr, s =>
      match matchToken toks [.LEFT_PAREN] s with
      | none => .crash
      | some (true, s1) =>
          (finish_call toks n expr s1).then fun e2 s2 => callLoop toks n e2 s2
      | some (false, s1) => .ok expr s1

/-- Argument list rule (`Parser::finish_call`). -/
def finish_call (toks : List Token) : Nat → Expr → PState → PRes Expr
  | 0, _, _ => .diverge
  | n + 1, callee, s =>
      (match check toks .RIGHT_PAREN s with
        | none => PRes.crash
        | some true => PRes.ok [] s
        | some false =>
            (expression toks n s).then fun e s1 =>
            argLoop toks n [e] s1).then fun arguments s2 =>
      (consume toks .RIGHT_PAREN "Expect ')' after arguments." s2).then
        fun paren s3 =>
      .ok (.Call callee paren arguments) s3

/-- Comma loop of `Parser::finish_call`. -/
def argLoop (toks : List Token) : Nat → List Expr → PState → PRes (List Expr)
  | 0, _, _ => .diverge
  | n + 1, arguments, s =>
      match matchToken toks [.COMMA] s with
      | none => .crash
      | some (true, s1) =>
          if arguments.length ≥ 255 then
            match peek toks s1 with
            | none => .crash
            | some t =>
                let e := LoxResult.ParseError t
                  "Can't have more than 255 parameters."
                .perr e (reportErr e s1)
          else
            (expression toks n s1).then fun e s2 =>
            argLoop toks n (arguments ++ [e]) s2
      | some (false, s1) => .ok arguments s1

/-- Primary rule (`Parser::primary`). -/
def primary (toks : List Token) : Nat → PState → PRes Expr
  | 0, _ => .diverge
  | n + 1, s =>
      match matchToken toks [.FALSE] s with
      | none => .crash
      | some (true, s1) => .ok (.Literal (.Bool false)) s1
      | some (false, s1) =>
      match matchToken toks [.TRUE] s1 with
      | none => .crash
      | some (true, s2) => .ok (.Literal (.Bool true)) s2
      | some (false, s2) =>
      match matchToken toks [.NIL] s2 with
      | none => .crash
      | some (true, s3) => .ok (.Literal .Nil) s3
      | some (false, s3) =>
      match matchToken toks [.NUMBER, .STRING] s3 with
      | none => .crash
      | some (true, s4) =>
          match previous toks s4 with
          | none => .crash
          | some t =>
              match t.literal with
              | some l => .ok (.Literal l) s4
              | none => .crash
      | some (false, s4) =>
      match matchToken toks [.IDENTIFIER] s4 with
      | none => .crash
      | some (true, s5) =>
          match previous toks s5 with
          | none => .crash
          | some t => .ok (.Variable t) s5
      | some (false, s5) =>
      match matchToken toks [.LEFT_PAREN] s5 with
      | none => .crash
      | some (true, s6) =>
          (expression toks n s6).then fun e s7 =>
          (consume toks .RIGHT_PAREN "Expect ')' after expression." s7).then
            fun _ s8 =>
          .ok (.Grouping e) s8
      | some (false, s6) =>
          match peek toks s6 with
          | none => .crash
          | some tok =>
              let e := LoxResult.ParseError tok "Expect expression"
              .perr e (reportErr e s6)

/-- Panic-mode recovery (`Parser::synchronize`). -/
def synchronize (toks : List Token) : Nat → PState → PRes Unit
  | 0, _ => .diverge
  | n + 1, s =>
      match advance toks s with
      | none => .crash
      | some (_, s1) => syncLoop toks n s1

/-- The `while !self.is_at_end()` loop of `Parser::synchronize`. -/
def syncLoop (toks : List Token) : Nat → PState → PRes Unit
  | 0, _ => .diverge
  | n + 1, s =>
      match isAtEnd toks s with
      | none => .crash
      | some true => .ok () s
      | some false =>
          match previous toks s with
          | none => .crash
          | some prev =>
              if prev.token_type = .SEMICOLON then .ok () s
              else
                match peek toks s with
                | none => .crash
                | some t =>
                    match t.token_type with
                    | .CLASS | .FUN | .VAR | .FOR | .IF | .WHILE
                    | .PRINT | .RETURN => .ok () s
                    | _ =>
                        match advance toks s with
                        | none => .crash
                        | some (_, s1) => syncLoop toks n s1

end

end RLox

namespace RLox

/-- Identifier token fixture. -/
def identTok (name : String) : Token :=
  { token_type := .IDENTIFIER, lexeme := name, literal := none, line := 1 }

/-- Non-literal token fixture. -/
def opTok (tt : TokenType) (lx : String) : Token :=
  { token_type := tt, lexeme := lx, literal := none, line := 1 }

/-- Number token fixture carrying its literal. -/
def numTok (q : ℚ) (lx : String) : Token :=
  { token_type := .NUMBER, lexeme := lx, literal := some (.Number (.finite q)), line := 1 }

/-- Truthiness as asserted by the specification ("only `false` and
`nil` are falsy and every other value is truthy"); stated from the
spec's words to compare against the code's `Value::is_true`. -/
def claimTruthy : Value → Bool
  | .Boolean b => b
  | .Nil => false
  | _ => true

/-- Discriminant of a value's tag, for stating cross-tag equality
facts. -/
def Value.tag : Value → Nat
  | .Number _ => 0
  | .Boolean _ => 1
  | .String _ => 2
  | .Nil => 3
  | .LoxFunction _ => 4

/-- Token types that begin a new declaration or statement, as listed in
the `synchronize` boundary set. -/
def boundaryStart : TokenType → Bool
  | .CLASS | .FUN | .VAR | .FOR | .IF | .WHILE | .PRINT | .RETURN => true
  | _ => false

/-- The frames of a scope chain, innermost first. -/
def framesOf : Environment → List (List (String × Value))
  | .frame vs none => [vs]
  | .frame vs (some e) => vs :: framesOf e

/-- Index of the nearest frame (innermost first) that binds the name,
if any. -/
def definesAt (env : Environment) (nm : String) : Option Nat :=
  match env with
  | .frame vs enc =>
      if containsVal vs nm then some 0
      else
        match enc with
        | some e => (definesAt e nm).map (· + 1)
        | none => none

/-- Well-formed token stream for the parser-safety claim: non-empty,
terminated by an end-of-input token, and every `NUMBER`/`STRING` token
carries a literal. -/
def WFToks (toks : List Token) : Prop :=
  toks ≠ [] ∧
  (∀ t, toks.getLast? = some t → t.token_type = .EOF) ∧
  (∀ t ∈ toks, t.token_type = .NUMBER ∨ t.token_type = .STRING →
    t.literal.isSome)

/-- Postcondition of a parsing function run from state `s`: no panic,
no fuel exhaustion, and the cursor moved monotonically while staying in
bounds (strictly on success when `strict` is set). -/
def POkInv (toks : List Token) (s : PState) (strict : Bool) :
    PRes α → Prop
  | .ok _ s1 =>
      s.current ≤ s1.current ∧ s1.current < toks.length ∧
        (strict = true → s.current < s1.current)
  | .perr _ s1 => s.current ≤ s1.current ∧ s1.current < toks.length
  | .crash => False
  | .diverge => False

/-- Postcondition for functions that always succeed (never raise a
parse error) and make strict progress. -/
def PProg (toks : List Token) (s : PState) : PRes α → Prop
  | .ok _ s1 => s.current < s1.current ∧ s1.current < toks.length
  | _ => False

/-- Postcondition for functions that always succeed, with monotone
(not necessarily strict) progress. -/
def PDone (toks : List Token) (s : PState) : PRes α → Prop
  | .ok _ s1 => s.current ≤ s1.current ∧ s1.current < toks.length
  | _ => False

/-- The token at position `i` is not the end-of-input marker. -/
def notEofAt (toks : List Token) (i : Nat) : Prop :=
  ∀ t, toks.get? i = some t → t.token_type ≠ .EOF

/-- Bundle of fuel-indexed safety statements, one per parser function:
run from an in-bounds cursor with enough fuel (measured against the
remaining token count plus the function's rank in the same-position
call order), the function neither panics nor runs out of fuel and
moves the cursor monotonically within bounds. -/
structure SafeAt (toks : List Token) (n : Nat) : Prop where
  primary_s : ∀ s : PState, s.current < toks.length →
      32 * toks.length + 2 ≤ n + 32 * s.current →
      POkInv toks s true (primary toks n s)
  callLoop_s : ∀ (s : PState) (e : Expr), s.current < toks.length →
      32 * toks.length + 1 ≤ n + 32 * s.current →
      POkInv toks s false (callLoop toks n e s)
  call_s : ∀ s : PState, s.current < toks.length →
      32 * toks.length + 3 ≤ n + 32 * s.current →
      POkInv toks s true (call toks n s)
  argLoop_s : ∀ (s : PState) (args : List Expr), s.current < toks.length →
      32 * toks.length + 1 ≤ n + 32 * s.current →
      POkInv toks s false (argLoop toks n args s)
  finish_call_s : ∀ (s : PState) (e : Expr), s.current < toks.length →
      32 * toks.length + 13 ≤ n + 32 * s.current →
      POkInv toks s false (finish_call toks n e s)
  unary_s : ∀ s : PState, s.current < toks.length →
      32 * toks.length + 4 ≤ n + 32 * s.current →
      POkInv toks s true (unary toks n s)
  factorLoop_s : ∀ (s : PState) (e : Expr), s.current < toks.length →
      32 * toks.length + 1 ≤ n + 32 * s.current →
      POkInv toks s false (factorLoop toks n e s)
  factor_s : ∀ s : PState, s.current < toks.length →
      32 * toks.length + 5 ≤ n + 32 * s.current →
      POkInv toks s true (factor toks n s)
  termLoop_s : ∀ (s : PState) (e : Expr), s.current < toks.length →
      32 * toks.length + 1 ≤ n + 32 * s.current →
      POkInv toks s false (termLoop toks n e s)
  term_s : ∀ s : PState, s.current < toks.length →
      32 * toks.length + 6 ≤ n + 32 * s.current →
      POkInv toks s true (term toks n s)
  comparisonLoop_s : ∀ (s : PState) (e : Expr), s.current < toks.length →
      32 * toks.length + 1 ≤ n + 32 * s.current →
      POkInv toks s false (comparisonLoop toks n e s)
  comparison_s : ∀ s : PState, s.current < toks.length →
      32 * toks.length + 7 ≤ n + 32 * s.current →
      POkInv toks s true (comparison toks n s)
  equalityLoop_s : ∀ (s : PState) (e : Expr), s.current < toks.length →
      32 * toks.length + 1 ≤ n + 32 * s.current →
      POkInv toks s false (equalityLoop toks n e s)
  equality_s : ∀ s : PState, s.current < toks.length →
      32 * toks.length + 8 ≤ n + 32 * s.current →
      POkInv toks s true (equality toks n s)
  andLoop_s : ∀ (s : PState) (e : Expr), s.current < toks.length →
      32 * toks.length + 1 ≤ n + 32 * s.current →
      POkInv toks s false (andLoop toks n e s)
  and_s : ∀ s : PState, s.current < toks.length →
      32 * toks.length + 9 ≤ n + 32 * s.current →
      POkInv toks s true (and toks n s)
  orLoop_s : ∀ (s : PState) (e : Expr), s.current < toks.length →
      32 * toks.length + 1 ≤ n + 32 * s.current →
      POkInv toks s false (orLoop toks n e s)
  or_s : ∀ s : PState, s.current < toks.length →
      32 * toks.length + 10 ≤ n + 32 * s.current →
      POkInv toks s true (or toks n s)
  assignment_s : ∀ s : PState, s.current < toks.length →
      32 * toks.length + 11 ≤ n + 32 * s.current →
      POkInv toks s true (assignment toks n s)
  expression_s : ∀ s : PState, s.current < toks.length →
      32 * toks.length + 12 ≤ n + 32 * s.current →
      POkInv toks s true (expression toks n s)
  print_statement_s : ∀ s : PState, s.current < toks.length →
      32 * toks.length + 13 ≤ n + 32 * s.current →
      POkInv toks s true (print_statement toks n s)
  expression_statement_s : ∀ s : PState, s.current < toks.length →
      32 * toks.length + 13 ≤ n + 32 * s.current →
      POkInv toks s true (expression_statement toks n s)
  return_statement_s : ∀ s : PState, s.current < toks.length →
      1 ≤ s.current →
      32 * toks.length + 13 ≤ n + 32 * s.current →
      POkInv toks s true (return_statement toks n s)
  var_declaration_s : ∀ s : PState, s.current < toks.length →
      32 * toks.length + 13 ≤ n + 32 * s.current →
      POkInv toks s true (var_declaration toks n s)
  paramLoop_s : ∀ (s : PState) (params : List Token), s.current < toks.length →
      32 * toks.length + 1 ≤ n + 32 * s.current →
      POkInv toks s false (paramLoop toks n params s)
  function_s : ∀ (s : PState) (kind : String), s.current < toks.length →
      32 * toks.length + 13 ≤ n + 32 * s.current →
      POkInv toks s true (function toks n kind s)
  while_statement_s : ∀ s : PState, s.current < toks.length →
      32 * toks.length + 13 ≤ n + 32 * s.current →
      POkInv toks s true (while_statement toks n s)
  if_statement_s : ∀ s : PState, s.current < toks.length →
      32 * toks.length + 13 ≤ n + 32 * s.current →
      POkInv toks s true (if_statement toks n s)
  for_statement_s : ∀ s : PState, s.current < toks.length →
      32 * toks.length + 13 ≤ n + 32 * s.current →
      POkInv toks s true (for_statement toks n s)
  blockLoop_s : ∀ (s : PState) (acc : List Stmt), s.current < toks.length →
      32 * toks.length + 18 ≤ n + 32 * s.current →
      POkInv toks s true (blockLoop toks n acc s)
  block_s : ∀ s : PState, s.current < toks.length →
      32 * toks.length + 19 ≤ n + 32 * s.current →
      POkInv toks s true (block toks n s)
  statement_s : ∀ s : PState, s.current < toks.length →
      32 * toks.length + 14 ≤ n + 32 * s.current →
      POkInv toks s true (statement toks n s)
  withRecovery_s : ∀ (s0 : PState) (r : PRes Stmt),
      s0.current < toks.length →
      (s0.current = 0 → notEofAt toks 0) →
      POkInv toks s0 true r →
      32 * toks.length + 16 ≤ n + 32 * s0.current →
      ∃ ost s', withRecovery toks n r = .ok ost s' ∧
        s0.current ≤ s'.current ∧ s'.current < toks.length ∧
        (notEofAt toks s0.current → s0.current < s'.current)
  declaration_s : ∀ (s : PState) (t : Token),
      toks.get? s.current = some t → t.token_type ≠ .EOF →
      32 * toks.length + 17 ≤ n + 32 * s.current →
      ∃ ost s', declaration toks n s = .ok ost s' ∧
        s.current < s'.current ∧ s'.current < toks.length
  parseLoop_s : ∀ (s : PState) (acc : List Stmt), s.current < toks.length →
      32 * toks.length + 18 ≤ n + 32 * s.current →
      ∃ res s', parseLoop toks n acc s = .ok res s' ∧
        s.current ≤ s'.current ∧ s'.current < toks.length
  parse_s : ∀ s : PState, s.current < toks.length →
      32 * toks.length + 19 ≤ n + 32 * s.current →
      ∃ res s', parse toks n s = .ok res s' ∧
        s.current ≤ s'.current ∧ s'.current < toks.length

/-- C2 failing input: `fun f(p) { } f(42);`. -/
def progC2 : List Stmt :=
  [.Function (identTok "f") [identTok "p"] [],
   .Expression (.Call (.Variable (identTok "f")) (opTok .RIGHT_PAREN ")")
     [.Literal (.Number (.finite 42))])]

/-- C3 failing input: an undefined-variable statement followed by a
print statement. -/
def progC3 : List Stmt :=
  [.Expression (.Variable (identTok "x")),
   .Print (.Literal (.Number (.finite 1)))]

/-- C6 counterexample input, the token stream of
`var a = 1; 1 = 2; var b = 2;`: one malformed statement (an invalid
assignment target) between two well-formed declarations. -/
def toksInvalidAssign : List Token :=
  [opTok .VAR "var", identTok "a", opTok .EQUAL "=", numTok 1 "1",
   opTok .SEMICOLON ";",
   numTok 1 "1", opTok .EQUAL "=", numTok 2 "2", opTok .SEMICOLON ";",
   opTok .VAR "var", identTok "b", opTok .EQUAL "=", numTok 2 "2",
   opTok .SEMICOLON ";",
   opTok .EOF ""]

/-- A second error-recovery input, the token stream of
`var a = 1; + ; var b = 2;`: the malformed middle statement fails in
`primary`, whose error is reported. -/
def toksReportedError : List Token :=
  [opTok .VAR "var", identTok "a", opTok .EQUAL "=", numTok 1 "1",
   opTok .SEMICOLON ";",
   opTok .PLUS "+", opTok .SEMICOLON ";",
   opTok .VAR "var", identTok "b", opTok .EQUAL "=", numTok 2 "2",
   opTok .SEMICOLON ";",
   opTok .EOF ""]

/-- The two well-formed statements of the recovery inputs. -/
def stmtVarA : Stmt := .Var (identTok "a") (some (.Literal (.Number (.finite 1))))

/-- Second well-formed statement of the recovery inputs. -/
def stmtVarB : Stmt := .Var (identTok "b") (some (.Literal (.Number (.finite 2))))

/-- C5 witness function: `fun g(x) { { return x; } }` — a function
whose body returns from inside a nested block. -/
def funcG : LoxFunction :=
  LoxFunction.new (identTok "g") [identTok "x"]
    [.Block [.Return (opTok .RETURN "return") (some (.Variable (identTok "x")))]]

end RLox

namespace RLox

/-- C1: the claim says `or` returns the left operand only when it is
truthy (and otherwise evaluates and returns the right operand), and
that `and` returns the left operand when it is falsy. In the code the
`or` arm returns the left operand unconditionally (its `else` branch
returns `left` as well) and the `and` arm always evaluates and returns
the right operand: `false or true` evaluates to `false` and
`false and true` evaluates to `true`, although `false` is falsy. -/
theorem logical_operator_evaluation_bug :
    (eval 9 (.Logical (.Literal (.Bool false)) (opTok .OR "or")
      (.Literal (.Bool true))) Interpreter.new).1 = .ok (.Boolean false) ∧
    (eval 9 (.Logical (.Literal (.Bool false)) (opTok .AND "and")
      (.Literal (.Bool true))) Interpreter.new).1 = .ok (.Boolean true) ∧
    Value.is_true (.Boolean false) = false :=
  ⟨rfl, rfl, rfl⟩

/-- C2: the claim says every environment created for a function call is
discarded when the call completes, so the caller's environment has no
bindings for the callee's parameters afterwards. Running
`fun f(p) { } f(42);` shows otherwise: the call completes normally and
the caller's environment still binds `p` to `42` (on normal completion
`execute_block` keeps the callee's scope, which is a clone of the
caller's scope with the parameters defined in it). -/
theorem call_scope_not_discarded_bug :
    (interpret 9 progC2 Interpreter.new).1 = .ok () ∧
    ((interpret 9 progC2 Interpreter.new).2.globals.get (identTok "p"))
      = .ok (.Number (.finite 42)) :=
  ⟨rfl, rfl⟩

/-- C3: the claim says the first runtime error aborts all remaining
top-level statements of the `interpret` call. Running an
undefined-variable statement followed by a print statement shows the
error is reported and does not escape `interpret`, but the following
print statement still executes (the `return` inside the `for_each`
closure only ends that iteration). -/
theorem interpret_continues_after_error_bug :
    (interpret 9 progC3 Interpreter.new).1 = .ok () ∧
    (interpret 9 progC3 Interpreter.new).2.reported
      = [.RuntimeError (identTok "x") "Undefined variable 'x'."] ∧
    (interpret 9 progC3 Interpreter.new).2.output = [.Number (.finite 1)] :=
  ⟨rfl, rfl, rfl⟩

/-- C4 counterexample: the claim says a `While` body executes as long
as the condition is truthy, where every number is truthy. With the
condition being the number `1` — truthy under the claim's truthiness —
the loop exits immediately without executing its body once (the state,
with `a` bound to `0`, is returned unchanged): `Value::is_true` treats
every non-boolean as falsy. -/
theorem while_ignores_truthy_number_condition :
    claimTruthy (.Number (.finite 1)) = true ∧
    exec 9 (.While (.Literal (.Number (.finite 1)))
        (.Expression (.Assign (identTok "a")
          (.Binary (.Variable (identTok "a")) (opTok .PLUS "+")
            (.Literal (.Number (.finite 1)))))))
      { Interpreter.new with globals := Environment.new.define "a" (.Number (.finite 0)) }
    = (.ok .Nil,
      { Interpreter.new with globals := Environment.new.define "a" (.Number (.finite 0)) }) :=
  ⟨rfl, rfl⟩

/-- C8: the claim says unary `-` on a non-number produces a reported
runtime error that aborts only the current statement. In the code the
`Expr::Unary` arm applies `std::ops::Neg` without an operand check, and
its non-number arm is `panic!`, killing the process: evaluating
`- true` panics with the `Neg` panic message. On numbers the negation
result is as claimed. -/
theorem unary_minus_panics_on_non_number :
    eval 9 (.Unary (opTok .MINUS "-") (.Literal (.Bool true))) Interpreter.new
      = (.crash "Unary negation is only defined for numbers", Interpreter.new) ∧
    (eval 9 (.Unary (opTok .MINUS "-") (.Literal (.Number (.finite 5))))
      Interpreter.new).1 = .ok (.Number (.finite (-5))) :=
  ⟨rfl, rfl⟩

/-- C9 counterexample: the claim says value equality is reflexive for
every numeric value. The numeric value produced by `0/0` is NaN, and
IEEE equality on it is not reflexive: `(0/0) == (0/0)` evaluates to
`false` without error. -/
theorem nan_equality_not_reflexive :
    (eval 9 (.Binary (.Literal (.Number (.finite 0))) (opTok .SLASH "/")
      (.Literal (.Number (.finite 0)))) Interpreter.new).1
      = .ok (.Number .nan) ∧
    Value.beq (.Number .nan) (.Number .nan) = false ∧
    (eval 9 (.Binary
        (.Binary (.Literal (.Number (.finite 0))) (opTok .SLASH "/")
          (.Literal (.Number (.finite 0))))
        (opTok .EQUAL_EQUAL "==")
        (.Binary (.Literal (.Number (.finite 0))) (opTok .SLASH "/")
          (.Literal (.Number (.finite 0)))))
      Interpreter.new).1 = .ok (.Boolean false) :=
  ⟨rfl, rfl, rfl⟩

end RLox

namespace RLox

theorem lookup_insertVal_self (l : List (String × Value)) (k : String) (v : Value) :
    lookupVal (insertVal l k v) k = some v := by
  induction l with
  | nil => simp [insertVal, lookupVal]
  | cons hd tl ih =>
      obtain ⟨k', w⟩ := hd
      by_cases hk : k' = k
      · simp [insertVal, hk, lookupVal]
      · simp [insertVal, hk, lookupVal, ih]

theorem lookup_insertVal_ne (l : List (String × Value)) (k k' : String) (v : Value)
    (h : k' ≠ k) : lookupVal (insertVal l k v) k' = lookupVal l k' := by
  induction l with
  | nil =>
      simp only [insertVal, lookupVal]
      rw [if_neg (fun hh => h hh.symm)]
  | cons hd tl ih =>
      obtain ⟨k0, w⟩ := hd
      by_cases hk : k0 = k
      · subst hk
        simp [insertVal, lookupVal, h, Ne.symm h]
      · by_cases hk' : k0 = k'
        · simp [insertVal, hk, lookupVal, hk', h]
        · simp [insertVal, hk, lookupVal, hk', ih]

theorem containsVal_eq_isSome (l : List (String × Value)) (k : String) :
    containsVal l k = (lookupVal l k).isSome := by
  induction l with
  | nil => simp [containsVal, lookupVal]
  | cons hd tl ih =>
      obtain ⟨k0, w⟩ := hd
      by_cases hk : k0 = k
      · simp [containsVal, lookupVal, hk]
      · simp [containsVal, lookupVal, hk, ih]

theorem Environment.get_frame_some (vs : List (String × Value))
    (e : Environment) (name : Token) :
    Environment.get (.frame vs (some e)) name
      = (match lookupVal vs name.lexeme with
         | some v => Except.ok v
         | none => Environment.get e name) := by
  simp only [Environment.get]

theorem Environment.get_frame_none (vs : List (String × Value)) (name : Token) :
    Environment.get (.frame vs none) name
      = (match lookupVal vs name.lexeme with
         | some v => Except.ok v
         | none =>
             Except.error (.RuntimeError name
               ("Undefined variable '" ++ name.lexeme ++ "'."))) := by
  simp only [Environment.get]

theorem Environment.assign_frame_some (vs : List (String × Value))
    (e : Environment) (name : Token) (v : Value) :
    Environment.assign (.frame vs (some e)) name v
      = (if containsVal vs name.lexeme then
          Except.ok (.frame (insertVal vs name.lexeme v) (some e))
        else
          match Environment.assign e name v with
          | .ok e' => .ok (.frame vs (some e'))
          | .error err => .error err) := by
  simp only [Environment.assign]

theorem Environment.assign_frame_none (vs : List (String × Value))
    (name : Token) (v : Value) :
    Environment.assign (.frame vs none) name v
      = (if containsVal vs name.lexeme then
          Except.ok (.frame (insertVal vs name.lexeme v) none)
        else
          Except.error (.RuntimeError name
            ("Undefined variable '" ++ name.lexeme ++ "'."))) := by
  simp only [Environment.assign]

theorem definesAt_frame_some (vs : List (String × Value)) (e : Environment)
    (nm : String) :
    definesAt (.frame vs (some e)) nm
      = (if containsVal vs nm then some 0
         else (definesAt e nm).map (· + 1)) := by
  simp only [definesAt]

theorem definesAt_frame_none (vs : List (String × Value)) (nm : String) :
    definesAt (.frame vs none) nm
      = (if containsVal vs nm then some 0 else none) := by
  simp only [definesAt]

theorem framesOf_frame (vs : List (String × Value)) (enc : Option Environment) :
    framesOf (.frame vs enc)
      = vs :: (match enc with | none => [] | some e => framesOf e) := by
  cases enc <;> rfl

/-- Nearest-frame characterisation of `Environment::assign`, proved by
recursion on the scope chain. -/
theorem assign_spec_aux : ∀ (env : Environment) (name : Token) (v : Value),
    (definesAt env name.lexeme = none →
      env.assign name v = .error (.RuntimeError name
        ("Undefined variable '" ++ name.lexeme ++ "'."))) ∧
    (∀ i, definesAt env name.lexeme = some i →
      ∃ env', env.assign name v = .ok env'
        ∧ framesOf env' = (framesOf env).set i
            (insertVal ((framesOf env).getD i []) name.lexeme v)
        ∧ env'.get name = .ok v
        ∧ ∀ other : Token, other.lexeme ≠ name.lexeme →
            env'.get other = env.get other)
  | .frame vs enc, name, v => by
      cases enc with
      | none =>
          by_cases hc : containsVal vs name.lexeme
          · refine ⟨fun h => ?_, fun i hi => ?_⟩
            · rw [definesAt_frame_none] at h
              simp [hc] at h
            · rw [definesAt_frame_none] at hi
              simp [hc] at hi
              subst hi
              refine ⟨.frame (insertVal vs name.lexeme v) none, ?_, ?_, ?_, ?_⟩
              · rw [Environment.assign_frame_none]
                simp [hc]
              · simp [framesOf]
              · rw [Environment.get_frame_none]
                simp [lookup_insertVal_self]
              · intro other hother
                rw [Environment.get_frame_none, Environment.get_frame_none,
                  lookup_insertVal_ne vs name.lexeme other.lexeme v hother]
          · refine ⟨fun _ => ?_, fun i hi => ?_⟩
            · rw [Environment.assign_frame_none]
              simp [hc]
            · rw [definesAt_frame_none] at hi
              simp [hc] at hi
      | some e =>
          have ih := assign_spec_aux e name v
          by_cases hc : containsVal vs name.lexeme
          · refine ⟨fun h => ?_, fun i hi => ?_⟩
            · rw [definesAt_frame_some] at h
              simp [hc] at h
            · rw [definesAt_frame_some] at hi
              simp [hc] at hi
              subst hi
              refine ⟨.frame (insertVal vs name.lexeme v) (some e), ?_, ?_, ?_, ?_⟩
              · rw [Environment.assign_frame_some]
                simp [hc]
              · simp [framesOf]
              · rw [Environment.get_frame_some]
                simp [lookup_insertVal_self]
              · intro other hother
                rw [Environment.get_frame_some, Environment.get_frame_some,
                  lookup_insertVal_ne vs name.lexeme other.lexeme v hother]
          · refine ⟨fun h => ?_, fun i hi => ?_⟩
            · rw [definesAt_frame_some] at h
              simp only [hc, Bool.false_eq_true, if_false, Option.map_eq_none'] at h
              rw [Environment.assign_frame_some]
              simp [hc, ih.1 h]
            · rw [definesAt_frame_some] at hi
              simp only [hc, Bool.false_eq_true, if_false, Option.map_eq_some'] at hi
              obtain ⟨j, hj, rfl⟩ := hi
              obtain ⟨e', he', hfr, hget, hother⟩ := ih.2 j hj
              refine ⟨.frame vs (some e'), ?_, ?_, ?_, ?_⟩
              · rw [Environment.assign_frame_some]
                simp [hc, he']
              · simp [framesOf, hfr]
              · have hlk : lookupVal vs name.lexeme = none := by
                  have hcf : containsVal vs name.lexeme = false := by
                    cases h' : containsVal vs name.lexeme
                    · rfl
                    · exact absurd h' hc
                  have hcv := containsVal_eq_isSome vs name.lexeme
                  rw [hcf] at hcv
                  exact Option.not_isSome_iff_eq_none.mp (by simp [← hcv])
                rw [Environment.get_frame_some]
                simp [hlk, hget]
              · intro other hother'
                rw [Environment.get_frame_some, Environment.get_frame_some]
                cases hvs : lookupVal vs other.lexeme with
                | some w => simp
                | none => simp [hother other hother']

/-- C7: `assign` overwrites the binding in the nearest enclosing frame
that already defines the name — leaving every other frame, and every
other binding of that frame, unchanged — and succeeds; when no frame in
the chain defines the name it fails with the "Undefined variable"
runtime error naming the token, and no frame gains a binding. -/
theorem assign_overwrites_nearest_frame (env : Environment) (name : Token) (v : Value) :
    (definesAt env name.lexeme = none →
      env.assign name v = .error (.RuntimeError name
        ("Undefined variable '" ++ name.lexeme ++ "'."))) ∧
    (∀ i, definesAt env name.lexeme = some i →
      ∃ env', env.assign name v = .ok env'
        ∧ framesOf env' = (framesOf env).set i
            (insertVal ((framesOf env).getD i []) name.lexeme v)
        ∧ env'.get name = .ok v
        ∧ ∀ other : Token, other.lexeme ≠ name.lexeme →
            env'.get other = env.get other) :=
  assign_spec_aux env name v

/-- C7 witness: in a two-frame chain whose outer (global) frame binds
`a`, assignment to `a` succeeds and rewrites exactly that frame. -/
theorem assign_overwrites_nearest_frame_witness :
    definesAt (.frame [] (some (.frame [("a", .Number (.finite 1))] none)))
      (identTok "a").lexeme = some 1 ∧
    ∃ env',
      Environment.assign
        (.frame [] (some (.frame [("a", .Number (.finite 1))] none)))
        (identTok "a") (.Number (.finite 2)) = .ok env'
      ∧ framesOf env'
          = (framesOf (.frame [] (some (.frame [("a", .Number (.finite 1))] none)))).set 1
              (insertVal ((framesOf (.frame []
                (some (.frame [("a", .Number (.finite 1))] none)))).getD 1 [])
                (identTok "a").lexeme (.Number (.finite 2)))
      ∧ env'.get (identTok "a") = .ok (.Number (.finite 2))
      ∧ ∀ other : Token, other.lexeme ≠ (identTok "a").lexeme →
          env'.get other
            = Environment.get (.frame [] (some (.frame [("a", .Number (.finite 1))] none))) other := by
  refine ⟨?_, ?_⟩
  · simp [definesAt, containsVal, identTok]
  · exact (assign_overwrites_nearest_frame _ _ _).2 1
      (by simp [definesAt, containsVal, identTok])

end RLox

namespace RLox

/-- C4 (amended): the condition is re-evaluated before each iteration
and the body executes exactly as long as the condition's value is the
boolean `true`: under `Value::is_true` a value is truthy iff it is
`Boolean(true)`, and every other value — numbers and strings included —
ends the loop. -/
theorem while_condition_uses_is_true :
    (∀ v : Value, v.is_true = true ↔ v = .Boolean true) ∧
    ∀ (n : Nat) (c : Expr) (b : Stmt) (s s1 : Interpreter) (v : Value),
      eval n c s = (.ok v, s1) →
      (v = .Boolean true →
        exec (n + 1) (.While c b) s
          = thenV (exec n b s1) fun _ s2 => exec n (.While c b) s2) ∧
      (v ≠ .Boolean true →
        exec (n + 1) (.While c b) s = (.ok .Nil, s1)) := by
  constructor
  · intro v
    cases v with
    | Boolean b => cases b <;> simp [Value.is_true]
    | Number x => simp [Value.is_true]
    | String str => simp [Value.is_true]
    | Nil => simp [Value.is_true]
    | LoxFunction f => simp [Value.is_true]
  · intro n c b s s1 v heval
    have hexec : exec (n + 1) (.While c b) s
        = thenV (eval n c s) fun w s2 =>
            if w.is_true then
              thenV (exec n b s2) fun _ s3 => exec n (.While c b) s3
            else (.ok .Nil, s2) := by
      simp only [exec]
    constructor
    · intro hv
      subst hv
      rw [hexec, heval]
      simp [thenV, Value.is_true]
    · intro hv
      have hfalse : v.is_true = false := by
        cases v with
        | Boolean bb =>
            cases bb with
            | false => rfl
            | true => exact absurd rfl hv
        | Number x => rfl
        | String str => rfl
        | Nil => rfl
        | LoxFunction f => rfl
      rw [hexec, heval]
      simp [thenV, hfalse]

/-- C4 witness: a `While` whose condition evaluates to `Boolean false`
performs no iteration. -/
theorem while_condition_uses_is_true_witness :
    eval 3 (.Literal (.Bool false)) Interpreter.new
      = (.ok (.Boolean false), Interpreter.new) ∧
    exec 4 (.While (.Literal (.Bool false)) (.Print (.Literal .Nil)))
      Interpreter.new = (.ok .Nil, Interpreter.new) := by
  refine ⟨rfl, ?_⟩
  exact (while_condition_uses_is_true.2 3 (.Literal (.Bool false))
    (.Print (.Literal .Nil)) Interpreter.new Interpreter.new
    (.Boolean false) rfl).2 (by simp)

end RLox

namespace RLox

/-- C9 (amended): value equality under `==` is reflexive for every
string and every non-NaN numeric value (NaN, reachable as `0/0`, is the
sole exception), symmetric for strings and numbers, evaluates to
`false` for every pair of different tags, and the `==` arm of the
evaluator yields a boolean from any two operand values without ever
producing an error. -/
theorem value_equality_amended :
    (∀ s : String, Value.beq (.String s) (.String s) = true) ∧
    (∀ x : F64, x ≠ .nan → Value.beq (.Number x) (.Number x) = true) ∧
    (∀ x y : F64, Value.beq (.Number x) (.Number y)
      = Value.beq (.Number y) (.Number x)) ∧
    (∀ a b : String, Value.beq (.String a) (.String b)
      = Value.beq (.String b) (.String a)) ∧
    (∀ v w : Value, v.tag ≠ w.tag → Value.beq v w = false) ∧
    (∀ (n : Nat) (l r : Expr) (op : Token) (s s1 s2 : Interpreter)
      (v w : Value),
      op.token_type = .EQUAL_EQUAL →
      eval n l s = (.ok v, s1) → eval n r s1 = (.ok w, s2) →
      eval (n + 1) (.Binary l op r) s
        = (.ok (.Boolean (Value.beq v w)), s2)) := by
  refine ⟨?_, ?_, ?_, ?_, ?_, ?_⟩
  · intro s
    simp [Value.beq]
  · intro x hx
    cases x with
    | finite q => simp [Value.beq, F64.beq]
    | inf => rfl
    | neginf => rfl
    | nan => exact absurd rfl hx
  · intro x y
    cases x <;> cases y <;> simp [Value.beq, F64.beq]
    case finite.finite a b => exact eq_comm
  · intro a b
    simp only [Value.beq]
    by_cases h : a = b
    · subst h
      rfl
    · rw [beq_eq_false_iff_ne.mpr h, beq_eq_false_iff_ne.mpr (Ne.symm h)]
  · intro v w h
    cases v <;> cases w <;> first
      | exact absurd rfl h
      | rfl
  · intro n l r op s s1 s2 v w hop hl hr
    have : eval (n + 1) (.Binary l op r) s
        = thenV (eval n l s) fun lv sa =>
          thenV (eval n r sa) fun rv sb =>
          match op.token_type with
          | .PLUS =>
              match lv, rv with
              | .Number _, .Number _ | .String _, .String _ =>
                  ((Value.addValue lv rv).toOutcome, sb)
              | _, _ =>
                  (.err (.RuntimeError op
                    "Operands must be two numbers or two strings."), sb)
          | .MINUS =>
              match check_number_operands op lv rv with
              | .ok _ => ((Value.subValue lv rv).toOutcome, sb)
              | .error err => (.err err, sb)
          | .STAR =>
              match check_number_operands op lv rv with
              | .ok _ => ((Value.mulValue lv rv).toOutcome, sb)
              | .error err => (.err err, sb)
          | .SLASH =>
              match check_number_operands op lv rv with
              | .ok _ => ((Value.divValue lv rv).toOutcome, sb)
              | .error err => (.err err, sb)
          | .EQUAL_EQUAL => (.ok (.Boolean (Value.beq lv rv)), sb)
          | .BANG_EQUAL => (.ok (.Boolean (!Value.beq lv rv)), sb)
          | .GREATER =>
              match check_number_operands op lv rv with
              | .ok _ => (.ok (.Boolean (Value.gtValue lv rv)), sb)
              | .error err => (.err err, sb)
          | .GREATER_EQUAL =>
              match check_number_operands op lv rv with
              | .ok _ => (.ok (.Boolean (Value.geValue lv rv)), sb)
              | .error err => (.err err, sb)
          | .LESS =>
              match check_number_operands op lv rv with
              | .ok _ => (.ok (.Boolean (Value.ltValue lv rv)), sb)
              | .error err => (.err err, sb)
          | .LESS_EQUAL =>
              match check_number_operands op lv rv with
              | .ok _ => (.ok (.Boolean (Value.leValue lv rv)), sb)
              | .error err => (.err err, sb)
          | _ => (.crash "unreachable", sb) := by
      simp only [eval]
    rw [this, hl]
    simp only [thenV]
    rw [hr]
    simp only [hop]

/-- C9 witness: `1 == "1"` evaluates to the boolean `false` (cross-tag
equality) via the evaluator's `==` arm. -/
theorem value_equality_amended_witness :
    Value.tag (.Number (.finite 1)) ≠ Value.tag (.String "1") ∧
    Value.beq (.Number (.finite 1)) (.String "1") = false ∧
    eval 4 (.Binary (.Literal (.Number (.finite 1)))
        (opTok .EQUAL_EQUAL "==") (.Literal (.String "1")))
      Interpreter.new
      = (.ok (.Boolean (Value.beq (.Number (.finite 1)) (.String "1"))),
        Interpreter.new) := by
  refine ⟨by decide, ?_, ?_⟩
  · exact value_equality_amended.2.2.2.2.1 (.Number (.finite 1)) (.String "1")
      (by decide)
  · exact value_equality_amended.2.2.2.2.2 3 (.Literal (.Number (.finite 1)))
      (.Literal (.String "1")) (opTok .EQUAL_EQUAL "==")
      Interpreter.new Interpreter.new Interpreter.new
      (.Number (.finite 1)) (.String "1") rfl rfl rfl

end RLox

namespace RLox

theorem values_define : ∀ (env : Environment) (nm : String) (v : Value),
    (env.define nm v).values = insertVal env.values nm v
  | .frame _ _, _, _ => rfl

theorem blockGo_ok_nil : ∀ (n : Nat) (stmts : List Stmt) (prev : Environment)
    (s : Interpreter) (u : Value) (s1 : Interpreter),
    blockGo n stmts prev s = (.ok u, s1) → u = .Nil := by
  intro n
  induction n with
  | zero =>
      intro stmts prev s u s1 h
      simp only [blockGo] at h
      exact Outcome.noConfusion (congrArg Prod.fst h)
  | succ m ih =>
      intro stmts prev s u s1 h
      cases stmts with
      | nil =>
          simp only [blockGo] at h
          cases henc : s.globals.get_enclosing_env with
          | some prev' =>
              rw [henc] at h
              exact (Outcome.ok.inj (congrArg Prod.fst h)).symm
          | none =>
              rw [henc] at h
              exact (Outcome.ok.inj (congrArg Prod.fst h)).symm
      | cons st rest =>
          simp only [blockGo] at h
          cases hst : exec m st s with
          | mk o s2 =>
              rw [hst] at h
              cases o with
              | ok w => exact ih rest prev s2 u s1 h
              | err e => exact Outcome.noConfusion (congrArg Prod.fst h)
              | crash msg => exact Outcome.noConfusion (congrArg Prod.fst h)
              | diverge => exact Outcome.noConfusion (congrArg Prod.fst h)

theorem execute_block_ok_nil (n : Nat) (stmts : List Stmt) (env : Environment)
    (s : Interpreter) (u : Value) (s1 : Interpreter)
    (h : execute_block n stmts env s = (.ok u, s1)) : u = .Nil := by
  cases n with
  | zero =>
      simp only [execute_block] at h
      exact Outcome.noConfusion (congrArg Prod.fst h)
  | succ m =>
      simp only [execute_block] at h
      exact blockGo_ok_nil m stmts s.globals { s with globals := env } u s1 h

theorem bindParams_some : ∀ (ps : List Token) (args : List Value)
    (env : Environment) (i : Nat), i + ps.length ≤ args.length →
    ∃ env', bindParams env ps args i = some env' := by
  intro ps
  induction ps with
  | nil => exact fun args env i _ => ⟨env, rfl⟩
  | cons t ts ih =>
      intro args env i hlen
      rw [List.length_cons] at hlen
      cases hget : args.get? i with
      | none =>
          rw [List.get?_eq_none] at hget
          omega
      | some a =>
          simp only [bindParams, hget]
          exact ih args (env.define t.lexeme a) (i + 1) (by omega)

theorem bindParams_preserve : ∀ (ps : List Token) (args : List Value)
    (env : Environment) (i : Nat) (env' : Environment) (nm : String),
    bindParams env ps args i = some env' → (∀ t ∈ ps, t.lexeme ≠ nm) →
    lookupVal env'.values nm = lookupVal env.values nm := by
  intro ps
  induction ps with
  | nil =>
      intro args env i env' nm h _
      simp only [bindParams] at h
      cases h
      rfl
  | cons t ts ih =>
      intro args env i env' nm h hne
      simp only [bindParams] at h
      cases hget : args.get? i with
      | none => rw [hget] at h; cases h
      | some a =>
          rw [hget] at h
          have := ih args (env.define t.lexeme a) (i + 1) env' nm h
            (fun u hu => hne u (List.mem_cons_of_mem t hu))
          rw [this, values_define,
            lookup_insertVal_ne env.values t.lexeme nm a
              (fun hh => hne t (List.mem_cons_self t ts) hh.symm)]

theorem bindParams_get_pos : ∀ (ps : List Token) (args : List Value)
    (env : Environment) (i : Nat) (env' : Environment),
    List.Pairwise (fun a b : Token => a.lexeme ≠ b.lexeme) ps →
    bindParams env ps args i = some env' →
    ∀ j (h : j < ps.length),
      lookupVal env'.values ((ps.get ⟨j, h⟩).lexeme) = args.get? (i + j) := by
  intro ps
  induction ps with
  | nil =>
      intro args env i env' _ _ j h
      simp at h
  | cons t ts ih =>
      intro args env i env' hpw h j hj
      simp only [bindParams] at h
      cases hget : args.get? i with
      | none => rw [hget] at h; cases h
      | some a =>
          rw [hget] at h
          rcases List.pairwise_cons.mp hpw with ⟨hhead, htail⟩
          cases j with
          | zero =>
              have hpres := bindParams_preserve ts args (env.define t.lexeme a)
                (i + 1) env' t.lexeme h
                (fun u hu => (hhead u hu).symm)
              simp only [List.get]
              rw [hpres, values_define, lookup_insertVal_self, Nat.add_zero, hget]
          | succ j' =>
              have := ih args (env.define t.lexeme a) (i + 1) env' htail h j'
                (by simpa using Nat.lt_of_succ_lt_succ hj)
              simp only [List.get]
              rw [this]
              congr 1
              omega

end RLox

namespace RLox

/-- C5: calling a declared function with as many arguments as its
arity binds each parameter by position to the corresponding argument in
the newly built call scope and runs the body there through
`execute_block`; if the body completes without signalling a return the
call evaluates to `nil`, if it signals a return carrying `v` — from any
nesting depth, since any escaping `ReturnValue` is caught — the call
evaluates to `v`, and any other error propagates unchanged. The first
two conjuncts characterise how a `Return` statement signals the carried
value on the error channel. -/
theorem call_protocol :
    (∀ (n : Nat) (kw : Token) (e : Expr) (s s1 : Interpreter) (v : Value),
      eval n e s = (.ok v, s1) →
      exec (n + 1) (.Return kw (some e)) s = (.err (.ReturnValue v), s1)) ∧
    (∀ (n : Nat) (kw : Token) (s : Interpreter),
      exec (n + 1) (.Return kw none) s = (.err (.ReturnValue .Nil), s)) ∧
    ∀ (n : Nat) (func : LoxFunction) (args : List Value) (s : Interpreter),
      args.length = func.arity →
      ∃ env, bindParams s.globals func.declaration.params args 0 = some env ∧
        (List.Pairwise (fun a b : Token => a.lexeme ≠ b.lexeme)
            func.declaration.params →
          ∀ j (h : j < func.declaration.params.length),
            lookupVal env.values ((func.declaration.params.get ⟨j, h⟩).lexeme)
              = args.get? j) ∧
        (∀ (u : Value) (s1 : Interpreter),
          execute_block n func.declaration.body env s = (.ok u, s1) →
          callFunction (n + 1) func args s = (.ok .Nil, s1)) ∧
        (∀ (v : Value) (s1 : Interpreter),
          execute_block n func.declaration.body env s
            = (.err (.ReturnValue v), s1) →
          callFunction (n + 1) func args s = (.ok v, s1)) ∧
        (∀ (e : LoxResult) (s1 : Interpreter), (∀ v, e ≠ .ReturnValue v) →
          execute_block n func.declaration.body env s = (.err e, s1) →
          callFunction (n + 1) func args s = (.err e, s1)) := by
  refine ⟨?_, ?_, ?_⟩
  · intro n kw e s s1 v heval
    simp only [exec]
    rw [heval]
    simp [thenV]
  · intro n kw s
    simp only [exec]
    simp [thenV]
  · intro n func args s hlen
    obtain ⟨env, henv⟩ := bindParams_some func.declaration.params args
      s.globals 0 (by simp only [LoxFunction.arity] at hlen; omega)
    refine ⟨env, henv, ?_, ?_, ?_, ?_⟩
    · intro hpw j hj
      have := bindParams_get_pos func.declaration.params args s.globals 0 env
        hpw henv j hj
      rw [this, Nat.zero_add]
    · intro u s1 h
      have hnil := execute_block_ok_nil n func.declaration.body env s u s1 h
      subst hnil
      simp only [callFunction, henv]
      rw [h]
    · intro v s1 h
      simp only [callFunction, henv]
      rw [h]
    · intro e s1 hne h
      cases e with
      | RuntimeError t m =>
          simp only [callFunction, henv]
          rw [h]
      | ParseError t m =>
          simp only [callFunction, henv]
          rw [h]
      | ReturnValue v => exact absurd rfl (hne v)
      | Break =>
          simp only [callFunction, henv]
          rw [h]

/-- C5 witness: `fun g(x) { { return x; } }` called with `5` returns
`5` through the nested block. -/
theorem call_protocol_witness :
    [Value.Number (.finite 5)].length = funcG.arity ∧
    (callFunction 9 funcG [.Number (.finite 5)] Interpreter.new).1
      = .ok (.Number (.finite 5)) := by
  refine ⟨rfl, ?_⟩
  obtain ⟨env, henv, _, _, hret, _⟩ :=
    call_protocol.2.2 8 funcG [.Number (.finite 5)] Interpreter.new rfl
  have henv' : bindParams Interpreter.new.globals funcG.declaration.params
      [.Number (.finite 5)] 0
      = some (Environment.frame [("x", Value.Number (.finite 5))] none) := rfl
  rw [henv'] at henv
  cases henv
  have hexe : execute_block 8 funcG.declaration.body
      (Environment.frame [("x", Value.Number (.finite 5))] none)
      Interpreter.new
      = (.err (.ReturnValue (.Number (.finite 5))),
        (execute_block 8 funcG.declaration.body
          (Environment.frame [("x", Value.Number (.finite 5))] none)
          Interpreter.new).2) := rfl
  rw [hret (.Number (.finite 5)) _ hexe]

end RLox

namespace RLox

theorem peek_def (toks : List Token) (s : PState) :
    peek toks s = toks.get? s.current := rfl

theorem isAtEnd_eq_of_get (toks : List Token) (s : PState) (t : Token)
    (h : toks.get? s.current = some t) :
    isAtEnd toks s = some (t.token_type == .EOF) := by
  have h' : toks[s.current]? = some t := by
    rw [← List.get?_eq_getElem?]
    exact h
  simp [isAtEnd, peek, List.get?_eq_getElem?, h']

theorem advance_step (toks : List Token) (s : PState) (t : Token)
    (h : toks.get? s.current = some t)
    (hne : (t.token_type == .EOF) = false) :
    advance toks s = some (t, { s with current := s.current + 1 }) := by
  have h' : toks[s.current]? = some t := by
    rw [← List.get?_eq_getElem?]
    exact h
  simp [advance, isAtEnd_eq_of_get toks s t h, hne, previous,
    List.get?_eq_getElem?, h']

theorem advance_at_end (toks : List Token) (s : PState) (t u : Token)
    (h : toks.get? s.current = some t)
    (he : (t.token_type == .EOF) = true)
    (hu : toks.get? (s.current - 1) = some u)
    (h1 : 1 ≤ s.current) :
    advance toks s = some (u, s) := by
  have h0 : ¬ s.current = 0 := by omega
  have hu' : toks[s.current - 1]? = some u := by
    rw [← List.get?_eq_getElem?]
    exact hu
  simp [advance, isAtEnd_eq_of_get toks s t h, he, previous, h0,
    List.get?_eq_getElem?, hu']

theorem getLast_eq_of_eof (toks : List Token)
    (wfE : ∀ t, toks.getLast? = some t → t.token_type = .EOF)
    (i : Nat) (t : Token) (h : toks.get? i = some t)
    (hne : t.token_type ≠ .EOF) : i + 1 < toks.length := by
  have hi : i < toks.length := List.get?_eq_some.mp h |>.fst
  by_cases hlast : i + 1 < toks.length
  · exact hlast
  · exfalso
    have hi' : i = toks.length - 1 := by omega
    have : toks.getLast? = some t := by
      rw [List.getLast?_eq_getElem?, ← hi', ← List.get?_eq_getElem?]
      exact h
    exact hne (wfE t this)

end RLox

namespace RLox

theorem get?_lt_some (toks : List Token) (i : Nat) (h : i < toks.length) :
    ∃ t, toks.get? i = some t := by
  cases hg : toks.get? i with
  | none =>
      rw [List.get?_eq_none] at hg
      omega
  | some t => exact ⟨t, rfl⟩

theorem syncLoop_step (toks : List Token) (m : Nat) (s : PState) (t u : Token)
    (ht : toks.get? s.current = some t)
    (hne : (t.token_type == TokenType.EOF) = false)
    (h1 : ¬ s.current = 0)
    (hu : toks.get? (s.current - 1) = some u)
    (hns : u.token_type ≠ .SEMICOLON) :
    syncLoop toks (m + 1) s
      = (if boundaryStart t.token_type = true then .ok () s
        else syncLoop toks m { s with current := s.current + 1 }) := by
  have hu' : toks[s.current - 1]? = some u := by
    rw [← List.get?_eq_getElem?]
    exact hu
  have hadv := advance_step toks s t ht hne
  simp only [syncLoop, isAtEnd_eq_of_get toks s t ht, hne, previous, h1,
    if_false, List.get?_eq_getElem?, hu', peek]
  rw [if_neg hns]
  have ht' : toks[s.current]? = some t := by
    rw [← List.get?_eq_getElem?]
    exact ht
  simp only [ht']
  obtain ⟨tt, lex, lit, line⟩ := t
  cases tt <;> simp_all [boundaryStart, advance_step]

theorem syncLoop_spec : ∀ (fuel : Nat) (toks : List Token) (s : PState),
    (∀ t, toks.getLast? = some t → t.token_type = .EOF) →
    s.current < toks.length → 1 ≤ s.current →
    toks.length - s.current < fuel →
    ∃ q, syncLoop toks fuel s = .ok () { s with current := q } ∧
      s.current ≤ q ∧ q < toks.length ∧
      (∀ t, toks.get? q = some t →
        t.token_type = .EOF ∨ boundaryStart t.token_type = true ∨
        ∃ u, toks.get? (q - 1) = some u ∧ u.token_type = .SEMICOLON) ∧
      (∀ r, s.current ≤ r → r < q →
        (∀ t, toks.get? r = some t →
          t.token_type ≠ .EOF ∧ boundaryStart t.token_type = false) ∧
        ∀ u, toks.get? (r - 1) = some u → u.token_type ≠ .SEMICOLON) := by
  intro fuel
  induction fuel with
  | zero =>
      intro toks s _ hcur _ hf
      omega
  | succ m ih =>
      intro toks s wfE hcur h1 hf
      obtain ⟨t, ht⟩ := get?_lt_some toks s.current hcur
      by_cases heof : t.token_type = .EOF
      · refine ⟨s.current, ?_, le_refl _, hcur, ?_, ?_⟩
        · have : (t.token_type == TokenType.EOF) = true := by simp [heof]
          simp only [syncLoop, isAtEnd_eq_of_get toks s t ht, this]
        · intro t' ht'
          rw [ht] at ht'
          cases ht'
          exact Or.inl heof
        · intro r hr1 hr2
          exact absurd (Nat.lt_of_le_of_lt hr1 hr2) (lt_irrefl _)
      · have hne : (t.token_type == TokenType.EOF) = false := by simp [heof]
        have h0 : ¬ s.current = 0 := by omega
        obtain ⟨u, hu⟩ := get?_lt_some toks (s.current - 1) (by omega)
        by_cases hsemi : u.token_type = .SEMICOLON
        · refine ⟨s.current, ?_, le_refl _, hcur, ?_, ?_⟩
          · have hu' : toks[s.current - 1]? = some u := by
              rw [← List.get?_eq_getElem?]
              exact hu
            simp only [syncLoop, isAtEnd_eq_of_get toks s t ht, hne, previous,
              h0, if_false, List.get?_eq_getElem?, hu']
            rw [if_pos hsemi]
          · intro t' ht'
            exact Or.inr (Or.inr ⟨u, hu, hsemi⟩)
          · intro r hr1 hr2
            exact absurd (Nat.lt_of_le_of_lt hr1 hr2) (lt_irrefl _)
        · rw [syncLoop_step toks m s t u ht hne h0 hu hsemi]
          by_cases hbnd : boundaryStart t.token_type = true
          · rw [if_pos hbnd]
            refine ⟨s.current, rfl, le_refl _, hcur, ?_, ?_⟩
            · intro t' ht'
              rw [ht] at ht'
              cases ht'
              exact Or.inr (Or.inl hbnd)
            · intro r hr1 hr2
              exact absurd (Nat.lt_of_le_of_lt hr1 hr2) (lt_irrefl _)
          · rw [if_neg hbnd]
            have hcur1 : s.current + 1 < toks.length :=
              getLast_eq_of_eof toks wfE s.current t ht heof
            obtain ⟨q, hrun, hq1, hq2, hstop, hmin⟩ :=
              ih toks { s with current := s.current + 1 } wfE hcur1
                (by show (1 : Nat) ≤ s.current + 1; omega)
                (by show toks.length - (s.current + 1) < m; omega)
            have hq1' : s.current + 1 ≤ q := hq1
            refine ⟨q, hrun, by omega, hq2, hstop, ?_⟩
            intro r hr1 hr2
            by_cases hrc : r = s.current
            · subst hrc
              constructor
              · intro t' ht'
                rw [ht] at ht'
                cases ht'
                exact ⟨heof, by simp at hbnd; exact hbnd⟩
              · intro u' hu'
                rw [hu] at hu'
                cases hu'
                exact hsemi
            · exact hmin r (by show s.current + 1 ≤ r; omega) hr2
end RLox

namespace RLox

/-- Behaviour of `Parser::synchronize`: starting just past the error
site, it discards tokens until it has passed a semicolon or reached a
declaration/statement keyword (or the end of input), and stops at the
first such place. -/
theorem synchronize_spec (toks : List Token) (s : PState) (fuel : Nat)
    (wfE : ∀ t, toks.getLast? = some t → t.token_type = .EOF)
    (hcur : s.current < toks.length)
    (h0 : s.current = 0 → notEofAt toks 0)
    (hf : toks.length - s.current + 1 < fuel) :
    ∃ q, synchronize toks fuel s = .ok () { s with current := q } ∧
      s.current ≤ q ∧ q < toks.length ∧
      (∀ t', toks.get? s.current = some t' → t'.token_type ≠ .EOF →
        s.current < q) ∧
      (∀ t, toks.get? q = some t →
        t.token_type = .EOF ∨ boundaryStart t.token_type = true ∨
        ∃ u, toks.get? (q - 1) = some u ∧ u.token_type = .SEMICOLON) ∧
      (∀ r, s.current < r → r < q →
        (∀ t, toks.get? r = some t →
          t.token_type ≠ .EOF ∧ boundaryStart t.token_type = false) ∧
        ∀ u, toks.get? (r - 1) = some u → u.token_type ≠ .SEMICOLON) := by
  cases fuel with
  | zero => omega
  | succ m =>
      obtain ⟨t, ht⟩ := get?_lt_some toks s.current hcur
      by_cases heof : t.token_type = .EOF
      · have h1 : 1 ≤ s.current := by
          rcases Nat.eq_zero_or_pos s.current with hz | hp
          · exact absurd heof (h0 hz t (hz ▸ ht))
          · exact hp
        obtain ⟨u, hu⟩ := get?_lt_some toks (s.current - 1) (by omega)
        have he : (t.token_type == TokenType.EOF) = true := by simp [heof]
        cases m with
        | zero => omega
        | succ m' =>
            refine ⟨s.current, ?_, le_refl _, hcur, ?_, ?_, ?_⟩
            · simp only [synchronize, advance_at_end toks s t u ht he hu h1,
                syncLoop, isAtEnd_eq_of_get toks s t ht, he]
            · intro t' ht' hne'
              rw [ht] at ht'
              cases ht'
              exact absurd heof hne'
            · intro t' ht'
              rw [ht] at ht'
              cases ht'
              exact Or.inl heof
            · intro r hr1 hr2
              exact absurd (Nat.lt_trans hr1 hr2) (lt_irrefl _)
      · have hne : (t.token_type == TokenType.EOF) = false := by simp [heof]
        have hcur1 : s.current + 1 < toks.length :=
          getLast_eq_of_eof toks wfE s.current t ht heof
        obtain ⟨q, hrun, hq1, hq2, hstop, hmin⟩ :=
          syncLoop_spec m toks { s with current := s.current + 1 } wfE hcur1
            (by show (1 : Nat) ≤ s.current + 1; omega)
            (by show toks.length - (s.current + 1) < m; omega)
        have hq1' : s.current + 1 ≤ q := hq1
        refine ⟨q, ?_, by omega, hq2, ?_, hstop, ?_⟩
        · simp only [synchronize, advance_step toks s t ht hne]
          exact hrun
        · intro t' ht' hne'
          omega
        · intro r hr1 hr2
          exact hmin r (by show s.current + 1 ≤ r; omega) hr2

end RLox

namespace RLox

set_option maxHeartbeats 1000000 in
theorem c6_step1 : declaration toksInvalidAssign 30 PState.new
    = .ok (some stmtVarA) { current := 5, reported := [], hadError := false } := rfl

set_option maxHeartbeats 1000000 in
theorem c6_step2 : declaration toksInvalidAssign 29
    { current := 5, reported := [], hadError := false }
    = .ok none { current := 9, reported := [], hadError := false } := rfl

set_option maxHeartbeats 1000000 in
theorem c6_step3 : declaration toksInvalidAssign 28
    { current := 9, reported := [], hadError := false }
    = .ok (some stmtVarB) { current := 14, reported := [], hadError := false } := rfl

theorem c6_end0 : isAtEnd toksInvalidAssign PState.new = some false := rfl

theorem c6_end5 : isAtEnd toksInvalidAssign
    { current := 5, reported := [], hadError := false } = some false := rfl

theorem c6_end9 : isAtEnd toksInvalidAssign
    { current := 9, reported := [], hadError := false } = some false := rfl

theorem c6_end14 : isAtEnd toksInvalidAssign
    { current := 14, reported := [], hadError := false } = some true := rfl

/-- C6 counterexample: the claim says a program with one malformed
statement between two well-formed statements reports exactly one parse
error. Parsing `var a = 1; 1 = 2; var b = 2;` — whose middle statement
is malformed (invalid assignment target) — produces exactly the two
well-formed declarations but reports no parse error at all: the
"Invaild assignment target." `ParseError` is constructed without the
`.error()` reporting call every other parse error goes through. -/
theorem invalid_assignment_error_unreported :
    parse toksInvalidAssign 32 PState.new
      = .ok [stmtVarA, stmtVarB]
          { current := 14, reported := [], hadError := false } := by
  simp only [parse, parseLoop, c6_end0, c6_step1, c6_end5, c6_step2, c6_end9,
    c6_step3, c6_end14, List.nil_append, List.cons_append]

set_option maxHeartbeats 1000000 in
theorem c6_rstep1 : declaration toksReportedError 30 PState.new
    = .ok (some stmtVarA) { current := 5, reported := [], hadError := false } := rfl

set_option maxHeartbeats 1000000 in
theorem c6_rstep2 : declaration toksReportedError 29
    { current := 5, reported := [], hadError := false }
    = .ok none
        { current := 7,
          reported := [.ParseError (opTok .PLUS "+") "Expect expression"],
          hadError := true } := rfl

set_option maxHeartbeats 1000000 in
theorem c6_rstep3 : declaration toksReportedError 28
    { current := 7,
      reported := [.ParseError (opTok .PLUS "+") "Expect expression"],
      hadError := true }
    = .ok (some stmtVarB)
        { current := 12,
          reported := [.ParseError (opTok .PLUS "+") "Expect expression"],
          hadError := true } := rfl

theorem c6_rend0 : isAtEnd toksReportedError PState.new = some false := rfl

theorem c6_rend5 : isAtEnd toksReportedError
    { current := 5, reported := [], hadError := false } = some false := rfl

theorem c6_rend7 : isAtEnd toksReportedError
    { current := 7,
      reported := [.ParseError (opTok .PLUS "+") "Expect expression"],
      hadError := true } = some false := rfl

theorem c6_rend12 : isAtEnd toksReportedError
    { current := 12,
      reported := [.ParseError (opTok .PLUS "+") "Expect expression"],
      hadError := true } = some true := rfl

/-- C6 (amended): when a statement fails to parse, the parser discards
tokens — starting just past the error site — until it has passed a
semicolon or reached a token in the class/fun/var/for/if/while/print/
return set (or the end of input), resuming at the first such place
(first conjunct, the `synchronize` behaviour); the failed statement
contributes nothing to the returned list, and a failed statement
reports at most one parse error: parsing `var a = 1; + ; var b = 2;`
reports exactly the one "Expect expression" error and still yields
exactly the two well-formed declarations (second conjunct), while an
invalid-assignment-target failure is recovered silently with zero
reports. -/
theorem parser_error_recovery_amended :
    (∀ (toks : List Token) (s : PState) (fuel : Nat),
      (∀ t, toks.getLast? = some t → t.token_type = .EOF) →
      s.current < toks.length →
      (s.current = 0 → notEofAt toks 0) →
      toks.length - s.current + 1 < fuel →
      ∃ q, synchronize toks fuel s = .ok () { s with current := q } ∧
        s.current ≤ q ∧ q < toks.length ∧
        (∀ t, toks.get? q = some t →
          t.token_type = .EOF ∨ boundaryStart t.token_type = true ∨
          ∃ u, toks.get? (q - 1) = some u ∧ u.token_type = .SEMICOLON) ∧
        (∀ r, s.current < r → r < q →
          (∀ t, toks.get? r = some t →
            t.token_type ≠ .EOF ∧ boundaryStart t.token_type = false) ∧
          ∀ u, toks.get? (r - 1) = some u → u.token_type ≠ .SEMICOLON)) ∧
    parse toksReportedError 32 PState.new
      = .ok [stmtVarA, stmtVarB]
          { current := 12,
            reported := [.ParseError (opTok .PLUS "+") "Expect expression"],
            hadError := true } := by
  constructor
  · intro toks s fuel wfE hcur h0 hf
    obtain ⟨q, hrun, hq1, hq2, _, hstop, hmin⟩ :=
      synchronize_spec toks s fuel wfE hcur h0 hf
    exact ⟨q, hrun, hq1, hq2, hstop, hmin⟩
  · simp only [parse, parseLoop, c6_rend0, c6_rstep1, c6_rend5, c6_rstep2,
      c6_rend7, c6_rstep3, c6_rend12, List.nil_append, List.cons_append]

/-- C6 witness: `synchronize` run just past the malformed `+` of
`var a = 1; + ; var b = 2;` stops right after the following
semicolon. -/
theorem parser_error_recovery_amended_witness :
    toksReportedError.length - 5 + 1 < 10 ∧
    ∃ q, synchronize toksReportedError 10
        { current := 5, reported := [], hadError := false }
        = .ok () { current := q, reported := [], hadError := false } ∧
      5 ≤ q ∧ q < toksReportedError.length ∧
      (∀ t, toksReportedError.get? q = some t →
        t.token_type = .EOF ∨ boundaryStart t.token_type = true ∨
        ∃ u, toksReportedError.get? (q - 1) = some u ∧
          u.token_type = .SEMICOLON) ∧
      (∀ r, 5 < r → r < q →
        (∀ t, toksReportedError.get? r = some t →
          t.token_type ≠ .EOF ∧ boundaryStart t.token_type = false) ∧
        ∀ u, toksReportedError.get? (r - 1) = some u →
          u.token_type ≠ .SEMICOLON) := by
  refine ⟨by decide, ?_⟩
  exact parser_error_recovery_amended.1 toksReportedError
    { current := 5, reported := [], hadError := false } 10
    (by intro t ht; cases ht; rfl)
    (by decide)
    (by intro h; exact absurd h (by decide))
    (by decide)

end RLox

namespace RLox

theorem check_spec (toks : List Token) (s : PState) (tt : TokenType) (t : Token)
    (h : toks.get? s.current = some t) :
    check toks tt s
      = some (decide (t.token_type ≠ .EOF) && (t.token_type == tt)) := by
  have h' : toks[s.current]? = some t := by
    rw [← List.get?_eq_getElem?]
    exact h
  by_cases heof : t.token_type = .EOF
  · have he : (t.token_type == TokenType.EOF) = true := by simp [heof]
    simp [check, isAtEnd_eq_of_get toks s t h, he, heof]
  · have hne : (t.token_type == TokenType.EOF) = false := by simp [heof]
    simp [check, isAtEnd_eq_of_get toks s t h, hne, heof, peek,
      List.get?_eq_getElem?, h']

theorem matchToken_spec : ∀ (tts : List TokenType) (toks : List Token)
    (s : PState) (t : Token),
    toks.get? s.current = some t →
    (∀ u, toks.getLast? = some u → u.token_type = .EOF) →
    (matchToken toks tts s = some (false, s) ∧
      (t.token_type = .EOF ∨ t.token_type ∉ tts)) ∨
    (matchToken toks tts s = some (true, { s with current := s.current + 1 }) ∧
      t.token_type ≠ .EOF ∧ t.token_type ∈ tts ∧
      s.current + 1 < toks.length) := by
  intro tts
  induction tts with
  | nil =>
      intro toks s t ht wfE
      exact Or.inl ⟨rfl, Or.inr (by simp)⟩
  | cons tt rest ih =>
      intro toks s t ht wfE
      by_cases heof : t.token_type = .EOF
      · left
        have hc : check toks tt s = some false := by
          rw [check_spec toks s tt t ht]
          simp [heof]
        have : matchToken toks (tt :: rest) s = matchToken toks rest s := by
          simp only [matchToken, hc]
        rw [this]
        rcases ih toks s t ht wfE with ⟨hm, _⟩ | ⟨_, hne, _, _⟩
        · exact ⟨hm, Or.inl heof⟩
        · exact absurd heof hne
      · by_cases htt : t.token_type = tt
        · right
          have hc : check toks tt s = some true := by
            rw [check_spec toks s tt t ht]
            have h2 : ¬ tt = TokenType.EOF := htt ▸ heof
            simp [htt, h2]
          have hne : (t.token_type == TokenType.EOF) = false := by simp [heof]
          have : matchToken toks (tt :: rest) s
              = some (true, { s with current := s.current + 1 }) := by
            simp only [matchToken, hc, advance_step toks s t ht hne]
          exact ⟨this, heof, by rw [htt]; exact List.mem_cons_self tt rest,
            getLast_eq_of_eof toks wfE s.current t ht heof⟩
        · have hc : check toks tt s = some false := by
            rw [check_spec toks s tt t ht]
            simp [htt]
          have hstep : matchToken toks (tt :: rest) s = matchToken toks rest s := by
            simp only [matchToken, hc]
          rcases ih toks s t ht wfE with ⟨hm, hor⟩ | ⟨hm, hne, hmem, hlt⟩
          · refine Or.inl ⟨hstep.trans hm, ?_⟩
            rcases hor with h1 | h1
            · exact Or.inl h1
            · exact Or.inr (by simp [htt, h1])
          · exact Or.inr ⟨hstep.trans hm, hne,
              List.mem_cons_of_mem tt hmem, hlt⟩

theorem consume_spec (toks : List Token) (s : PState) (tt : TokenType)
    (msg : String) (t : Token)
    (h : toks.get? s.current = some t)
    (wfE : ∀ u, toks.getLast? = some u → u.token_type = .EOF) :
    (consume toks tt msg s = .ok t { s with current := s.current + 1 } ∧
      t.token_type ≠ .EOF ∧ t.token_type = tt ∧
      s.current + 1 < toks.length) ∨
    (consume toks tt msg s
        = .perr (.ParseError t msg) (reportErr (.ParseError t msg) s) ∧
      (t.token_type = .EOF ∨ t.token_type ≠ tt)) := by
  have h' : toks[s.current]? = some t := by
    rw [← List.get?_eq_getElem?]
    exact h
  by_cases heof : t.token_type = .EOF
  · right
    have hc : check toks tt s = some false := by
      rw [check_spec toks s tt t h]
      simp [heof]
    refine ⟨?_, Or.inl heof⟩
    simp only [consume, hc, peek, List.get?_eq_getElem?, h']
  · by_cases htt : t.token_type = tt
    · left
      have hc : check toks tt s = some true := by
        rw [check_spec toks s tt t h]
        have h2 : ¬ tt = TokenType.EOF := htt ▸ heof
        simp [htt, h2]
      have hne : (t.token_type == TokenType.EOF) = false := by simp [heof]
      refine ⟨?_, heof, htt, getLast_eq_of_eof toks wfE s.current t h heof⟩
      simp only [consume, hc, advance_step toks s t h hne]
    · right
      have hc : check toks tt s = some false := by
        rw [check_spec toks s tt t h]
        simp [htt]
      refine ⟨?_, Or.inr htt⟩
      simp only [consume, hc, peek, List.get?_eq_getElem?, h']

end RLox

namespace RLox

theorem safeAt_zero (toks : List Token) : SafeAt toks 0 := by
  have hdecl : ∀ (s : PState) (t : Token), toks.get? s.current = some t →
      t.token_type ≠ .EOF → 32 * toks.length + 17 ≤ 0 + 32 * s.current →
      ∃ ost s', declaration toks 0 s = .ok ost s' ∧
        s.current < s'.current ∧ s'.current < toks.length := by
    intro s t ht _ hb
    have := (List.get?_eq_some.mp ht).1
    omega
  constructor <;> first
    | exact hdecl
    | (intros; exfalso; omega)

end RLox

namespace RLox

theorem POkInv_relax {α : Type} (toks : List Token) (s s' : PState) (b : Bool)
    (r : PRes α) (h : POkInv toks s' b r) (hle : s.current ≤ s'.current) :
    POkInv toks s false r := by
  cases r with
  | ok a s1 => exact ⟨le_trans hle h.1, h.2.1, fun hh => Bool.noConfusion hh⟩
  | perr e s1 => exact ⟨le_trans hle h.1, h.2⟩
  | crash => exact h
  | diverge => exact h

theorem POkInv_strict {α : Type} (toks : List Token) (s s' : PState) (b : Bool)
    (r : PRes α) (h : POkInv toks s' b r) (hlt : s.current < s'.current) :
    POkInv toks s true r := by
  cases r with
  | ok a s1 =>
      exact ⟨le_trans (le_of_lt hlt) h.1, h.2.1,
        fun _ => lt_of_lt_of_le hlt h.1⟩
  | perr e s1 => exact ⟨le_trans (le_of_lt hlt) h.1, h.2⟩
  | crash => exact h
  | diverge => exact h

theorem prev_after_advance (toks : List Token) (s : PState) (t : Token)
    (ht : toks.get? s.current = some t) :
    previous toks { s with current := s.current + 1 } = some t := by
  have ht' : toks[s.current]? = some t := by
    rw [← List.get?_eq_getElem?]
    exact ht
  simp [previous, List.get?_eq_getElem?, ht']

end RLox

namespace RLox

theorem orLoop_step (toks : List Token) (m : Nat)
    (wfE : ∀ u, toks.getLast? = some u → u.token_type = .EOF)
    (hm : SafeAt toks m) :
    ∀ (s : PState) (e : Expr), s.current < toks.length →
    32 * toks.length + 1 ≤ m + 1 + 32 * s.current →
    POkInv toks s false (orLoop toks (m + 1) e s) := by
  intro s e hs hb
  obtain ⟨t, ht⟩ := get?_lt_some toks s.current hs
  simp only [orLoop]
  rcases matchToken_spec [.OR] toks s t ht wfE with ⟨hm1, _⟩ | ⟨hm1, _, _, hlt1⟩
  · simp only [hm1]
    exact ⟨le_refl _, hs, fun hh => Bool.noConfusion hh⟩
  · simp only [hm1, prev_after_advance toks s t ht]
    have hsub := hm.and_s { s with current := s.current + 1 } hlt1
      (by show 32 * toks.length + 9 ≤ m + 32 * (s.current + 1); omega)
    cases hres : and toks m { s with current := s.current + 1 } with
    | ok right s2 =>
        rw [hres] at hsub
        have ha1 : s.current + 1 ≤ s2.current := hsub.1
        have ha2 : s2.current < toks.length := hsub.2.1
        have ha3 : s.current + 1 < s2.current := hsub.2.2 rfl
        simp only [PRes.then]
        exact POkInv_relax toks s s2 false _
          (hm.orLoop_s s2 (.Logical e t right) ha2
            (by omega))
          (by omega)
    | perr err s2 =>
        rw [hres] at hsub
        simp only [PRes.then]
        exact ⟨by have h1 : s.current + 1 ≤ s2.current := hsub.1; omega, hsub.2⟩
    | crash =>
        rw [hres] at hsub
        exact hsub.elim
    | diverge =>
        rw [hres] at hsub
        exact hsub.elim

theorem or_step (toks : List Token) (m : Nat)
    (wfE : ∀ u, toks.getLast? = some u → u.token_type = .EOF)
    (hm : SafeAt toks m) :
    ∀ s : PState, s.current < toks.length →
    32 * toks.length + 10 ≤ m + 1 + 32 * s.current →
    POkInv toks s true (or toks (m + 1) s) := by
  intro s hs hb
  simp only [or]
  have hsub := hm.and_s s hs (by omega)
  cases hres : and toks m s with
  | ok e s1 =>
      rw [hres] at hsub
      have ha3 : s.current < s1.current := hsub.2.2 rfl
      simp only [PRes.then]
      exact POkInv_strict toks s s1 false _
        (hm.orLoop_s s1 e hsub.2.1 (by have := hsub.1; omega)) ha3
  | perr err s1 =>
      rw [hres] at hsub
      simp only [PRes.then]
      exact ⟨hsub.1, hsub.2⟩
  | crash =>
      rw [hres] at hsub
      exact hsub.elim
  | diverge =>
      rw [hres] at hsub
      exact hsub.elim

end RLox

namespace RLox

theorem andLoop_step (toks : List Token) (m : Nat)
    (wfE : ∀ u, toks.getLast? = some u → u.token_type = .EOF)
    (hm : SafeAt toks m) :
    ∀ (s : PState) (e : Expr), s.current < toks.length →
    32 * toks.length + 1 ≤ m + 1 + 32 * s.current →
    POkInv toks s false (andLoop toks (m + 1) e s) := by
  intro s e hs hb
  obtain ⟨t, ht⟩ := get?_lt_some toks s.current hs
  simp only [andLoop]
  rcases matchToken_spec [.AND] toks s t ht wfE with ⟨hm1, _⟩ | ⟨hm1, _, _, hlt1⟩
  · simp only [hm1]
    exact ⟨le_refl _, hs, fun hh => Bool.noConfusion hh⟩
  · simp only [hm1, prev_after_advance toks s t ht]
    have hsub := hm.equality_s { s with current := s.current + 1 } hlt1
      (by show 32 * toks.length + 8 ≤ m + 32 * (s.current + 1); omega)
    cases hres : equality toks m { s with current := s.current + 1 } with
    | ok right s2 =>
        rw [hres] at hsub
        have ha1 : s.current + 1 ≤ s2.current := hsub.1
        have ha2 : s2.current < toks.length := hsub.2.1
        simp only [PRes.then]
        exact POkInv_relax toks s s2 false _
          (hm.andLoop_s s2 (.Logical e t right) ha2 (by omega)) (by omega)
    | perr err s2 =>
        rw [hres] at hsub
        simp only [PRes.then]
        exact ⟨by have h1 : s.current + 1 ≤ s2.current := hsub.1; omega, hsub.2⟩
    | crash =>
        rw [hres] at hsub
        exact hsub.elim
    | diverge =>
        rw [hres] at hsub
        exact hsub.elim

theorem and_step (toks : List Token) (m : Nat)
    (wfE : ∀ u, toks.getLast? = some u → u.token_type = .EOF)
    (hm : SafeAt toks m) :
    ∀ s : PState, s.current < toks.length →
    32 * toks.length + 9 ≤ m + 1 + 32 * s.current →
    POkInv toks s true (and toks (m + 1) s) := by
  intro s hs hb
  simp only [and]
  have hsub := hm.equality_s s hs (by omega)
  cases hres : equality toks m s with
  | ok e s1 =>
      rw [hres] at hsub
      have ha3 : s.current < s1.current := hsub.2.2 rfl
      simp only [PRes.then]
      exact POkInv_strict toks s s1 false _
        (hm.andLoop_s s1 e hsub.2.1 (by have := hsub.1; omega)) ha3
  | perr err s1 =>
      rw [hres] at hsub
      simp only [PRes.then]
      exact ⟨hsub.1, hsub.2⟩
  | crash =>
      rw [hres] at hsub
      exact hsub.elim
  | diverge =>
      rw [hres] at hsub
      exact hsub.elim

theorem equalityLoop_step (toks : List Token) (m : Nat)
    (wfE : ∀ u, toks.getLast? = some u → u.token_type = .EOF)
    (hm : SafeAt toks m) :
    ∀ (s : PState) (e : Expr), s.current < toks.length →
    32 * toks.length + 1 ≤ m + 1 + 32 * s.current →
    POkInv toks s false (equalityLoop toks (m + 1) e s) := by
  intro s e hs hb
  obtain ⟨t, ht⟩ := get?_lt_some toks s.current hs
  simp only [equalityLoop]
  rcases matchToken_spec [.BANG_EQUAL, .EQUAL_EQUAL] toks s t ht wfE with
    ⟨hm1, _⟩ | ⟨hm1, _, _, hlt1⟩
  · simp only [hm1]
    exact ⟨le_refl _, hs, fun hh => Bool.noConfusion hh⟩
  · simp only [hm1, prev_after_advance toks s t ht]
    have hsub := hm.comparison_s { s with current := s.current + 1 } hlt1
      (by show 32 * toks.length + 7 ≤ m + 32 * (s.current + 1); omega)
    cases hres : comparison toks m { s with current := s.current + 1 } with
    | ok right s2 =>
        rw [hres] at hsub
        have ha1 : s.current + 1 ≤ s2.current := hsub.1
        have ha2 : s2.current < toks.length := hsub.2.1
        simp only [PRes.then]
        exact POkInv_relax toks s s2 false _
          (hm.equalityLoop_s s2 (.Binary e t right) ha2 (by omega)) (by omega)
    | perr err s2 =>
        rw [hres] at hsub
        simp only [PRes.then]
        exact ⟨by have h1 : s.current + 1 ≤ s2.current := hsub.1; omega, hsub.2⟩
    | crash =>
        rw [hres] at hsub
        exact hsub.elim
    | diverge =>
        rw [hres] at hsub
        exact hsub.elim

theorem equality_step (toks : List Token) (m : Nat)
    (wfE : ∀ u, toks.getLast? = some u → u.token_type = .EOF)
    (hm : SafeAt toks m) :
    ∀ s : PState, s.current < toks.length →
    32 * toks.length + 8 ≤ m + 1 + 32 * s.current →
    POkInv toks s true (equality toks (m + 1) s) := by
  intro s hs hb
  simp only [equality]
  have hsub := hm.comparison_s s hs (by omega)
  cases hres : comparison toks m s with
  | ok e s1 =>
      rw [hres] at hsub
      have ha3 : s.current < s1.current := hsub.2.2 rfl
      simp only [PRes.then]
      exact POkInv_strict toks s s1 false _
        (hm.equalityLoop_s s1 e hsub.2.1 (by have := hsub.1; omega)) ha3
  | perr err s1 =>
      rw [hres] at hsub
      simp only [PRes.then]
      exact ⟨hsub.1, hsub.2⟩
  | crash =>
      rw [hres] at hsub
      exact hsub.elim
  | diverge =>
      rw [hres] at hsub
      exact hsub.elim

theorem comparisonLoop_step (toks : List Token) (m : Nat)
    (wfE : ∀ u, toks.getLast? = some u → u.token_type = .EOF)
    (hm : SafeAt toks m) :
    ∀ (s : PState) (e : Expr), s.current < toks.length →
    32 * toks.length + 1 ≤ m + 1 + 32 * s.current →
    POkInv toks s false (comparisonLoop toks (m + 1) e s) := by
  intro s e hs hb
  obtain ⟨t, ht⟩ := get?_lt_some toks s.current hs
  simp only [comparisonLoop]
  rcases matchToken_spec [.GREATER, .GREATER_EQUAL, .LESS, .LESS_EQUAL]
      toks s t ht wfE with ⟨hm1, _⟩ | ⟨hm1, _, _, hlt1⟩
  · simp only [hm1]
    exact ⟨le_refl _, hs, fun hh => Bool.noConfusion hh⟩
  · simp only [hm1, prev_after_advance toks s t ht]
    have hsub := hm.term_s { s with current := s.current + 1 } hlt1
      (by show 32 * toks.length + 6 ≤ m + 32 * (s.current + 1); omega)
    cases hres : term toks m { s with current := s.current + 1 } with
    | ok right s2 =>
        rw [hres] at hsub
        have ha1 : s.current + 1 ≤ s2.current := hsub.1
        have ha2 : s2.current < toks.length := hsub.2.1
        simp only [PRes.then]
        exact POkInv_relax toks s s2 false _
          (hm.comparisonLoop_s s2 (.Binary e t right) ha2 (by omega)) (by omega)
    | perr err s2 =>
        rw [hres] at hsub
        simp only [PRes.then]
        exact ⟨by have h1 : s.current + 1 ≤ s2.current := hsub.1; omega, hsub.2⟩
    | crash =>
        rw [hres] at hsub
        exact hsub.elim
    | diverge =>
        rw [hres] at hsub
        exact hsub.elim

theorem comparison_step (toks : List Token) (m : Nat)
    (wfE : ∀ u, toks.getLast? = some u → u.token_type = .EOF)
    (hm : SafeAt toks m) :
    ∀ s : PState, s.current < toks.length →
    32 * toks.length + 7 ≤ m + 1 + 32 * s.current →
    POkInv toks s true (comparison toks (m + 1) s) := by
  intro s hs hb
  simp only [comparison]
  have hsub := hm.term_s s hs (by omega)
  cases hres : term toks m s with
  | ok e s1 =>
      rw [hres] at hsub
      have ha3 : s.current < s1.current := hsub.2.2 rfl
      simp only [PRes.then]
      exact POkInv_strict toks s s1 false _
        (hm.comparisonLoop_s s1 e hsub.2.1 (by have := hsub.1; omega)) ha3
  | perr err s1 =>
      rw [hres] at hsub
      simp only [PRes.then]
      exact ⟨hsub.1, hsub.2⟩
  | crash =>
      rw [hres] at hsub
      exact hsub.elim
  | diverge =>
      rw [hres] at hsub
      exact hsub.elim

theorem termLoop_step (toks : List Token) (m : Nat)
    (wfE : ∀ u, toks.getLast? = some u → u.token_type = .EOF)
    (hm : SafeAt toks m) :
    ∀ (s : PState) (e : Expr), s.current < toks.length →
    32 * toks.length + 1 ≤ m + 1 + 32 * s.current →
    POkInv toks s false (termLoop toks (m + 1) e s) := by
  intro s e hs hb
  obtain ⟨t, ht⟩ := get?_lt_some toks s.current hs
  simp only [termLoop]
  rcases matchToken_spec [.MINUS, .PLUS] toks s t ht wfE with
    ⟨hm1, _⟩ | ⟨hm1, _, _, hlt1⟩
  · simp only [hm1]
    exact ⟨le_refl _, hs, fun hh => Bool.noConfusion hh⟩
  · simp only [hm1, prev_after_advance toks s t ht]
    have hsub := hm.factor_s { s with current := s.current + 1 } hlt1
      (by show 32 * toks.length + 5 ≤ m + 32 * (s.current + 1); omega)
    cases hres : factor toks m { s with current := s.current + 1 } with
    | ok right s2 =>
        rw [hres] at hsub
        have ha1 : s.current + 1 ≤ s2.current := hsub.1
        have ha2 : s2.current < toks.length := hsub.2.1
        simp only [PRes.then]
        exact POkInv_relax toks s s2 false _
          (hm.termLoop_s s2 (.Binary e t right) ha2 (by omega)) (by omega)
    | perr err s2 =>
        rw [hres] at hsub
        simp only [PRes.then]
        exact ⟨by have h1 : s.current + 1 ≤ s2.current := hsub.1; omega, hsub.2⟩
    | crash =>
        rw [hres] at hsub
        exact hsub.elim
    | diverge =>
        rw [hres] at hsub
        exact hsub.elim

theorem term_step (toks : List Token) (m : Nat)
    (wfE : ∀ u, toks.getLast? = some u → u.token_type = .EOF)
    (hm : SafeAt toks m) :
    ∀ s : PState, s.current < toks.length →
    32 * toks.length + 6 ≤ m + 1 + 32 * s.current →
    POkInv toks s true (term toks (m + 1) s) := by
  intro s hs hb
  simp only [term]
  have hsub := hm.factor_s s hs (by omega)
  cases hres : factor toks m s with
  | ok e s1 =>
      rw [hres] at hsub
      have ha3 : s.current < s1.current := hsub.2.2 rfl
      simp only [PRes.then]
      exact POkInv_strict toks s s1 false _
        (hm.termLoop_s s1 e hsub.2.1 (by have := hsub.1; omega)) ha3
  | perr err s1 =>
      rw [hres] at hsub
      simp only [PRes.then]
      exact ⟨hsub.1, hsub.2⟩
  | crash =>
      rw [hres] at hsub
      exact hsub.elim
  | diverge =>
      rw [hres] at hsub
      exact hsub.elim

theorem factorLoop_step (toks : List Token) (m : Nat)
    (wfE : ∀ u, toks.getLast? = some u → u.token_type = .EOF)
    (hm : SafeAt toks m) :
    ∀ (s : PState) (e : Expr), s.current < toks.length →
    32 * toks.length + 1 ≤ m + 1 + 32 * s.current →
    POkInv toks s false (factorLoop toks (m + 1) e s) := by
  intro s e hs hb
  obtain ⟨t, ht⟩ := get?_lt_some toks s.current hs
  simp only [factorLoop]
  rcases matchToken_spec [.SLASH, .STAR] toks s t ht wfE with
    ⟨hm1, _⟩ | ⟨hm1, _, _, hlt1⟩
  · simp only [hm1]
    exact ⟨le_refl _, hs, fun hh => Bool.noConfusion hh⟩
  · simp only [hm1, prev_after_advance toks s t ht]
    have hsub := hm.unary_s { s with current := s.current + 1 } hlt1
      (by show 32 * toks.length + 4 ≤ m + 32 * (s.current + 1); omega)
    cases hres : unary toks m { s with current := s.current + 1 } with
    | ok right s2 =>
        rw [hres] at hsub
        have ha1 : s.current + 1 ≤ s2.current := hsub.1
        have ha2 : s2.current < toks.length := hsub.2.1
        simp only [PRes.then]
        exact POkInv_relax toks s s2 false _
          (hm.factorLoop_s s2 (.Binary e t right) ha2 (by omega)) (by omega)
    | perr err s2 =>
        rw [hres] at hsub
        simp only [PRes.then]
        exact ⟨by have h1 : s.current + 1 ≤ s2.current := hsub.1; omega, hsub.2⟩
    | crash =>
        rw [hres] at hsub
        exact hsub.elim
    | diverge =>
        rw [hres] at hsub
        exact hsub.elim

theorem factor_step (toks : List Token) (m : Nat)
    (wfE : ∀ u, toks.getLast? = some u → u.token_type = .EOF)
    (hm : SafeAt toks m) :
    ∀ s : PState, s.current < toks.length →
    32 * toks.length + 5 ≤ m + 1 + 32 * s.current →
    POkInv toks s true (factor toks (m + 1) s) := by
  intro s hs hb
  simp only [factor]
  have hsub := hm.unary_s s hs (by omega)
  cases hres : unary toks m s with
  | ok e s1 =>
      rw [hres] at hsub
      have ha3 : s.current < s1.current := hsub.2.2 rfl
      simp only [PRes.then]
      exact POkInv_strict toks s s1 false _
        (hm.factorLoop_s s1 e hsub.2.1 (by have := hsub.1; omega)) ha3
  | perr err s1 =>
      rw [hres] at hsub
      simp only [PRes.then]
      exact ⟨hsub.1, hsub.2⟩
  | crash =>
      rw [hres] at hsub
      exact hsub.elim
  | diverge =>
      rw [hres] at hsub
      exact hsub.elim

theorem unary_step (toks : List Token) (m : Nat)
    (wfE : ∀ u, toks.getLast? = some u → u.token_type = .EOF)
    (hm : SafeAt toks m) :
    ∀ s : PState, s.current < toks.length →
    32 * toks.length + 4 ≤ m + 1 + 32 * s.current →
    POkInv toks s true (unary toks (m + 1) s) := by
  intro s hs hb
  obtain ⟨t, ht⟩ := get?_lt_some toks s.current hs
  simp only [unary]
  rcases matchToken_spec [.BANG, .MINUS] toks s t ht wfE with
    ⟨hm1, _⟩ | ⟨hm1, _, _, hlt1⟩
  · simp only [hm1]
    exact hm.call_s s hs (by omega)
  · simp only [hm1, prev_after_advance toks s t ht]
    have hsub := hm.unary_s { s with current := s.current + 1 } hlt1
      (by show 32 * toks.length + 4 ≤ m + 32 * (s.current + 1); omega)
    cases hres : unary toks m { s with current := s.current + 1 } with
    | ok right s2 =>
        rw [hres] at hsub
        have ha1 : s.current + 1 ≤ s2.current := hsub.1
        simp only [PRes.then]
        exact ⟨by omega, hsub.2.1, fun _ => by omega⟩
    | perr err s2 =>
        rw [hres] at hsub
        simp only [PRes.then]
        exact ⟨by have h1 : s.current + 1 ≤ s2.current := hsub.1; omega, hsub.2⟩
    | crash =>
        rw [hres] at hsub
        exact hsub.elim
    | diverge =>
        rw [hres] at hsub
        exact hsub.elim

theorem callLoop_step (toks : List Token) (m : Nat)
    (wfE : ∀ u, toks.getLast? = some u → u.token_type = .EOF)
    (hm : SafeAt toks m) :
    ∀ (s : PState) (e : Expr), s.current < toks.length →
    32 * toks.length + 1 ≤ m + 1 + 32 * s.current →
    POkInv toks s false (callLoop toks (m + 1) e s) := by
  intro s e hs hb
  obtain ⟨t, ht⟩ := get?_lt_some toks s.current hs
  simp only [callLoop]
  rcases matchToken_spec [.LEFT_PAREN] toks s t ht wfE with
    ⟨hm1, _⟩ | ⟨hm1, _, _, hlt1⟩
  · simp only [hm1]
    exact ⟨le_refl _, hs, fun hh => Bool.noConfusion hh⟩
  · simp only [hm1]
    have hsub := hm.finish_call_s { s with current := s.current + 1 } e hlt1
      (by show 32 * toks.length + 13 ≤ m + 32 * (s.current + 1); omega)
    cases hres : finish_call toks m e { s with current := s.current + 1 } with
    | ok e2 s2 =>
        rw [hres] at hsub
        have ha1 : s.current + 1 ≤ s2.current := hsub.1
        have ha2 : s2.current < toks.length := hsub.2.1
        simp only [PRes.then]
        exact POkInv_relax toks s s2 false _
          (hm.callLoop_s s2 e2 ha2 (by omega)) (by omega)
    | perr err s2 =>
        rw [hres] at hsub
        simp only [PRes.then]
        exact ⟨by have h1 : s.current + 1 ≤ s2.current := hsub.1; omega, hsub.2⟩
    | crash =>
        rw [hres] at hsub
        exact hsub.elim
    | diverge =>
        rw [hres] at hsub
        exact hsub.elim

theorem call_step (toks : List Token) (m : Nat)
    (wfE : ∀ u, toks.getLast? = some u → u.token_type = .EOF)
    (hm : SafeAt toks m) :
    ∀ s : PState, s.current < toks.length →
    32 * toks.length + 3 ≤ m + 1 + 32 * s.current →
    POkInv toks s true (call toks (m + 1) s) := by
  intro s hs hb
  simp only [call]
  have hsub := hm.primary_s s hs (by omega)
  cases hres : primary toks m s with
  | ok e s1 =>
      rw [hres] at hsub
      have ha3 : s.current < s1.current := hsub.2.2 rfl
      simp only [PRes.then]
      exact POkInv_strict toks s s1 false _
        (hm.callLoop_s s1 e hsub.2.1 (by have := hsub.1; omega)) ha3
  | perr err s1 =>
      rw [hres] at hsub
      simp only [PRes.then]
      exact ⟨hsub.1, hsub.2⟩
  | crash =>
      rw [hres] at hsub
      exact hsub.elim
  | diverge =>
      rw [hres] at hsub
      exact hsub.elim

end RLox

namespace RLox

theorem primary_step (toks : List Token) (m : Nat)
    (wfE : ∀ u, toks.getLast? = some u → u.token_type = .EOF)
    (wfL : ∀ t ∈ toks, t.token_type = .NUMBER ∨ t.token_type = .STRING →
      t.literal.isSome)
    (hm : SafeAt toks m) :
    ∀ s : PState, s.current < toks.length →
    32 * toks.length + 2 ≤ m + 1 + 32 * s.current →
    POkInv toks s true (primary toks (m + 1) s) := by
  intro s hs hb
  obtain ⟨t, ht⟩ := get?_lt_some toks s.current hs
  simp only [primary]
  rcases matchToken_spec [.FALSE] toks s t ht wfE with
    ⟨hm1, _⟩ | ⟨hm1, _, _, hlt1⟩
  rotate_left
  · simp only [hm1]
    exact ⟨Nat.le_succ _, hlt1, fun _ => Nat.lt_succ_self _⟩
  simp only [hm1]
  rcases matchToken_spec [.TRUE] toks s t ht wfE with
    ⟨hm2, _⟩ | ⟨hm2, _, _, hlt2⟩
  rotate_left
  · simp only [hm2]
    exact ⟨Nat.le_succ _, hlt2, fun _ => Nat.lt_succ_self _⟩
  simp only [hm2]
  rcases matchToken_spec [.NIL] toks s t ht wfE with
    ⟨hm3, _⟩ | ⟨hm3, _, _, hlt3⟩
  rotate_left
  · simp only [hm3]
    exact ⟨Nat.le_succ _, hlt3, fun _ => Nat.lt_succ_self _⟩
  simp only [hm3]
  rcases matchToken_spec [.NUMBER, .STRING] toks s t ht wfE with
    ⟨hm4, _⟩ | ⟨hm4, _, hmem4, hlt4⟩
  rotate_left
  · simp only [hm4, prev_after_advance toks s t ht]
    have hns : t.token_type = .NUMBER ∨ t.token_type = .STRING := by
      simpa using hmem4
    obtain ⟨l, hl⟩ := Option.isSome_iff_exists.mp
      (wfL t (List.get?_mem ht) hns)
    simp only [hl]
    exact ⟨Nat.le_succ _, hlt4, fun _ => Nat.lt_succ_self _⟩
  simp only [hm4]
  rcases matchToken_spec [.IDENTIFIER] toks s t ht wfE with
    ⟨hm5, _⟩ | ⟨hm5, _, _, hlt5⟩
  rotate_left
  · simp only [hm5, prev_after_advance toks s t ht]
    exact ⟨Nat.le_succ _, hlt5, fun _ => Nat.lt_succ_self _⟩
  simp only [hm5]
  rcases matchToken_spec [.LEFT_PAREN] toks s t ht wfE with
    ⟨hm6, _⟩ | ⟨hm6, _, _, hlt6⟩
  rotate_left
  · simp only [hm6]
    have hsub := hm.expression_s { s with current := s.current + 1 } hlt6
      (by show 32 * toks.length + 12 ≤ m + 32 * (s.current + 1); omega)
    cases hres : expression toks m { s with current := s.current + 1 } with
    | ok e s7 =>
        rw [hres] at hsub
        have ha1 : s.current + 1 ≤ s7.current := hsub.1
        have ha2 : s7.current < toks.length := hsub.2.1
        simp only [PRes.then]
        obtain ⟨t7, ht7⟩ := get?_lt_some toks s7.current ha2
        rcases consume_spec toks s7 .RIGHT_PAREN
            "Expect ')' after expression." t7 ht7 wfE with
          ⟨hc, _, _, hlt7⟩ | ⟨hc, _⟩
        · simp only [hc, PRes.then]
          exact ⟨by show s.current ≤ s7.current + 1; omega, hlt7,
            fun _ => by show s.current < s7.current + 1; omega⟩
        · simp only [hc, PRes.then]
          exact ⟨by show s.current ≤ s7.current; omega,
            by show s7.current < toks.length; exact ha2⟩
    | perr err s7 =>
        rw [hres] at hsub
        simp only [PRes.then]
        exact ⟨by have h1 : s.current + 1 ≤ s7.current := hsub.1; omega, hsub.2⟩
    | crash =>
        rw [hres] at hsub
        exact hsub.elim
    | diverge =>
        rw [hres] at hsub
        exact hsub.elim
  simp only [hm6, peek_def, ht]
  exact ⟨Nat.le_refl _, hs⟩

end RLox

namespace RLox

theorem finish_call_step (toks : List Token) (m : Nat)
    (wfE : ∀ u, toks.getLast? = some u → u.token_type = .EOF)
    (hm : SafeAt toks m) :
    ∀ (s : PState) (e : Expr), s.current < toks.length →
    32 * toks.length + 13 ≤ m + 1 + 32 * s.current →
    POkInv toks s false (finish_call toks (m + 1) e s) := by
  intro s e hs hb
  obtain ⟨t, ht⟩ := get?_lt_some toks s.current hs
  simp only [finish_call]
  cases hbv : decide (t.token_type ≠ TokenType.EOF)
      && (t.token_type == TokenType.RIGHT_PAREN) with
  | true =>
      simp only [check_spec toks s .RIGHT_PAREN t ht, hbv, PRes.then]
      rcases consume_spec toks s .RIGHT_PAREN
          "Expect ')' after arguments." t ht wfE with
        ⟨hc, _, _, hlt⟩ | ⟨hc, _⟩
      · simp only [hc, PRes.then]
        exact ⟨Nat.le_succ _, hlt, fun hh => Bool.noConfusion hh⟩
      · simp only [hc, PRes.then]
        exact ⟨Nat.le_refl _, hs⟩
  | false =>
      simp only [check_spec toks s .RIGHT_PAREN t ht, hbv]
      have hsub := hm.expression_s s hs (by omega)
      cases hres : expression toks m s with
      | ok e1 s1 =>
          rw [hres] at hsub
          have hb1 : s.current < s1.current := hsub.2.2 rfl
          have hl1 : s1.current < toks.length := hsub.2.1
          simp only [PRes.then]
          have hsub2 := hm.argLoop_s s1 [e1] hl1 (by have := hsub.1; omega)
          cases hres2 : argLoop toks m [e1] s1 with
          | ok args s2 =>
              rw [hres2] at hsub2
              have ha1 : s1.current ≤ s2.current := hsub2.1
              have ha2 : s2.current < toks.length := hsub2.2.1
              simp only [PRes.then]
              obtain ⟨t2, ht2⟩ := get?_lt_some toks s2.current ha2
              rcases consume_spec toks s2 .RIGHT_PAREN
                  "Expect ')' after arguments." t2 ht2 wfE with
                ⟨hc, _, _, hlt2⟩ | ⟨hc, _⟩
              · simp only [hc, PRes.then]
                exact ⟨by show s.current ≤ s2.current + 1; omega, hlt2,
                  fun hh => Bool.noConfusion hh⟩
              · simp only [hc, PRes.then]
                exact ⟨by show s.current ≤ s2.current; omega,
                  by show s2.current < toks.length; exact ha2⟩
          | perr err s2 =>
              rw [hres2] at hsub2
              simp only [PRes.then]
              exact ⟨by have h1 : s1.current ≤ s2.current := hsub2.1; omega,
                hsub2.2⟩
          | crash =>
              rw [hres2] at hsub2
              exact hsub2.elim
          | diverge =>
              rw [hres2] at hsub2
              exact hsub2.elim
      | perr err s1 =>
          rw [hres] at hsub
          simp only [PRes.then]
          exact ⟨hsub.1, hsub.2⟩
      | crash =>
          rw [hres] at hsub
          exact hsub.elim
      | diverge =>
          rw [hres] at hsub
          exact hsub.elim

theorem argLoop_step (toks : List Token) (m : Nat)
    (wfE : ∀ u, toks.getLast? = some u → u.token_type = .EOF)
    (hm : SafeAt toks m) :
    ∀ (s : PState) (args : List Expr), s.current < toks.length →
    32 * toks.length + 1 ≤ m + 1 + 32 * s.current →
    POkInv toks s false (argLoop toks (m + 1) args s) := by
  intro s args hs hb
  obtain ⟨t, ht⟩ := get?_lt_some toks s.current hs
  simp only [argLoop]
  rcases matchToken_spec [.COMMA] toks s t ht wfE with
    ⟨hm1, _⟩ | ⟨hm1, _, _, hlt1⟩
  · simp only [hm1]
    exact ⟨le_refl _, hs, fun hh => Bool.noConfusion hh⟩
  · simp only [hm1]
    by_cases hlen : args.length ≥ 255
    · rw [if_pos hlen]
      obtain ⟨t1, ht1⟩ := get?_lt_some toks (s.current + 1) hlt1
      have ht1' : toks.get?
          ({ s with current := s.current + 1 } : PState).current = some t1 := ht1
      simp only [peek, ht1']
      exact ⟨Nat.le_succ _, hlt1⟩
    · rw [if_neg hlen]
      have hsub := hm.expression_s { s with current := s.current + 1 } hlt1
        (by show 32 * toks.length + 12 ≤ m + 32 * (s.current + 1); omega)
      cases hres : expression toks m { s with current := s.current + 1 } with
      | ok e s2 =>
          rw [hres] at hsub
          have ha1 : s.current + 1 ≤ s2.current := hsub.1
          have ha2 : s2.current < toks.length := hsub.2.1
          simp only [PRes.then]
          exact POkInv_relax toks s s2 false _
            (hm.argLoop_s s2 (args ++ [e]) ha2 (by omega)) (by omega)
      | perr err s2 =>
          rw [hres] at hsub
          simp only [PRes.then]
          exact ⟨by have h1 : s.current + 1 ≤ s2.current := hsub.1; omega,
            hsub.2⟩
      | crash =>
          rw [hres] at hsub
          exact hsub.elim
      | diverge =>
          rw [hres] at hsub
          exact hsub.elim

theorem expression_step (toks : List Token) (m : Nat)
    (hm : SafeAt toks m) :
    ∀ s : PState, s.current < toks.length →
    32 * toks.length + 12 ≤ m + 1 + 32 * s.current →
    POkInv toks s true (expression toks (m + 1) s) := by
  intro s hs hb
  simp only [expression]
  exact hm.assignment_s s hs (by omega)

theorem assignment_step (toks : List Token) (m : Nat)
    (wfE : ∀ u, toks.getLast? = some u → u.token_type = .EOF)
    (hm : SafeAt toks m) :
    ∀ s : PState, s.current < toks.length →
    32 * toks.length + 11 ≤ m + 1 + 32 * s.current →
    POkInv toks s true (assignment toks (m + 1) s) := by
  intro s hs hb
  simp only [assignment]
  have hsub := hm.or_s s hs (by omega)
  cases hres : or toks m s with
  | ok expr s1 =>
      rw [hres] at hsub
      have ha1 : s.current ≤ s1.current := hsub.1
      have ha2 : s1.current < toks.length := hsub.2.1
      have ha3 : s.current < s1.current := hsub.2.2 rfl
      simp only [PRes.then]
      obtain ⟨t1, ht1⟩ := get?_lt_some toks s1.current ha2
      rcases matchToken_spec [.EQUAL] toks s1 t1 ht1 wfE with
        ⟨hm1, _⟩ | ⟨hm1, _, _, hlt1⟩
      · simp only [hm1]
        exact ⟨ha1, ha2, fun _ => ha3⟩
      · simp only [hm1, prev_after_advance toks s1 t1 ht1]
        have hsub2 := hm.assignment_s { s1 with current := s1.current + 1 } hlt1
          (by show 32 * toks.length + 11 ≤ m + 32 * (s1.current + 1); omega)
        cases hres2 : assignment toks m { s1 with current := s1.current + 1 } with
        | ok value s3 =>
            rw [hres2] at hsub2
            have hc1 : s1.current + 1 ≤ s3.current := hsub2.1
            have hc2 : s3.current < toks.length := hsub2.2.1
            simp only [PRes.then]
            cases expr <;>
              first
                | exact ⟨by omega, hc2, fun _ => by omega⟩
                | exact ⟨by omega, hc2⟩
        | perr err s3 =>
            rw [hres2] at hsub2
            simp only [PRes.then]
            exact ⟨by have h1 : s1.current + 1 ≤ s3.current := hsub2.1; omega,
              hsub2.2⟩
        | crash =>
            rw [hres2] at hsub2
            exact hsub2.elim
        | diverge =>
            rw [hres2] at hsub2
            exact hsub2.elim
  | perr err s1 =>
      rw [hres] at hsub
      simp only [PRes.then]
      exact ⟨hsub.1, hsub.2⟩
  | crash =>
      rw [hres] at hsub
      exact hsub.elim
  | diverge =>
      rw [hres] at hsub
      exact hsub.elim

end RLox

namespace RLox

theorem print_statement_step (toks : List Token) (m : Nat)
    (wfE : ∀ u, toks.getLast? = some u → u.token_type = .EOF)
    (hm : SafeAt toks m) :
    ∀ s : PState, s.current < toks.length →
    32 * toks.length + 13 ≤ m + 1 + 32 * s.current →
    POkInv toks s true (print_statement toks (m + 1) s) := by
  intro s hs hb
  simp only [print_statement]
  have hsub := hm.expression_s s hs (by omega)
  cases hres : expression toks m s with
  | ok e s1 =>
      rw [hres] at hsub
      have ha1 : s.current < s1.current := hsub.2.2 rfl
      have ha2 : s1.current < toks.length := hsub.2.1
      simp only [PRes.then]
      obtain ⟨t1, ht1⟩ := get?_lt_some toks s1.current ha2
      rcases consume_spec toks s1 .SEMICOLON "Expect ';' after value"
          t1 ht1 wfE with ⟨hc, _, _, hlt1⟩ | ⟨hc, _⟩
      · simp only [hc, PRes.then]
        exact ⟨by show s.current ≤ s1.current + 1; omega, hlt1,
          fun _ => by show s.current < s1.current + 1; omega⟩
      · simp only [hc, PRes.then]
        exact ⟨by show s.current ≤ s1.current; omega,
          by show s1.current < toks.length; exact ha2⟩
  | perr err s1 =>
      rw [hres] at hsub
      simp only [PRes.then]
      exact ⟨hsub.1, hsub.2⟩
  | crash =>
      rw [hres] at hsub
      exact hsub.elim
  | diverge =>
      rw [hres] at hsub
      exact hsub.elim

theorem expression_statement_step (toks : List Token) (m : Nat)
    (wfE : ∀ u, toks.getLast? = some u → u.token_type = .EOF)
    (hm : SafeAt toks m) :
    ∀ s : PState, s.current < toks.length →
    32 * toks.length + 13 ≤ m + 1 + 32 * s.current →
    POkInv toks s true (expression_statement toks (m + 1) s) := by
  intro s hs hb
  simp only [expression_statement]
  have hsub := hm.expression_s s hs (by omega)
  cases hres : expression toks m s with
  | ok e s1 =>
      rw [hres] at hsub
      have ha1 : s.current < s1.current := hsub.2.2 rfl
      have ha2 : s1.current < toks.length := hsub.2.1
      simp only [PRes.then]
      obtain ⟨t1, ht1⟩ := get?_lt_some toks s1.current ha2
      rcases consume_spec toks s1 .SEMICOLON "Expect ';' after value"
          t1 ht1 wfE with ⟨hc, _, _, hlt1⟩ | ⟨hc, _⟩
      · simp only [hc, PRes.then]
        exact ⟨by show s.current ≤ s1.current + 1; omega, hlt1,
          fun _ => by show s.current < s1.current + 1; omega⟩
      · simp only [hc, PRes.then]
        exact ⟨by show s.current ≤ s1.current; omega,
          by show s1.current < toks.length; exact ha2⟩
  | perr err s1 =>
      rw [hres] at hsub
      simp only [PRes.then]
      exact ⟨hsub.1, hsub.2⟩
  | crash =>
      rw [hres] at hsub
      exact hsub.elim
  | diverge =>
      rw [hres] at hsub
      exact hsub.elim

theorem return_statement_step (toks : List Token) (m : Nat)
    (wfE : ∀ u, toks.getLast? = some u → u.token_type = .EOF)
    (hm : SafeAt toks m) :
    ∀ s : PState, s.current < toks.length →
    1 ≤ s.current →
    32 * toks.length + 13 ≤ m + 1 + 32 * s.current →
    POkInv toks s true (return_statement toks (m + 1) s) := by
  intro s hs h1 hb
  obtain ⟨t, ht⟩ := get?_lt_some toks s.current hs
  obtain ⟨kw, hkw⟩ := get?_lt_some toks (s.current - 1) (by omega)
  simp only [return_statement]
  have hprev : previous toks s = some kw := by
    simp only [previous]
    rw [if_neg (by omega)]
    exact hkw
  simp only [hprev]
  cases hbv : decide (t.token_type ≠ TokenType.EOF)
      && (t.token_type == TokenType.SEMICOLON) with
  | true =>
      simp only [check_spec toks s .SEMICOLON t ht, hbv, PRes.then]
      rcases consume_spec toks s .SEMICOLON "Expect ';' after return value"
          t ht wfE with ⟨hc, _, _, hlt⟩ | ⟨hc, _⟩
      · simp only [hc, PRes.then]
        exact ⟨Nat.le_succ _, hlt, fun _ => Nat.lt_succ_self _⟩
      · simp only [hc, PRes.then]
        exact ⟨Nat.le_refl _, hs⟩
  | false =>
      simp only [check_spec toks s .SEMICOLON t ht, hbv]
      have hsub := hm.expression_s s hs (by omega)
      cases hres : expression toks m s with
      | ok e s1 =>
          rw [hres] at hsub
          have ha1 : s.current < s1.current := hsub.2.2 rfl
          have ha2 : s1.current < toks.length := hsub.2.1
          simp only [PRes.then]
          obtain ⟨t1, ht1⟩ := get?_lt_some toks s1.current ha2
          rcases consume_spec toks s1 .SEMICOLON
              "Expect ';' after return value" t1 ht1 wfE with
            ⟨hc, _, _, hlt1⟩ | ⟨hc, _⟩
          · simp only [hc, PRes.then]
            exact ⟨by show s.current ≤ s1.current + 1; omega, hlt1,
              fun _ => by show s.current < s1.current + 1; omega⟩
          · simp only [hc, PRes.then]
            exact ⟨by show s.current ≤ s1.current; omega,
              by show s1.current < toks.length; exact ha2⟩
      | perr err s1 =>
          rw [hres] at hsub
          simp only [PRes.then]
          exact ⟨hsub.1, hsub.2⟩
      | crash =>
          rw [hres] at hsub
          exact hsub.elim
      | diverge =>
          rw [hres] at hsub
          exact hsub.elim

theorem var_declaration_step (toks : List Token) (m : Nat)
    (wfE : ∀ u, toks.getLast? = some u → u.token_type = .EOF)
    (hm : SafeAt toks m) :
    ∀ s : PState, s.current < toks.length →
    32 * toks.length + 13 ≤ m + 1 + 32 * s.current →
    POkInv toks s true (var_declaration toks (m + 1) s) := by
  intro s hs hb
  obtain ⟨t, ht⟩ := get?_lt_some toks s.current hs
  simp only [var_declaration]
  rcases consume_spec toks s .IDENTIFIER "Expect variable name." t ht wfE with
    ⟨hc, _, _, hlt⟩ | ⟨hc, _⟩
  · simp only [hc, PRes.then]
    obtain ⟨t1, ht1⟩ := get?_lt_some toks (s.current + 1) hlt
    rcases matchToken_spec [.EQUAL] toks { s with current := s.current + 1 }
        t1 ht1 wfE with ⟨hm1, _⟩ | ⟨hm1, _, _, hlt1⟩
    · simp only [hm1, PRes.then]
      rcases consume_spec toks { s with current := s.current + 1 } .SEMICOLON
          "Expect ';' after variable declaration." t1 ht1 wfE with
        ⟨hc2, _, _, hlt2⟩ | ⟨hc2, _⟩
      · simp only [hc2, PRes.then]
        exact ⟨by show s.current ≤ s.current + 1 + 1; omega,
          by show s.current + 1 + 1 < toks.length; exact hlt2,
          fun _ => by show s.current < s.current + 1 + 1; omega⟩
      · simp only [hc2, PRes.then]
        exact ⟨Nat.le_succ _, hlt⟩
    · have hm1' : matchToken toks [.EQUAL] { s with current := s.current + 1 }
          = some (true, { s with current := s.current + 2 }) := hm1
      have hlt1' : s.current + 2 < toks.length := hlt1
      simp only [hm1']
      have hsub := hm.expression_s { s with current := s.current + 2 } hlt1'
        (by show 32 * toks.length + 12 ≤ m + 32 * (s.current + 2); omega)
      cases hres : expression toks m { s with current := s.current + 2 } with
      | ok e s3 =>
          rw [hres] at hsub
          have ha1 : s.current + 2 ≤ s3.current := hsub.1
          have ha2 : s3.current < toks.length := hsub.2.1
          simp only [PRes.then]
          obtain ⟨t3, ht3⟩ := get?_lt_some toks s3.current ha2
          rcases consume_spec toks s3 .SEMICOLON
              "Expect ';' after variable declaration." t3 ht3 wfE with
            ⟨hc2, _, _, hlt2⟩ | ⟨hc2, _⟩
          · simp only [hc2, PRes.then]
            exact ⟨by show s.current ≤ s3.current + 1; omega, hlt2,
              fun _ => by show s.current < s3.current + 1; omega⟩
          · simp only [hc2, PRes.then]
            exact ⟨by show s.current ≤ s3.current; omega,
              by show s3.current < toks.length; exact ha2⟩
      | perr err s3 =>
          rw [hres] at hsub
          simp only [PRes.then]
          exact ⟨by have h1 : s.current + 2 ≤ s3.current := hsub.1; omega,
            hsub.2⟩
      | crash =>
          rw [hres] at hsub
          exact hsub.elim
      | diverge =>
          rw [hres] at hsub
          exact hsub.elim
  · simp only [hc, PRes.then]
    exact ⟨Nat.le_refl _, hs⟩

theorem paramLoop_step (toks : List Token) (m : Nat)
    (wfE : ∀ u, toks.getLast? = some u → u.token_type = .EOF)
    (hm : SafeAt toks m) :
    ∀ (s : PState) (params : List Token), s.current < toks.length →
    32 * toks.length + 1 ≤ m + 1 + 32 * s.current →
    POkInv toks s false (paramLoop toks (m + 1) params s) := by
  intro s params hs hb
  obtain ⟨t, ht⟩ := get?_lt_some toks s.current hs
  simp only [paramLoop]
  by_cases hlen : params.length ≥ 255
  · rw [if_pos hlen]
    simp only [peek_def, ht]
    exact ⟨Nat.le_refl _, hs⟩
  · rw [if_neg hlen]
    rcases consume_spec toks s .IDENTIFIER "Expect parameter name."
        t ht wfE with ⟨hc, _, _, hlt⟩ | ⟨hc, _⟩
    · simp only [hc, PRes.then]
      obtain ⟨t1, ht1⟩ := get?_lt_some toks (s.current + 1) hlt
      rcases matchToken_spec [.COMMA] toks { s with current := s.current + 1 }
          t1 ht1 wfE with ⟨hm1, _⟩ | ⟨hm1, _, _, hlt1⟩
      · simp only [hm1]
        exact ⟨Nat.le_succ _, hlt, fun hh => Bool.noConfusion hh⟩
      · have hm1' : matchToken toks [.COMMA] { s with current := s.current + 1 }
            = some (true, { s with current := s.current + 2 }) := hm1
        have hlt1' : s.current + 2 < toks.length := hlt1
        simp only [hm1']
        exact POkInv_relax toks s { s with current := s.current + 2 } false _
          (hm.paramLoop_s { s with current := s.current + 2 } (params ++ [t])
            hlt1'
            (by show 32 * toks.length + 1 ≤ m + 32 * (s.current + 2); omega))
          (by show s.current ≤ s.current + 2; omega)
    · simp only [hc, PRes.then]
      exact ⟨Nat.le_refl _, hs⟩

end RLox

namespace RLox

theorem while_statement_step (toks : List Token) (m : Nat)
    (wfE : ∀ u, toks.getLast? = some u → u.token_type = .EOF)
    (hm : SafeAt toks m) :
    ∀ s : PState, s.current < toks.length →
    32 * toks.length + 13 ≤ m + 1 + 32 * s.current →
    POkInv toks s true (while_statement toks (m + 1) s) := by
  intro s hs hb
  obtain ⟨t, ht⟩ := get?_lt_some toks s.current hs
  simp only [while_statement]
  rcases consume_spec toks s .LEFT_PAREN "Expect '(' after 'while'."
      t ht wfE with ⟨hc, _, _, hlt⟩ | ⟨hc, _⟩
  · simp only [hc, PRes.then]
    have hsub := hm.expression_s { s with current := s.current + 1 } hlt
      (by show 32 * toks.length + 12 ≤ m + 32 * (s.current + 1); omega)
    cases hres : expression toks m { s with current := s.current + 1 } with
    | ok cond s2 =>
        rw [hres] at hsub
        have ha1 : s.current + 1 ≤ s2.current := hsub.1
        have ha2 : s2.current < toks.length := hsub.2.1
        simp only [PRes.then]
        obtain ⟨t2, ht2⟩ := get?_lt_some toks s2.current ha2
        rcases consume_spec toks s2 .RIGHT_PAREN "Expect ')' after condition."
            t2 ht2 wfE with ⟨hc2, _, _, hlt2⟩ | ⟨hc2, _⟩
        · simp only [hc2, PRes.then]
          have hsub3 := hm.statement_s { s2 with current := s2.current + 1 }
            hlt2
            (by show 32 * toks.length + 14 ≤ m + 32 * (s2.current + 1); omega)
          cases hres3 : statement toks m { s2 with current := s2.current + 1 } with
          | ok body s4 =>
              rw [hres3] at hsub3
              have hc1 : s2.current + 1 ≤ s4.current := hsub3.1
              simp only [PRes.then]
              exact ⟨by omega, hsub3.2.1, fun _ => by omega⟩
          | perr err s4 =>
              rw [hres3] at hsub3
              simp only [PRes.then]
              exact ⟨by have h1 : s2.current + 1 ≤ s4.current := hsub3.1; omega,
                hsub3.2⟩
          | crash =>
              rw [hres3] at hsub3
              exact hsub3.elim
          | diverge =>
              rw [hres3] at hsub3
              exact hsub3.elim
        · simp only [hc2, PRes.then]
          exact ⟨by show s.current ≤ s2.current; omega,
            by show s2.current < toks.length; exact ha2⟩
    | perr err s2 =>
        rw [hres] at hsub
        simp only [PRes.then]
        exact ⟨by have h1 : s.current + 1 ≤ s2.current := hsub.1; omega, hsub.2⟩
    | crash =>
        rw [hres] at hsub
        exact hsub.elim
    | diverge =>
        rw [hres] at hsub
        exact hsub.elim
  · simp only [hc, PRes.then]
    exact ⟨Nat.le_refl _, hs⟩

theorem if_statement_step (toks : List Token) (m : Nat)
    (wfE : ∀ u, toks.getLast? = some u → u.token_type = .EOF)
    (hm : SafeAt toks m) :
    ∀ s : PState, s.current < toks.length →
    32 * toks.length + 13 ≤ m + 1 + 32 * s.current →
    POkInv toks s true (if_statement toks (m + 1) s) := by
  intro s hs hb
  obtain ⟨t, ht⟩ := get?_lt_some toks s.current hs
  simp only [if_statement]
  rcases consume_spec toks s .LEFT_PAREN "Expect '(' after 'if'."
      t ht wfE with ⟨hc, _, _, hlt⟩ | ⟨hc, _⟩
  · simp only [hc, PRes.then]
    have hsub := hm.expression_s { s with current := s.current + 1 } hlt
      (by show 32 * toks.length + 12 ≤ m + 32 * (s.current + 1); omega)
    cases hres : expression toks m { s with current := s.current + 1 } with
    | ok cond s2 =>
        rw [hres] at hsub
        have ha1 : s.current + 1 ≤ s2.current := hsub.1
        have ha2 : s2.current < toks.length := hsub.2.1
        simp only [PRes.then]
        obtain ⟨t2, ht2⟩ := get?_lt_some toks s2.current ha2
        rcases consume_spec toks s2 .RIGHT_PAREN
            "Expect ')' after if condition." t2 ht2 wfE with
          ⟨hc2, _, _, hlt2⟩ | ⟨hc2, _⟩
        · simp only [hc2, PRes.then]
          have hsub3 := hm.statement_s { s2 with current := s2.current + 1 }
            hlt2
            (by show 32 * toks.length + 14 ≤ m + 32 * (s2.current + 1); omega)
          cases hres3 : statement toks m { s2 with current := s2.current + 1 } with
          | ok then_branch s4 =>
              rw [hres3] at hsub3
              have hd1 : s2.current + 1 ≤ s4.current := hsub3.1
              have hd2 : s4.current < toks.length := hsub3.2.1
              simp only [PRes.then]
              obtain ⟨t4, ht4⟩ := get?_lt_some toks s4.current hd2
              rcases matchToken_spec [.ELSE] toks s4 t4 ht4 wfE with
                ⟨hm4, _⟩ | ⟨hm4, _, _, hlt4⟩
              · simp only [hm4, PRes.then]
                exact ⟨by omega, hd2, fun _ => by omega⟩
              · simp only [hm4]
                have hsub5 := hm.statement_s
                  { s4 with current := s4.current + 1 } hlt4
                  (by show 32 * toks.length + 14 ≤ m + 32 * (s4.current + 1)
                      omega)
                cases hres5 : statement toks m
                    { s4 with current := s4.current + 1 } with
                | ok st s6 =>
                    rw [hres5] at hsub5
                    have he1 : s4.current + 1 ≤ s6.current := hsub5.1
                    simp only [PRes.then]
                    exact ⟨by omega, hsub5.2.1, fun _ => by omega⟩
                | perr err s6 =>
                    rw [hres5] at hsub5
                    simp only [PRes.then]
                    refine ⟨?_, hsub5.2⟩
                    have h1 : s4.current + 1 ≤ s6.current := hsub5.1
                    omega
                | crash =>
                    rw [hres5] at hsub5
                    exact hsub5.elim
                | diverge =>
                    rw [hres5] at hsub5
                    exact hsub5.elim
          | perr err s4 =>
              rw [hres3] at hsub3
              simp only [PRes.then]
              exact ⟨by have h1 : s2.current + 1 ≤ s4.current := hsub3.1; omega,
                hsub3.2⟩
          | crash =>
              rw [hres3] at hsub3
              exact hsub3.elim
          | diverge =>
              rw [hres3] at hsub3
              exact hsub3.elim
        · simp only [hc2, PRes.then]
          exact ⟨by show s.current ≤ s2.current; omega,
            by show s2.current < toks.length; exact ha2⟩
    | perr err s2 =>
        rw [hres] at hsub
        simp only [PRes.then]
        exact ⟨by have h1 : s.current + 1 ≤ s2.current := hsub.1; omega, hsub.2⟩
    | crash =>
        rw [hres] at hsub
        exact hsub.elim
    | diverge =>
        rw [hres] at hsub
        exact hsub.elim
  · simp only [hc, PRes.then]
    exact ⟨Nat.le_refl _, hs⟩

theorem function_tail_step (toks : List Token) (m : Nat)
    (wfE : ∀ u, toks.getLast? = some u → u.token_type = .EOF)
    (hm : SafeAt toks m) (kind : String) (name : Token)
    (params : List Token) (s0 s3 : PState)
    (hlt03 : s0.current < s3.current)
    (hs3 : s3.current < toks.length)
    (hbnd : 32 * toks.length + 19 ≤ m + 32 * (s3.current + 2)) :
    POkInv toks s0 true
      ((consume toks .RIGHT_PAREN "Expect ')' after parameters." s3).then
        fun _ s4 =>
      (consume toks .LEFT_BRACE ("Expect '\x7b' before " ++ kind ++ " body")
          s4).then fun _ s5 =>
      (block toks m s5).then fun body s6 =>
      PRes.ok (Stmt.Function name params body) s6) := by
  obtain ⟨t3, ht3⟩ := get?_lt_some toks s3.current hs3
  rcases consume_spec toks s3 .RIGHT_PAREN "Expect ')' after parameters."
      t3 ht3 wfE with ⟨hc3, _, _, hlt3⟩ | ⟨hc3, _⟩
  · simp only [hc3, PRes.then]
    obtain ⟨t4, ht4⟩ := get?_lt_some toks (s3.current + 1) hlt3
    rcases consume_spec toks { s3 with current := s3.current + 1 } .LEFT_BRACE
        ("Expect '\x7b' before " ++ kind ++ " body") t4 ht4 wfE with
      ⟨hc4, _, _, hlt4⟩ | ⟨hc4, _⟩
    · have hc4' : consume toks .LEFT_BRACE
          ("Expect '\x7b' before " ++ kind ++ " body")
          { s3 with current := s3.current + 1 }
          = .ok t4 { s3 with current := s3.current + 2 } := hc4
      have hlt4' : s3.current + 2 < toks.length := hlt4
      simp only [hc4', PRes.then]
      have hsubB := hm.block_s { s3 with current := s3.current + 2 } hlt4'
        (by show 32 * toks.length + 19 ≤ m + 32 * (s3.current + 2); omega)
      cases hresB : block toks m { s3 with current := s3.current + 2 } with
      | ok body s6 =>
          rw [hresB] at hsubB
          have hb1 : s3.current + 2 ≤ s6.current := hsubB.1
          simp only [PRes.then]
          exact ⟨by omega, hsubB.2.1, fun _ => by omega⟩
      | perr err s6 =>
          rw [hresB] at hsubB
          simp only [PRes.then]
          exact ⟨by have h1 : s3.current + 2 ≤ s6.current := hsubB.1; omega,
            hsubB.2⟩
      | crash =>
          rw [hresB] at hsubB
          exact hsubB.elim
      | diverge =>
          rw [hresB] at hsubB
          exact hsubB.elim
    · simp only [hc4, PRes.then]
      exact ⟨by show s0.current ≤ s3.current + 1; omega,
        by show s3.current + 1 < toks.length; exact hlt3⟩
  · simp only [hc3, PRes.then]
    exact ⟨by show s0.current ≤ s3.current; omega,
      by show s3.current < toks.length; exact hs3⟩

theorem function_step (toks : List Token) (m : Nat)
    (wfE : ∀ u, toks.getLast? = some u → u.token_type = .EOF)
    (hm : SafeAt toks m) :
    ∀ (s : PState) (kind : String), s.current < toks.length →
    32 * toks.length + 13 ≤ m + 1 + 32 * s.current →
    POkInv toks s true (function toks (m + 1) kind s) := by
  intro s kind hs hb
  obtain ⟨t, ht⟩ := get?_lt_some toks s.current hs
  simp only [function]
  rcases consume_spec toks s .IDENTIFIER
      ("Expect '(' after " ++ kind ++ " name.") t ht wfE with
    ⟨hc1, _, _, hlt1⟩ | ⟨hc1, _⟩
  · simp only [hc1, PRes.then]
    obtain ⟨t1, ht1⟩ := get?_lt_some toks (s.current + 1) hlt1
    rcases consume_spec toks { s with current := s.current + 1 } .LEFT_PAREN
        ("Expect '(' after " ++ kind ++ " name.") t1 ht1 wfE with
      ⟨hc2, _, _, hlt2⟩ | ⟨hc2, _⟩
    · have hc2' : consume toks .LEFT_PAREN
          ("Expect '(' after " ++ kind ++ " name.")
          { s with current := s.current + 1 }
          = .ok t1 { s with current := s.current + 2 } := hc2
      have hlt2' : s.current + 2 < toks.length := hlt2
      simp only [hc2', PRes.then]
      obtain ⟨t2, ht2⟩ := get?_lt_some toks (s.current + 2) hlt2'
      cases hbv : decide (t2.token_type ≠ TokenType.EOF)
          && (t2.token_type == TokenType.RIGHT_PAREN) with
      | true =>
          have hck : check toks .RIGHT_PAREN
              { s with current := s.current + 2 } = some true := by
            rw [check_spec toks { s with current := s.current + 2 }
              .RIGHT_PAREN t2 ht2]
            rw [hbv]
          simp only [hck, PRes.then]
          exact function_tail_step toks m wfE hm kind t []
            s { s with current := s.current + 2 }
            (by show s.current < s.current + 2; omega) hlt2'
            (by show 32 * toks.length + 19 ≤ m + 32 * (s.current + 2 + 2)
                omega)
      | false =>
          have hck : check toks .RIGHT_PAREN
              { s with current := s.current + 2 } = some false := by
            rw [check_spec toks { s with current := s.current + 2 }
              .RIGHT_PAREN t2 ht2]
            rw [hbv]
          simp only [hck]
          have hsubP := hm.paramLoop_s { s with current := s.current + 2 } []
            hlt2'
            (by show 32 * toks.length + 1 ≤ m + 32 * (s.current + 2); omega)
          cases hresP : paramLoop toks m [] { s with current := s.current + 2 } with
          | ok params s3 =>
              rw [hresP] at hsubP
              have hp1 : s.current + 2 ≤ s3.current := hsubP.1
              have hp2 : s3.current < toks.length := hsubP.2.1
              simp only [PRes.then]
              exact function_tail_step toks m wfE hm kind t params s s3
                (by omega) hp2 (by omega)
          | perr err s3 =>
              rw [hresP] at hsubP
              simp only [PRes.then]
              exact ⟨by have h1 : s.current + 2 ≤ s3.current := hsubP.1; omega,
                hsubP.2⟩
          | crash =>
              rw [hresP] at hsubP
              exact hsubP.elim
          | diverge =>
              rw [hresP] at hsubP
              exact hsubP.elim
    · simp only [hc2, PRes.then]
      exact ⟨by show s.current ≤ s.current + 1; omega,
        by show s.current + 1 < toks.length; exact hlt1⟩
  · simp only [hc1, PRes.then]
    exact ⟨Nat.le_refl _, hs⟩

end RLox

namespace RLox

theorem for_tail_close (toks : List Token) (m : Nat)
    (wfE : ∀ u, toks.getLast? = some u → u.token_type = .EOF)
    (hm : SafeAt toks m) (init : Option Stmt)
    (condition increment : Option Expr) (s0 s10 : PState)
    (h010 : s0.current < s10.current)
    (hs10 : s10.current < toks.length)
    (hbnd : 32 * toks.length + 14 ≤ m + 32 * (s10.current + 1)) :
    POkInv toks s0 true
      ((consume toks .RIGHT_PAREN "Expect ')' after for clause." s10).then
        fun _ s11 =>
      (statement toks m s11).then fun body0 s12 =>
      let body1 :=
        match increment with
        | some inc => Stmt.Block [body0, .Expression inc]
        | none => body0
      let cond :=
        match condition with
        | some c => c
        | none => Expr.Literal (.Bool true)
      let body2 := Stmt.While cond body1
      let body3 :=
        match init with
        | some st => Stmt.Block [st, body2]
        | none => body2
      PRes.ok body3 s12) := by
  obtain ⟨t10, ht10⟩ := get?_lt_some toks s10.current hs10
  rcases consume_spec toks s10 .RIGHT_PAREN "Expect ')' after for clause."
      t10 ht10 wfE with ⟨hc, _, _, hlt⟩ | ⟨hc, _⟩
  · simp only [hc, PRes.then]
    have hsubS := hm.statement_s { s10 with current := s10.current + 1 } hlt
      (by show 32 * toks.length + 14 ≤ m + 32 * (s10.current + 1); omega)
    cases hresS : statement toks m { s10 with current := s10.current + 1 } with
    | ok body0 s12 =>
        rw [hresS] at hsubS
        have hb1 : s10.current + 1 ≤ s12.current := hsubS.1
        simp only [PRes.then]
        exact ⟨by omega, hsubS.2.1, fun _ => by omega⟩
    | perr err s12 =>
        rw [hresS] at hsubS
        simp only [PRes.then]
        refine ⟨?_, hsubS.2⟩
        have h1 : s10.current + 1 ≤ s12.current := hsubS.1
        omega
    | crash =>
        rw [hresS] at hsubS
        exact hsubS.elim
    | diverge =>
        rw [hresS] at hsubS
        exact hsubS.elim
  · simp only [hc, PRes.then]
    exact ⟨by show s0.current ≤ s10.current; omega,
      by show s10.current < toks.length; exact hs10⟩

theorem for_tail_incr (toks : List Token) (m : Nat)
    (wfE : ∀ u, toks.getLast? = some u → u.token_type = .EOF)
    (hm : SafeAt toks m) (init : Option Stmt) (condition : Option Expr)
    (s0 s8 : PState)
    (h08 : s0.current < s8.current)
    (hs8 : s8.current < toks.length)
    (hbnd : 32 * toks.length + 12 ≤ m + 32 * s8.current) :
    POkInv toks s0 true
      ((match check toks .RIGHT_PAREN s8 with
        | none => PRes.crash
        | some false =>
            (expression toks m s8).then fun e s9 => PRes.ok (some e) s9
        | some true => PRes.ok none s8).then fun increment s10 =>
      (consume toks .RIGHT_PAREN "Expect ')' after for clause." s10).then
        fun _ s11 =>
      (statement toks m s11).then fun body0 s12 =>
      let body1 :=
        match increment with
        | some inc => Stmt.Block [body0, .Expression inc]
        | none => body0
      let cond :=
        match condition with
        | some c => c
        | none => Expr.Literal (.Bool true)
      let body2 := Stmt.While cond body1
      let body3 :=
        match init with
        | some st => Stmt.Block [st, body2]
        | none => body2
      PRes.ok body3 s12) := by
  obtain ⟨t8, ht8⟩ := get?_lt_some toks s8.current hs8
  cases hbv : decide (t8.token_type ≠ TokenType.EOF)
      && (t8.token_type == TokenType.RIGHT_PAREN) with
  | true =>
      have hck : check toks .RIGHT_PAREN s8 = some true := by
        rw [check_spec toks s8 .RIGHT_PAREN t8 ht8]
        rw [hbv]
      simp only [hck, PRes.then]
      exact for_tail_close toks m wfE hm init condition none s0 s8 h08 hs8
        (by omega)
  | false =>
      have hck : check toks .RIGHT_PAREN s8 = some false := by
        rw [check_spec toks s8 .RIGHT_PAREN t8 ht8]
        rw [hbv]
      simp only [hck]
      have hsub := hm.expression_s s8 hs8 (by omega)
      cases hres : expression toks m s8 with
      | ok e s9 =>
          rw [hres] at hsub
          have ha1 : s8.current ≤ s9.current := hsub.1
          have ha3 : s8.current < s9.current := hsub.2.2 rfl
          simp only [PRes.then]
          exact for_tail_close toks m wfE hm init condition (some e) s0 s9
            (by omega) hsub.2.1 (by omega)
      | perr err s9 =>
          rw [hres] at hsub
          simp only [PRes.then]
          refine ⟨?_, hsub.2⟩
          have h1 : s8.current ≤ s9.current := hsub.1
          omega
      | crash =>
          rw [hres] at hsub
          exact hsub.elim
      | diverge =>
          rw [hres] at hsub
          exact hsub.elim

theorem for_tail_cond (toks : List Token) (m : Nat)
    (wfE : ∀ u, toks.getLast? = some u → u.token_type = .EOF)
    (hm : SafeAt toks m) (init : Option Stmt) (s0 s5 : PState)
    (h05 : s0.current < s5.current)
    (hs5 : s5.current < toks.length)
    (hbnd : 32 * toks.length + 12 ≤ m + 32 * s5.current) :
    POkInv toks s0 true
      ((match check toks .SEMICOLON s5 with
        | none => PRes.crash
        | some false =>
            (expression toks m s5).then fun e s6 => PRes.ok (some e) s6
        | some true => PRes.ok none s5).then fun condition s7 =>
      (consume toks .SEMICOLON "Expect ';' after loop condition." s7).then
        fun _ s8 =>
      (match check toks .RIGHT_PAREN s8 with
        | none => PRes.crash
        | some false =>
            (expression toks m s8).then fun e s9 => PRes.ok (some e) s9
        | some true => PRes.ok none s8).then fun increment s10 =>
      (consume toks .RIGHT_PAREN "Expect ')' after for clause." s10).then
        fun _ s11 =>
      (statement toks m s11).then fun body0 s12 =>
      let body1 :=
        match increment with
        | some inc => Stmt.Block [body0, .Expression inc]
        | none => body0
      let cond :=
        match condition with
        | some c => c
        | none => Expr.Literal (.Bool true)
      let body2 := Stmt.While cond body1
      let body3 :=
        match init with
        | some st => Stmt.Block [st, body2]
        | none => body2
      PRes.ok body3 s12) := by
  obtain ⟨t5, ht5⟩ := get?_lt_some toks s5.current hs5
  cases hbv : decide (t5.token_type ≠ TokenType.EOF)
      && (t5.token_type == TokenType.SEMICOLON) with
  | true =>
      have hck : check toks .SEMICOLON s5 = some true := by
        rw [check_spec toks s5 .SEMICOLON t5 ht5]
        rw [hbv]
      simp only [hck, PRes.then]
      rcases consume_spec toks s5 .SEMICOLON
          "Expect ';' after loop condition." t5 ht5 wfE with
        ⟨hc, _, _, hlt⟩ | ⟨hc, _⟩
      · simp only [hc, PRes.then]
        exact for_tail_incr toks m wfE hm init none s0
          { s5 with current := s5.current + 1 }
          (by show s0.current < s5.current + 1; omega) hlt
          (by show 32 * toks.length + 12 ≤ m + 32 * (s5.current + 1); omega)
      · simp only [hc, PRes.then]
        exact ⟨by show s0.current ≤ s5.current; omega,
          by show s5.current < toks.length; exact hs5⟩
  | false =>
      have hck : check toks .SEMICOLON s5 = some false := by
        rw [check_spec toks s5 .SEMICOLON t5 ht5]
        rw [hbv]
      simp only [hck]
      have hsub := hm.expression_s s5 hs5 (by omega)
      cases hres : expression toks m s5 with
      | ok e s6 =>
          rw [hres] at hsub
          have ha1 : s5.current ≤ s6.current := hsub.1
          have ha2 : s6.current < toks.length := hsub.2.1
          simp only [PRes.then]
          obtain ⟨t6, ht6⟩ := get?_lt_some toks s6.current ha2
          rcases consume_spec toks s6 .SEMICOLON
              "Expect ';' after loop condition." t6 ht6 wfE with
            ⟨hc, _, _, hlt⟩ | ⟨hc, _⟩
          · simp only [hc, PRes.then]
            exact for_tail_incr toks m wfE hm init (some e) s0
              { s6 with current := s6.current + 1 }
              (by show s0.current < s6.current + 1; omega) hlt
              (by show 32 * toks.length + 12 ≤ m + 32 * (s6.current + 1)
                  omega)
          · simp only [hc, PRes.then]
            exact ⟨by show s0.current ≤ s6.current; omega,
              by show s6.current < toks.length; exact ha2⟩
      | perr err s6 =>
          rw [hres] at hsub
          simp only [PRes.then]
          refine ⟨?_, hsub.2⟩
          have h1 : s5.current ≤ s6.current := hsub.1
          omega
      | crash =>
          rw [hres] at hsub
          exact hsub.elim
      | diverge =>
          rw [hres] at hsub
          exact hsub.elim

theorem for_statement_step (toks : List Token) (m : Nat)
    (wfE : ∀ u, toks.getLast? = some u → u.token_type = .EOF)
    (hm : SafeAt toks m) :
    ∀ s : PState, s.current < toks.length →
    32 * toks.length + 13 ≤ m + 1 + 32 * s.current →
    POkInv toks s true (for_statement toks (m + 1) s) := by
  intro s hs hb
  obtain ⟨t, ht⟩ := get?_lt_some toks s.current hs
  simp only [for_statement]
  rcases consume_spec toks s .LEFT_PAREN "Expect '(' after 'for'."
      t ht wfE with ⟨hc1, _, _, hlt1⟩ | ⟨hc1, _⟩
  · simp only [hc1, PRes.then]
    obtain ⟨t1, ht1⟩ := get?_lt_some toks (s.current + 1) hlt1
    rcases matchToken_spec [.SEMICOLON] toks { s with current := s.current + 1 }
        t1 ht1 wfE with ⟨hm1, _⟩ | ⟨hm1, _, _, hlt1b⟩
    · simp only [hm1]
      rcases matchToken_spec [.VAR] toks { s with current := s.current + 1 }
          t1 ht1 wfE with ⟨hm2, _⟩ | ⟨hm2, _, _, hlt2⟩
      · simp only [hm2]
        have hsub := hm.expression_statement_s
          { s with current := s.current + 1 } hlt1
          (by show 32 * toks.length + 13 ≤ m + 32 * (s.current + 1); omega)
        cases hres : expression_statement toks m
            { s with current := s.current + 1 } with
        | ok st s4 =>
            rw [hres] at hsub
            have ha1 : s.current + 1 ≤ s4.current := hsub.1
            simp only [PRes.then]
            exact for_tail_cond toks m wfE hm (some st) s s4 (by omega)
              hsub.2.1 (by omega)
        | perr err s4 =>
            rw [hres] at hsub
            simp only [PRes.then]
            refine ⟨?_, hsub.2⟩
            have h1 : s.current + 1 ≤ s4.current := hsub.1
            omega
        | crash =>
            rw [hres] at hsub
            exact hsub.elim
        | diverge =>
            rw [hres] at hsub
            exact hsub.elim
      · have hm2' : matchToken toks [.VAR] { s with current := s.current + 1 }
            = some (true, { s with current := s.current + 2 }) := hm2
        have hlt2' : s.current + 2 < toks.length := hlt2
        simp only [hm2']
        have hsub := hm.var_declaration_s { s with current := s.current + 2 }
          hlt2'
          (by show 32 * toks.length + 13 ≤ m + 32 * (s.current + 2); omega)
        cases hres : var_declaration toks m
            { s with current := s.current + 2 } with
        | ok st s4 =>
            rw [hres] at hsub
            have ha1 : s.current + 2 ≤ s4.current := hsub.1
            simp only [PRes.then]
            exact for_tail_cond toks m wfE hm (some st) s s4 (by omega)
              hsub.2.1 (by omega)
        | perr err s4 =>
            rw [hres] at hsub
            simp only [PRes.then]
            refine ⟨?_, hsub.2⟩
            have h1 : s.current + 2 ≤ s4.current := hsub.1
            omega
        | crash =>
            rw [hres] at hsub
            exact hsub.elim
        | diverge =>
            rw [hres] at hsub
            exact hsub.elim
    · have hm1' : matchToken toks [.SEMICOLON]
          { s with current := s.current + 1 }
          = some (true, { s with current := s.current + 2 }) := hm1
      have hlt1c : s.current + 2 < toks.length := hlt1b
      simp only [hm1', PRes.then]
      exact for_tail_cond toks m wfE hm none s
        { s with current := s.current + 2 }
        (by show s.current < s.current + 2; omega) hlt1c
        (by show 32 * toks.length + 12 ≤ m + 32 * (s.current + 2); omega)
  · simp only [hc1, PRes.then]
    exact ⟨Nat.le_refl _, hs⟩

end RLox

namespace RLox

theorem statement_step (toks : List Token) (m : Nat)
    (wfE : ∀ u, toks.getLast? = some u → u.token_type = .EOF)
    (hm : SafeAt toks m) :
    ∀ s : PState, s.current < toks.length →
    32 * toks.length + 14 ≤ m + 1 + 32 * s.current →
    POkInv toks s true (statement toks (m + 1) s) := by
  intro s hs hb
  obtain ⟨t, ht⟩ := get?_lt_some toks s.current hs
  simp only [statement]
  rcases matchToken_spec [.FOR] toks s t ht wfE with ⟨hm1, _⟩ | ⟨hm1, _, _, hlt1⟩
  rotate_left
  · simp only [hm1]
    exact POkInv_strict toks s { s with current := s.current + 1 } true _
      (hm.for_statement_s { s with current := s.current + 1 } hlt1
        (by show 32 * toks.length + 13 ≤ m + 32 * (s.current + 1); omega))
      (by show s.current < s.current + 1; omega)
  simp only [hm1]
  rcases matchToken_spec [.IF] toks s t ht wfE with ⟨hm2, _⟩ | ⟨hm2, _, _, hlt2⟩
  rotate_left
  · simp only [hm2]
    exact POkInv_strict toks s { s with current := s.current + 1 } true _
      (hm.if_statement_s { s with current := s.current + 1 } hlt2
        (by show 32 * toks.length + 13 ≤ m + 32 * (s.current + 1); omega))
      (by show s.current < s.current + 1; omega)
  simp only [hm2]
  rcases matchToken_spec [.PRINT] toks s t ht wfE with ⟨hm3, _⟩ | ⟨hm3, _, _, hlt3⟩
  rotate_left
  · simp only [hm3]
    exact POkInv_strict toks s { s with current := s.current + 1 } true _
      (hm.print_statement_s { s with current := s.current + 1 } hlt3
        (by show 32 * toks.length + 13 ≤ m + 32 * (s.current + 1); omega))
      (by show s.current < s.current + 1; omega)
  simp only [hm3]
  rcases matchToken_spec [.RETURN] toks s t ht wfE with ⟨hm4, _⟩ | ⟨hm4, _, _, hlt4⟩
  rotate_left
  · simp only [hm4]
    exact POkInv_strict toks s { s with current := s.current + 1 } true _
      (hm.return_statement_s { s with current := s.current + 1 } hlt4
        (by show (1 : Nat) ≤ s.current + 1; omega)
        (by show 32 * toks.length + 13 ≤ m + 32 * (s.current + 1); omega))
      (by show s.current < s.current + 1; omega)
  simp only [hm4]
  rcases matchToken_spec [.WHILE] toks s t ht wfE with ⟨hm5, _⟩ | ⟨hm5, _, _, hlt5⟩
  rotate_left
  · simp only [hm5]
    exact POkInv_strict toks s { s with current := s.current + 1 } true _
      (hm.while_statement_s { s with current := s.current + 1 } hlt5
        (by show 32 * toks.length + 13 ≤ m + 32 * (s.current + 1); omega))
      (by show s.current < s.current + 1; omega)
  simp only [hm5]
  rcases matchToken_spec [.LEFT_BRACE] toks s t ht wfE with
    ⟨hm6, _⟩ | ⟨hm6, _, _, hlt6⟩
  rotate_left
  · simp only [hm6]
    have hsub := hm.block_s { s with current := s.current + 1 } hlt6
      (by show 32 * toks.length + 19 ≤ m + 32 * (s.current + 1); omega)
    cases hres : block toks m { s with current := s.current + 1 } with
    | ok stmts s7 =>
        rw [hres] at hsub
        have ha1 : s.current + 1 ≤ s7.current := hsub.1
        simp only [PRes.then]
        exact ⟨by omega, hsub.2.1, fun _ => by omega⟩
    | perr err s7 =>
        rw [hres] at hsub
        simp only [PRes.then]
        refine ⟨?_, hsub.2⟩
        have h1 : s.current + 1 ≤ s7.current := hsub.1
        omega
    | crash =>
        rw [hres] at hsub
        exact hsub.elim
    | diverge =>
        rw [hres] at hsub
        exact hsub.elim
  simp only [hm6]
  exact hm.expression_statement_s s hs (by omega)

theorem blockLoop_step (toks : List Token) (m : Nat)
    (wfE : ∀ u, toks.getLast? = some u → u.token_type = .EOF)
    (hm : SafeAt toks m) :
    ∀ (s : PState) (acc : List Stmt), s.current < toks.length →
    32 * toks.length + 18 ≤ m + 1 + 32 * s.current →
    POkInv toks s true (blockLoop toks (m + 1) acc s) := by
  intro s acc hs hb
  obtain ⟨t, ht⟩ := get?_lt_some toks s.current hs
  simp only [blockLoop]
  cases hbv : decide (t.token_type ≠ TokenType.EOF)
      && (t.token_type == TokenType.RIGHT_BRACE) with
  | true =>
      have hck : check toks .RIGHT_BRACE s = some true := by
        rw [check_spec toks s .RIGHT_BRACE t ht]
        rw [hbv]
      simp only [hck]
      rcases consume_spec toks s .RIGHT_BRACE "Expect '\x7d' after a block"
          t ht wfE with ⟨hc, _, _, hlt⟩ | ⟨hc, _⟩
      · simp only [hc, PRes.then]
        exact ⟨Nat.le_succ _, hlt, fun _ => Nat.lt_succ_self _⟩
      · simp only [hc, PRes.then]
        exact ⟨Nat.le_refl _, hs⟩
  | false =>
      have hck : check toks .RIGHT_BRACE s = some false := by
        rw [check_spec toks s .RIGHT_BRACE t ht]
        rw [hbv]
      simp only [hck]
      by_cases heof : t.token_type = .EOF
      · have hae : isAtEnd toks s = some true := by
          rw [isAtEnd_eq_of_get toks s t ht]
          simp [heof]
        simp only [hae]
        rcases consume_spec toks s .RIGHT_BRACE "Expect '\x7d' after a block"
            t ht wfE with ⟨hc, _, _, hlt⟩ | ⟨hc, _⟩
        · simp only [hc, PRes.then]
          exact ⟨Nat.le_succ _, hlt, fun _ => Nat.lt_succ_self _⟩
        · simp only [hc, PRes.then]
          exact ⟨Nat.le_refl _, hs⟩
      · have hae : isAtEnd toks s = some false := by
          rw [isAtEnd_eq_of_get toks s t ht]
          simp [heof]
        simp only [hae]
        obtain ⟨ost, s1, hrun, hlt1, hlt2⟩ :=
          hm.declaration_s s t ht heof (by omega)
        simp only [hrun]
        cases ost with
        | some st =>
            exact POkInv_strict toks s s1 true _
              (hm.blockLoop_s s1 (acc ++ [st]) hlt2 (by omega)) hlt1
        | none =>
            exact POkInv_strict toks s s1 true _
              (hm.blockLoop_s s1 acc hlt2 (by omega)) hlt1

theorem block_step (toks : List Token) (m : Nat)
    (hm : SafeAt toks m) :
    ∀ s : PState, s.current < toks.length →
    32 * toks.length + 19 ≤ m + 1 + 32 * s.current →
    POkInv toks s true (block toks (m + 1) s) := by
  intro s hs hb
  simp only [block]
  exact hm.blockLoop_s s [] hs (by omega)

theorem withRecovery_step (toks : List Token) (m : Nat)
    (wfE : ∀ u, toks.getLast? = some u → u.token_type = .EOF) :
    ∀ (s0 : PState) (r : PRes Stmt), s0.current < toks.length →
    (s0.current = 0 → notEofAt toks 0) →
    POkInv toks s0 true r →
    32 * toks.length + 16 ≤ m + 1 + 32 * s0.current →
    ∃ ost s', withRecovery toks (m + 1) r = .ok ost s' ∧
      s0.current ≤ s'.current ∧ s'.current < toks.length ∧
      (notEofAt toks s0.current → s0.current < s'.current) := by
  intro s0 r hs0 h0 hr hb
  cases r with
  | ok st s1 =>
      refine ⟨some st, s1, ?_, hr.1, hr.2.1, fun _ => hr.2.2 rfl⟩
      simp only [withRecovery]
  | perr e s1 =>
      have hc1 : s1.current < toks.length := hr.2
      have hle : s0.current ≤ s1.current := hr.1
      obtain ⟨q, hrun, hq1, hq2, hqstrict, _, _⟩ :=
        synchronize_spec toks s1 m wfE hc1
          (fun hz => h0 (by omega)) (by omega)
      refine ⟨none, { s1 with current := q }, ?_,
        by show s0.current ≤ q; omega, hq2, ?_⟩
      · simp only [withRecovery, hrun]
      · intro hne
        show s0.current < q
        by_cases hss : s0.current = s1.current
        · obtain ⟨t1, ht1⟩ := get?_lt_some toks s1.current hc1
          have := hqstrict t1 ht1 (hne t1 (by rw [hss]; exact ht1))
          omega
        · omega
  | crash => exact hr.elim
  | diverge => exact hr.elim

theorem declaration_step (toks : List Token) (m : Nat)
    (wfE : ∀ u, toks.getLast? = some u → u.token_type = .EOF)
    (hm : SafeAt toks m) :
    ∀ (s : PState) (t : Token),
    toks.get? s.current = some t → t.token_type ≠ .EOF →
    32 * toks.length + 17 ≤ m + 1 + 32 * s.current →
    ∃ ost s', declaration toks (m + 1) s = .ok ost s' ∧
      s.current < s'.current ∧ s'.current < toks.length := by
  intro s t ht hne hb
  have hs : s.current < toks.length := (List.get?_eq_some.mp ht).1
  simp only [declaration]
  rcases matchToken_spec [.FUN] toks s t ht wfE with ⟨hm1, _⟩ | ⟨hm1, _, _, hlt1⟩
  rotate_left
  · simp only [hm1]
    obtain ⟨ost, s', hrun, hle, hlt', _⟩ :=
      hm.withRecovery_s { s with current := s.current + 1 }
        (function toks m "function" { s with current := s.current + 1 })
        hlt1
        (fun hz => absurd (show s.current + 1 = 0 from hz)
          (Nat.succ_ne_zero _))
        (hm.function_s { s with current := s.current + 1 } "function" hlt1
          (by show 32 * toks.length + 13 ≤ m + 32 * (s.current + 1); omega))
        (by show 32 * toks.length + 16 ≤ m + 32 * (s.current + 1); omega)
    have hle' : s.current + 1 ≤ s'.current := hle
    exact ⟨ost, s', hrun, by omega, hlt'⟩
  simp only [hm1]
  rcases matchToken_spec [.VAR] toks s t ht wfE with ⟨hm2, _⟩ | ⟨hm2, _, _, hlt2⟩
  rotate_left
  · simp only [hm2]
    obtain ⟨ost, s', hrun, hle, hlt', _⟩ :=
      hm.withRecovery_s { s with current := s.current + 1 }
        (var_declaration toks m { s with current := s.current + 1 })
        hlt2
        (fun hz => absurd (show s.current + 1 = 0 from hz)
          (Nat.succ_ne_zero _))
        (hm.var_declaration_s { s with current := s.current + 1 } hlt2
          (by show 32 * toks.length + 13 ≤ m + 32 * (s.current + 1); omega))
        (by show 32 * toks.length + 16 ≤ m + 32 * (s.current + 1); omega)
    have hle' : s.current + 1 ≤ s'.current := hle
    exact ⟨ost, s', hrun, by omega, hlt'⟩
  simp only [hm2]
  have hnea : notEofAt toks s.current := by
    intro t' ht'
    rw [ht] at ht'
    cases ht'
    exact hne
  obtain ⟨ost, s', hrun, hle, hlt', hstr⟩ :=
    hm.withRecovery_s s (statement toks m s) hs
      (fun hz => hz ▸ hnea)
      (hm.statement_s s hs (by omega))
      (by omega)
  exact ⟨ost, s', hrun, hstr hnea, hlt'⟩

theorem parseLoop_step (toks : List Token) (m : Nat)
    (hm : SafeAt toks m) :
    ∀ (s : PState) (acc : List Stmt), s.current < toks.length →
    32 * toks.length + 18 ≤ m + 1 + 32 * s.current →
    ∃ res s', parseLoop toks (m + 1) acc s = .ok res s' ∧
      s.current ≤ s'.current ∧ s'.current < toks.length := by
  intro s acc hs hb
  obtain ⟨t, ht⟩ := get?_lt_some toks s.current hs
  simp only [parseLoop]
  by_cases heof : t.token_type = .EOF
  · have hae : isAtEnd toks s = some true := by
      rw [isAtEnd_eq_of_get toks s t ht]
      simp [heof]
    simp only [hae]
    exact ⟨acc, s, rfl, le_refl _, hs⟩
  · have hae : isAtEnd toks s = some false := by
      rw [isAtEnd_eq_of_get toks s t ht]
      simp [heof]
    simp only [hae]
    obtain ⟨ost, s1, hrun, hlt1, hlt2⟩ := hm.declaration_s s t ht heof (by omega)
    simp only [hrun]
    cases ost with
    | some st =>
        obtain ⟨res, s2, hrun2, hle2, hlt3⟩ :=
          hm.parseLoop_s s1 (acc ++ [st]) hlt2 (by omega)
        exact ⟨res, s2, hrun2, by omega, hlt3⟩
    | none =>
        obtain ⟨res, s2, hrun2, hle2, hlt3⟩ :=
          hm.parseLoop_s s1 acc hlt2 (by omega)
        exact ⟨res, s2, hrun2, by omega, hlt3⟩

theorem parse_step (toks : List Token) (m : Nat)
    (hm : SafeAt toks m) :
    ∀ s : PState, s.current < toks.length →
    32 * toks.length + 19 ≤ m + 1 + 32 * s.current →
    ∃ res s', parse toks (m + 1) s = .ok res s' ∧
      s.current ≤ s'.current ∧ s'.current < toks.length := by
  intro s hs hb
  simp only [parse]
  exact hm.parseLoop_s s [] hs (by omega)

end RLox

namespace RLox

theorem safeAt_succ (toks : List Token) (m : Nat)
    (wfE : ∀ u, toks.getLast? = some u → u.token_type = .EOF)
    (wfL : ∀ t ∈ toks, t.token_type = .NUMBER ∨ t.token_type = .STRING →
      t.literal.isSome)
    (hm : SafeAt toks m) : SafeAt toks (m + 1) :=
  ⟨primary_step toks m wfE wfL hm,
    callLoop_step toks m wfE hm,
    call_step toks m wfE hm,
    argLoop_step toks m wfE hm,
    finish_call_step toks m wfE hm,
    unary_step toks m wfE hm,
    factorLoop_step toks m wfE hm,
    factor_step toks m wfE hm,
    termLoop_step toks m wfE hm,
    term_step toks m wfE hm,
    comparisonLoop_step toks m wfE hm,
    comparison_step toks m wfE hm,
    equalityLoop_step toks m wfE hm,
    equality_step toks m wfE hm,
    andLoop_step toks m wfE hm,
    and_step toks m wfE hm,
    orLoop_step toks m wfE hm,
    or_step toks m wfE hm,
    assignment_step toks m wfE hm,
    expression_step toks m hm,
    print_statement_step toks m wfE hm,
    expression_statement_step toks m wfE hm,
    return_statement_step toks m wfE hm,
    var_declaration_step toks m wfE hm,
    paramLoop_step toks m wfE hm,
    function_step toks m wfE hm,
    while_statement_step toks m wfE hm,
    if_statement_step toks m wfE hm,
    for_statement_step toks m wfE hm,
    blockLoop_step toks m wfE hm,
    block_step toks m hm,
    statement_step toks m wfE hm,
    withRecovery_step toks m wfE,
    declaration_step toks m wfE hm,
    parseLoop_step toks m hm,
    parse_step toks m hm⟩

theorem safeAt (toks : List Token)
    (wfE : ∀ u, toks.getLast? = some u → u.token_type = .EOF)
    (wfL : ∀ t ∈ toks, t.token_type = .NUMBER ∨ t.token_type = .STRING →
      t.literal.isSome) : ∀ n : Nat, SafeAt toks n
  | 0 => safeAt_zero toks
  | n + 1 => safeAt_succ toks n wfE wfL (safeAt toks wfE wfL n)

end RLox

namespace RLox

/-- C10: for every non-empty token sequence terminated by an
end-of-input token in which every NUMBER and STRING token carries a
literal value, and for every fuel of at least `32 * toks.length + 19`,
`Parser::parse` (run from the initial parser state) terminates with a
statement list: the run never reaches the `.crash` outcome that models
a panic (an out-of-bounds token access, `previous` invoked at position
0, or a failing literal unwrap in `primary`), and never exhausts its
fuel. -/
theorem parse_total (toks : List Token) (hwf : WFToks toks) :
    ∀ fuel : Nat, 32 * toks.length + 19 ≤ fuel →
    ∃ stmts s', parse toks fuel PState.new = .ok stmts s' := by
  intro fuel hfuel
  obtain ⟨hne, wfE, wfL⟩ := hwf
  have hlen : 0 < toks.length := List.length_pos.mpr hne
  obtain ⟨res, s', hrun, _, _⟩ := (safeAt toks wfE wfL fuel).parse_s PState.new
    (by show (0 : Nat) < toks.length; exact hlen)
    (by show 32 * toks.length + 19 ≤ fuel + 32 * 0; omega)
  exact ⟨res, s', hrun⟩

/-- Witness: the one-token stream holding only the end-of-input token
is well formed and parses to a statement list at fuel 51. -/
theorem parse_total_witness :
    WFToks [opTok .EOF ""] ∧
      ∃ stmts s', parse [opTok .EOF ""] 51 PState.new = .ok stmts s' := by
  have hwf : WFToks [opTok .EOF ""] := by
    refine ⟨by simp, ?_, ?_⟩
    · intro t htl
      rw [List.getLast?_singleton] at htl
      cases htl
      rfl
    · intro t htm hns
      simp only [List.mem_singleton] at htm
      rw [htm] at hns
      rcases hns with h | h <;> exact TokenType.noConfusion h
  exact ⟨hwf, parse_total [opTok .EOF ""] hwf 51 (by decide)⟩

end RLox
